import Mathlib

/-!
# Boat management (`boat_management.c`): a shallow embedding

The program keeps a registry of at most `MAX_BOATS` boats in a global array
`boats[0 .. boatCount-1]`, loads it from a comma separated file, edits it from
a menu (add, remove, payment, monthly charges) and writes it back.

Conventions of the embedding.

* A C string is a `List Char`: every `Char` stands for one byte and the
  terminating NUL is not part of the list (`cstr` cuts a buffer at its first
  NUL).  The C locale is the default `"C"` locale.
* The global array with its counter is a `List Boat`; `boatCount` is the
  length of the list.
* `int` is a 32 bit two's complement integer, kept as an `Int` in range.
* `float` and `double` are IEEE-754 binary32 and binary64 values (`CFloat`),
  with round-to-nearest-even; nothing is idealised to real numbers.
* `malloc` is taken to succeed.
* `qsort` is any function that returns a permutation of its input that is
  ordered by the comparison function (`Qsort`); the C standard promises no
  more, in particular no stability.
-/

namespace BoatManagement

set_option maxRecDepth 100000

/-! ## Characters and strings (`<ctype.h>`, `<string.h>`) -/

/-- A C string: the bytes before the terminating NUL. -/
abbrev CString := List Char

/-- The string held in a buffer: everything before the first NUL. -/
def cstr (buf : List Char) : CString :=
  buf.takeWhile (fun c => c != '\x00')

/-- The function `isspace` in the C locale: space, `\t`, `\n`, `\v`, `\f`, `\r`. -/
def isspace (c : Char) : Bool :=
  c.toNat == 32 || (9 ≤ c.toNat && c.toNat ≤ 13)

/-- The function `tolower` in the C locale. -/
def tolower (c : Char) : Char :=
  if 65 ≤ c.toNat ∧ c.toNat ≤ 90 then Char.ofNat (c.toNat + 32) else c

/-- The byte that `strcasecmp` compares: `tolower` of the byte, as a number. -/
def lowerByte (c : Char) : Nat := (tolower c).toNat

/-- The function `strcasecmp`: the difference of the first pair of bytes that
differ after `tolower`, 0 if the strings end first.  The end of a list is its
terminating NUL, and a NUL inside a list ends the string as well. -/
def strcasecmp : CString → CString → Int
  | [], [] => 0
  | [], b :: _ => 0 - (lowerByte b : Int)
  | a :: _, [] => (lowerByte a : Int)
  | a :: as, b :: bs =>
    if lowerByte a = lowerByte b then (if a.toNat = 0 then 0 else strcasecmp as bs)
    else (lowerByte a : Int) - (lowerByte b : Int)

/-- The function `trimWhitespace` (lines 39-48): skips leading white space; if
nothing is left returns the empty string; otherwise cuts the string after its
last non-space byte. -/
def trimWhitespace (str : CString) : CString :=
  let str1 := str.dropWhile isspace
  if str1 = [] then str1
  else (str1.reverse.dropWhile isspace).reverse

/-- One call of `strtok(_, ",")` on the text that starts at the saved position:
skips leading commas; `none` (NULL) if nothing is left; otherwise the token up
to the next comma and the new saved position (behind that comma, or the end). -/
def strtok (s : CString) : Option (CString × CString) :=
  let s1 := s.dropWhile (fun c => c == ',')
  if s1 = [] then none
  else some (s1.takeWhile (fun c => c != ','), (s1.dropWhile (fun c => c != ',')).drop 1)

/-- What `strncpy(dst, src, n); dst[n] = 0` leaves in `dst`: the first `n`
bytes of the string `src`. -/
def strncpy (src : CString) (n : Nat) : CString := (cstr src).take n

/-! ## Boat types (lines 10-15, 58-82) -/

/-- The enumeration `BoatType`. -/
inductive BoatType where
  | SLIP
  | LAND
  | TRAILOR
  | STORAGE
  deriving DecidableEq, Repr

/-- The function `getBoatType` (lines 58-71). -/
def getBoatType (typeStr : CString) : BoatType :=
  if strcasecmp typeStr "slip".toList = 0 then BoatType.SLIP
  else if strcasecmp typeStr "land".toList = 0 then BoatType.LAND
  else if strcasecmp typeStr "trailor".toList = 0 then BoatType.TRAILOR
  else if strcasecmp typeStr "storage".toList = 0 then BoatType.STORAGE
  else BoatType.SLIP

/-- The function `getBoatTypeString` (lines 74-82). -/
def getBoatTypeString : BoatType → CString
  | BoatType.SLIP => "slip".toList
  | BoatType.LAND => "land".toList
  | BoatType.TRAILOR => "trailor".toList
  | BoatType.STORAGE => "storage".toList

/-! ## The types `float` and `double` (IEEE-754 binary32 and binary64) -/

/-- A floating point datum: a NaN, an infinity, or the finite number
`(-1)^neg * m * 2^e`.  In a given format the finite values are kept in the
form the format stores them: `m < 2^prec`, `emin ≤ e ≤ emax`, and
`2^(prec-1) ≤ m` unless `e = emin` (subnormals and zero). -/
inductive CFloat where
  | nan (neg : Bool)
  | inf (neg : Bool)
  | fin (neg : Bool) (m : Nat) (e : Int)
  deriving DecidableEq, Repr

/-- A binary format: precision in bits, exponent of the last place of the
subnormals, exponent of the last place of the largest finite values. -/
structure Format where
  prec : Nat
  emin : Int
  emax : Int

/-- The format of `float`. -/
def binary32 : Format := ⟨24, -149, 104⟩

/-- The format of `double`. -/
def binary64 : Format := ⟨53, -1074, 971⟩

/-- Number of binary digits of `n`, by halving (`fuel` bounds the loop). -/
def bitLenAux : Nat → Nat → Nat
  | 0, _ => 0
  | fuel + 1, n => if n = 0 then 0 else bitLenAux fuel (n / 2) + 1

/-- Number of binary digits of `n` (0 for 0). -/
def bitLen (n : Nat) : Nat := bitLenAux n n

/-- Rounding of the positive rational `n / d` (`d > 0`) to the nearest value of
the format, ties to even, with sign `neg`; overflow gives an infinity and
underflow a subnormal or zero. -/
def roundBin (f : Format) (neg : Bool) (n d : Nat) : CFloat :=
  if n = 0 then CFloat.fin neg 0 f.emin
  else
    let k : Int := (bitLen n : Int) - (bitLen d : Int)
    let fl : Int := if d * 2 ^ k.toNat ≤ n * 2 ^ (-k).toNat then k else k - 1
    let e : Int := max (fl - ((f.prec : Int) - 1)) f.emin
    let num := n * 2 ^ (-e).toNat
    let den := d * 2 ^ e.toNat
    let q := num / den
    let r := num % den
    let q1 := if den < 2 * r ∨ (2 * r = den ∧ q % 2 = 1) then q + 1 else q
    if q1 = 2 ^ f.prec then
      (if f.emax < e + 1 then CFloat.inf neg else CFloat.fin neg (2 ^ (f.prec - 1)) (e + 1))
    else if f.emax < e then CFloat.inf neg
    else CFloat.fin neg q1 e

/-- Conversion of a value to the format `f` (the C conversions `(float)` and
`(double)`). -/
def CFloat.convert (f : Format) : CFloat → CFloat
  | CFloat.nan s => CFloat.nan s
  | CFloat.inf s => CFloat.inf s
  | CFloat.fin s m e => roundBin f s (m * 2 ^ e.toNat) (2 ^ (-e).toNat)

/-- The conversion `(float) x`. -/
def toFloat (x : CFloat) : CFloat := x.convert binary32

/-- The conversion `(double) x`. -/
def toDouble (x : CFloat) : CFloat := x.convert binary64

/-- The integer `±n`. -/
def signed (neg : Bool) (n : Nat) : Int := if neg then 0 - (n : Int) else (n : Int)

/-- The sum `x + y` computed in format `f`.  An invalid operation gives the
default NaN. -/
def CFloat.add (f : Format) : CFloat → CFloat → CFloat
  | CFloat.nan s, _ => CFloat.nan s
  | _, CFloat.nan s => CFloat.nan s
  | CFloat.inf s, CFloat.inf t => if s = t then CFloat.inf s else CFloat.nan true
  | CFloat.inf s, CFloat.fin _ _ _ => CFloat.inf s
  | CFloat.fin _ _ _, CFloat.inf t => CFloat.inf t
  | CFloat.fin s m e, CFloat.fin t n g =>
    let c : Int := min e g
    let sum : Int := signed s (m * 2 ^ (e - c).toNat) + signed t (n * 2 ^ (g - c).toNat)
    if sum = 0 then CFloat.fin (s && t) 0 f.emin
    else roundBin f (decide (sum < 0)) (sum.natAbs * 2 ^ c.toNat) (2 ^ (-c).toNat)

/-- The value `-x`. -/
def CFloat.negate : CFloat → CFloat
  | CFloat.nan s => CFloat.nan (!s)
  | CFloat.inf s => CFloat.inf (!s)
  | CFloat.fin s m e => CFloat.fin (!s) m e

/-- The difference `x - y` computed in format `f`. -/
def CFloat.sub (f : Format) : CFloat → CFloat → CFloat
  | CFloat.nan s, _ => CFloat.nan s
  | _, CFloat.nan s => CFloat.nan s
  | x, y => CFloat.add f x y.negate

/-- The product `x * y` computed in format `f`. -/
def CFloat.mul (f : Format) : CFloat → CFloat → CFloat
  | CFloat.nan s, _ => CFloat.nan s
  | _, CFloat.nan s => CFloat.nan s
  | CFloat.inf s, CFloat.inf t => CFloat.inf (s != t)
  | CFloat.inf s, CFloat.fin t n _ => if n = 0 then CFloat.nan true else CFloat.inf (s != t)
  | CFloat.fin s m _, CFloat.inf t => if m = 0 then CFloat.nan true else CFloat.inf (s != t)
  | CFloat.fin s m e, CFloat.fin t n g =>
    roundBin f (s != t) (m * n * 2 ^ (e + g).toNat) (2 ^ (-(e + g)).toNat)

/-- The comparison `x < y`; false when an operand is a NaN. -/
def CFloat.lt : CFloat → CFloat → Bool
  | CFloat.nan _, _ => false
  | _, CFloat.nan _ => false
  | CFloat.inf s, CFloat.inf t => s && !t
  | CFloat.inf s, CFloat.fin _ _ _ => s
  | CFloat.fin _ _ _, CFloat.inf t => !t
  | CFloat.fin s m e, CFloat.fin t n g =>
    let c : Int := min e g
    decide (signed s (m * 2 ^ (e - c).toNat) < signed t (n * 2 ^ (g - c).toNat))

/-- The comparison `x > y`. -/
def CFloat.gt (x y : CFloat) : Bool := CFloat.lt y x

/-- The comparison `x == y` of C: false on a NaN, and `-0 == +0`. -/
def CFloat.eq (x y : CFloat) : Bool :=
  match x, y with
  | CFloat.nan _, _ => false
  | _, CFloat.nan _ => false
  | x, y => !(CFloat.lt x y) && !(CFloat.lt y x)

/-! ## Number conversions of `<stdlib.h>` and `<stdio.h>` -/

/-- The function `isdigit`. -/
def isdigit (c : Char) : Bool := 48 ≤ c.toNat && c.toNat ≤ 57

/-- Value of a hexadecimal digit, if the byte is one. -/
def hexval (c : Char) : Option Nat :=
  if 48 ≤ c.toNat ∧ c.toNat ≤ 57 then some (c.toNat - 48)
  else if 97 ≤ c.toNat ∧ c.toNat ≤ 102 then some (c.toNat - 87)
  else if 65 ≤ c.toNat ∧ c.toNat ≤ 70 then some (c.toNat - 55)
  else none

/-- Value of a string of decimal digits, read left to right from `acc`. -/
def decValue (acc : Nat) : CString → Nat
  | [] => acc
  | c :: cs => decValue (10 * acc + (c.toNat - 48)) cs

/-- Value of a string of hexadecimal digits, read left to right from `acc`. -/
def hexValue (acc : Nat) : CString → Nat
  | [] => acc
  | c :: cs => hexValue (16 * acc + (hexval c).getD 0) cs

/-- An optional sign: whether it is `-`, and the text behind it. -/
def takeSign : CString → Bool × CString
  | '-' :: r => (true, r)
  | '+' :: r => (false, r)
  | s => (false, s)

/-- Whether `s` starts with the lower case word `w`, letter case ignored. -/
def startsWithCI : CString → CString → Bool
  | _, [] => true
  | [], _ :: _ => false
  | c :: cs, w :: ws => tolower c == w && startsWithCI cs ws

/-- An exponent part `[eE][+-]?digits` (`mark` is the lower case letter), as
read by `strtod`: its value, or 0 when the text does not start with one. -/
def exponentPart (mark : Char) : CString → Int
  | [] => 0
  | c :: r =>
    if tolower c == mark then
      let sr := takeSign r
      let ds := sr.2.takeWhile isdigit
      if ds = [] then 0 else signed sr.1 (decValue 0 ds)
    else 0

/-- The function `strtod(s, NULL)` in the C locale: white space, an optional
sign, then `inf`/`infinity`, `nan`, a hexadecimal or a decimal floating
constant; the longest valid prefix is converted, correctly rounded to
`double`; if there is none the result is `+0`. -/
def strtod (s : CString) : CFloat :=
  let sg := takeSign (s.dropWhile isspace)
  let neg := sg.1
  let t := sg.2
  if startsWithCI t "inf".toList then CFloat.inf neg
  else if startsWithCI t "nan".toList then CFloat.nan neg
  else
    let h := t.drop 2
    let hi := h.takeWhile (fun c => (hexval c).isSome)
    let h1 := h.dropWhile (fun c => (hexval c).isSome)
    let hf := match h1 with
      | '.' :: r => r.takeWhile (fun c => (hexval c).isSome)
      | _ => []
    let h2 := match h1 with
      | '.' :: r => r.dropWhile (fun c => (hexval c).isSome)
      | _ => h1
    if startsWithCI t "0x".toList ∧ ¬ (hi = [] ∧ hf = []) then
      let ex : Int := exponentPart 'p' h2 - 4 * (hf.length : Int)
      roundBin binary64 neg (hexValue 0 (hi ++ hf) * 2 ^ ex.toNat) (2 ^ (-ex).toNat)
    else
      let di := t.takeWhile isdigit
      let d1 := t.dropWhile isdigit
      let df := match d1 with
        | '.' :: r => r.takeWhile isdigit
        | _ => []
      let d2 := match d1 with
        | '.' :: r => r.dropWhile isdigit
        | _ => d1
      if di = [] ∧ df = [] then CFloat.fin false 0 binary64.emin
      else
        let ex : Int := exponentPart 'e' d2 - (df.length : Int)
        roundBin binary64 neg (decValue 0 (di ++ df) * 10 ^ ex.toNat) (10 ^ (-ex).toNat)

/-- The function `atof`. -/
def atof (s : CString) : CFloat := strtod s

/-- Reduction of an integer to the range of a 32 bit `int`. -/
def wrapInt (x : Int) : Int := (x + 2 ^ 31) % 2 ^ 32 - 2 ^ 31

/-- The function `atoi`, as `(int) strtol(s, NULL, 10)`: white space, an
optional sign, decimal digits; the value is clamped to the range of `long`
(64 bits) and then reduced to `int`. -/
def atoi (s : CString) : Int :=
  let sg := takeSign (s.dropWhile isspace)
  let v : Int := (decValue 0 (sg.2.takeWhile isdigit) : Int)
  wrapInt (if sg.1 then max (0 - v) (0 - 2 ^ 63) else min v (2 ^ 63 - 1))

/-- The decimal digit `d`. -/
def digitChar (d : Nat) : Char := Char.ofNat (48 + d)

/-- Decimal digits of `n` in front of `acc` (`fuel` bounds the loop). -/
def decDigitsAux : Nat → Nat → CString → CString
  | 0, _, acc => acc
  | fuel + 1, n, acc =>
    if n / 10 = 0 then digitChar (n % 10) :: acc
    else decDigitsAux fuel (n / 10) (digitChar (n % 10) :: acc)

/-- The decimal numeral of `n`, without leading zeros. -/
def decDigits (n : Nat) : CString := decDigitsAux (n + 1) n []

/-- The conversion `%d` of `printf`. -/
def fmtInt (x : Int) : CString :=
  if x < 0 then '-' :: decDigits x.natAbs else decDigits x.natAbs

/-- The `k` lowest decimal digits of `n`, leading zeros included. -/
def fracDigits : Nat → Nat → CString
  | 0, _ => []
  | k + 1, n => fracDigits k (n / 10) ++ [digitChar (n % 10)]

/-- The conversion `%.Pf` of `printf` (for `P` = 0 and 2 here): the value
rounded to `P` decimals, ties to even, an integer part of at least one digit,
a decimal point only when `P > 0`, and a `-` for every negative datum, the
negative zero included. -/
def fmtFixed (P : Nat) : CFloat → CString
  | CFloat.nan s => (if s then ['-'] else []) ++ "nan".toList
  | CFloat.inf s => (if s then ['-'] else []) ++ "inf".toList
  | CFloat.fin s m e =>
    let num := m * 10 ^ P * 2 ^ e.toNat
    let den := 2 ^ (-e).toNat
    let q := num / den
    let r := num % den
    let N := if den < 2 * r ∨ (2 * r = den ∧ q % 2 = 1) then q + 1 else q
    (if s then ['-'] else []) ++ decDigits (N / 10 ^ P) ++
      (if P = 0 then [] else '.' :: fracDigits P (N % 10 ^ P))

/-! ## Boats and the registry (lines 6-36) -/

/-- The constant `MAX_BOATS`. -/
def MAX_BOATS : Nat := 120

/-- The constant `MAX_LINE_LENGTH`. -/
def MAX_LINE_LENGTH : Nat := 256

/-- The union `ExtraInfo` together with the tag that says which member was
stored; the program always stores the member that belongs to the boat type. -/
inductive ExtraInfo where
  | slip_number (n : Int)
  | bay_letter (c : Char)
  | trailer_license (s : CString)
  | storage_number (n : Int)
  deriving DecidableEq, Repr

/-- The structure `Boat`; its field `type` is the tag of `info`. -/
structure Boat where
  name : CString
  length : CFloat
  info : ExtraInfo
  amountOwed : CFloat
  deriving DecidableEq, Repr

/-- The field `type` of a boat. -/
def Boat.type (b : Boat) : BoatType :=
  match b.info with
  | ExtraInfo.slip_number _ => BoatType.SLIP
  | ExtraInfo.bay_letter _ => BoatType.LAND
  | ExtraInfo.trailer_license _ => BoatType.TRAILOR
  | ExtraInfo.storage_number _ => BoatType.STORAGE

/-- The function `compareBoats` (lines 51-55). -/
def compareBoats (a b : Boat) : Int := strcasecmp a.name b.name

/-- A library function `qsort` used with `compareBoats`: all that the C
standard promises is that the result is a rearrangement of the array in which
the elements are in the order of the comparison function. -/
structure Qsort where
  sort : List Boat → List Boat
  perm : ∀ l, List.Perm (sort l) l
  sorted : ∀ l, List.Pairwise (fun a b => compareBoats a b ≤ 0) (sort l)

/-- The function `findBoatByName` (lines 85-92): the index `i` of the pointer
`boats[i]` that is returned, `none` for NULL. -/
def findBoatByName : List Boat → CString → Option Nat
  | [], _ => none
  | b :: bs, name =>
    if strcasecmp b.name name = 0 then some 0
    else (findBoatByName bs name).map (fun i => i + 1)

/-! ## Reading boats (lines 95-175 and 240-308) -/

/-- Lines 283-304 of `addBoatFromCSV`: the boat built from the five fields. -/
def newBoatCSV (name : CString) (length : CFloat) (type : BoatType) (extraStr : CString)
    (amountOwed : CFloat) : Boat :=
  { name := strncpy name 127
    length := length
    info := match type with
      | BoatType.SLIP => ExtraInfo.slip_number (atoi extraStr)
      | BoatType.LAND => ExtraInfo.bay_letter (extraStr.headD '\x00')
      | BoatType.TRAILOR => ExtraInfo.trailer_license (strncpy extraStr 19)
      | BoatType.STORAGE => ExtraInfo.storage_number (atoi extraStr)
    amountOwed := amountOwed }

/-- Lines 241-304 of `addBoatFromCSV`, the capacity test left out: the boat
that the line describes, `none` where the function returns early. -/
def parseCSV (csvLine : CString) : Option Boat :=
  let line := strncpy csvLine (MAX_LINE_LENGTH - 1)
  match strtok line with
  | none => none
  | some (token1, p1) =>
    let name := strncpy (trimWhitespace token1) 127
    match strtok p1 with
    | none => none
    | some (token2, p2) =>
      let length := toFloat (atof (trimWhitespace token2))
      match strtok p2 with
      | none => none
      | some (token3, p3) =>
        let typeStr := strncpy (trimWhitespace token3) 19
        let type := getBoatType typeStr
        match strtok p3 with
        | none => none
        | some (token4, p4) =>
          let extraStr := strncpy (trimWhitespace token4) 49
          match strtok p4 with
          | none => none
          | some (token5, _) =>
            let amountOwed := toFloat (atof (trimWhitespace token5))
            some (newBoatCSV name length type extraStr amountOwed)

/-- The function `addBoatFromCSV` (lines 240-308). -/
def addBoatFromCSV (q : Qsort) (boats : List Boat) (csvLine : CString) : List Boat :=
  match parseCSV csvLine with
  | none => boats
  | some newBoat =>
    if boats.length ≥ MAX_BOATS then boats
    else q.sort (boats ++ [newBoat])

/-- The buffers that successive calls `fgets(line, 256, fp)` deliver: each
takes bytes up to and including a newline, at most 255 (`room` is what is left
of the buffer, `cur` the bytes taken so far, last first). -/
def fgetsAll : Nat → List Char → List Char → List (List Char)
  | _, cur, [] => if cur = [] then [] else [cur.reverse]
  | room, cur, c :: cs =>
    if c = '\n' ∨ room ≤ 1 then (c :: cur).reverse :: fgetsAll (MAX_LINE_LENGTH - 1) [] cs
    else fgetsAll (room - 1) (c :: cur) cs

/-- Lines 147-169 of `loadBoatsFromFile`: the boat built from the five fields. -/
def newBoatLoad (name : CString) (length : CFloat) (type : BoatType) (extraStr : CString)
    (amountOwed : CFloat) : Boat :=
  { name := strncpy name 127
    length := length
    info := match type with
      | BoatType.SLIP => ExtraInfo.slip_number (atoi extraStr)
      | BoatType.LAND => ExtraInfo.bay_letter (extraStr.headD '\x00')
      | BoatType.TRAILOR => ExtraInfo.trailer_license (strncpy extraStr 19)
      | BoatType.STORAGE => ExtraInfo.storage_number (atoi extraStr)
    amountOwed := amountOwed }

/-- Lines 104-135 and 147-169 of `loadBoatsFromFile` on one buffer filled by
`fgets`, the capacity test left out: the boat that the line describes, `none`
where the loop continues with the next line. -/
def parseLoad (buf : List Char) : Option Boat :=
  let line := (cstr buf).takeWhile (fun c => c != '\n')
  if line.length = 0 then none
  else
    match strtok line with
    | none => none
    | some (token1, p1) =>
      let name := strncpy (trimWhitespace token1) 127
      match strtok p1 with
      | none => none
      | some (token2, p2) =>
        let length := toFloat (atof (trimWhitespace token2))
        match strtok p2 with
        | none => none
        | some (token3, p3) =>
          let typeStr := strncpy (trimWhitespace token3) 19
          let type := getBoatType typeStr
          match strtok p3 with
          | none => none
          | some (token4, p4) =>
            let extraStr := strncpy (trimWhitespace token4) 49
            match strtok p4 with
            | none => none
            | some (token5, _) =>
              let amountOwed := toFloat (atof (trimWhitespace token5))
              some (newBoatLoad name length type extraStr amountOwed)

/-- The loop of `loadBoatsFromFile` (lines 102-171) over the buffers read. -/
def loadLoop : List Boat → List (List Char) → List Boat
  | boats, [] => boats
  | boats, buf :: rest =>
    match parseLoad buf with
    | none => loadLoop boats rest
    | some newBoat =>
      if boats.length ≥ MAX_BOATS then boats
      else loadLoop (boats ++ [newBoat]) rest

/-- The function `loadBoatsFromFile` (lines 95-175); `file` is the content of
the file, `none` when it cannot be opened. -/
def loadBoatsFromFile (q : Qsort) (boats : List Boat) (file : Option (List Char)) : List Boat :=
  match file with
  | none => boats
  | some content => q.sort (loadLoop boats (fgetsAll (MAX_LINE_LENGTH - 1) [] content))

/-! ## Writing boats (lines 178-208) -/

/-- The text that `saveBoatsToFile` puts into `extra` (lines 186-203). -/
def extraString (b : Boat) : CString :=
  match b.info with
  | ExtraInfo.slip_number n => fmtInt n
  | ExtraInfo.bay_letter c => cstr [c]
  | ExtraInfo.trailer_license s => s
  | ExtraInfo.storage_number n => fmtInt n

/-- The line that `saveBoatsToFile` writes for one boat (line 205), without
its final newline. -/
def formatLine (b : Boat) : CString :=
  b.name ++ [','] ++ fmtFixed 0 b.length ++ [','] ++ getBoatTypeString b.type ++ [','] ++
    extraString b ++ [','] ++ fmtFixed 2 b.amountOwed

/-- The function `saveBoatsToFile` (lines 178-208): the content of the file. -/
def saveBoatsToFile : List Boat → List Char
  | [] => []
  | b :: bs => formatLine b ++ ['\n'] ++ saveBoatsToFile bs

/-! ## Removing, charging, paying (lines 311-353 and 389-408) -/

/-- The function `removeBoatByName` (lines 311-327): the registry afterwards
and the flag `found`. -/
def removeBoatByName : List Boat → CString → List Boat × Bool
  | [], _ => ([], false)
  | b :: bs, name =>
    if strcasecmp b.name name = 0 then (bs, true)
    else ((removeBoatByName bs name).1.cons b, (removeBoatByName bs name).2)

/-- The `double` constant that the compiler makes of a decimal literal. -/
def doubleLiteral (text : String) : CFloat := strtod text.toList

/-- The variable `charge` of `updateMonthlyCharges` (lines 333-349). -/
def monthlyCharge (b : Boat) : CFloat :=
  match b.type with
  | BoatType.SLIP => toFloat (CFloat.mul binary64 (toDouble b.length) (doubleLiteral "12.50"))
  | BoatType.LAND => toFloat (CFloat.mul binary64 (toDouble b.length) (doubleLiteral "14.00"))
  | BoatType.TRAILOR => toFloat (CFloat.mul binary64 (toDouble b.length) (doubleLiteral "25.00"))
  | BoatType.STORAGE => toFloat (CFloat.mul binary64 (toDouble b.length) (doubleLiteral "11.20"))

/-- The function `updateMonthlyCharges` (lines 330-353). -/
def updateMonthlyCharges : List Boat → List Boat
  | [] => []
  | b :: bs =>
    { b with amountOwed := CFloat.add binary32 b.amountOwed (monthlyCharge b) } ::
      updateMonthlyCharges bs

/-- Outcome of the menu entry "payment". -/
inductive PaymentOutcome where
  | noBoat
  | rejected
  | accepted
  deriving DecidableEq, Repr

/-- Lines 399-405 of `main`: the payment `payment` offered for `boat`. -/
def applyPayment (boat : Boat) (payment : CFloat) : Boat × PaymentOutcome :=
  if CFloat.gt payment boat.amountOwed then (boat, PaymentOutcome.rejected)
  else ({ boat with amountOwed := CFloat.sub binary32 boat.amountOwed payment },
    PaymentOutcome.accepted)

/-- Lines 389-408 of `main`: the menu entry "payment" with the name and the
amount typed by the user. -/
def paymentEntry (boats : List Boat) (name amount : CString) : List Boat × PaymentOutcome :=
  match findBoatByName boats name with
  | none => (boats, PaymentOutcome.noBoat)
  | some i =>
    match boats[i]? with
    | none => (boats, PaymentOutcome.noBoat)
    | some boat =>
      ((boats.set i (applyPayment boat (toFloat (atof amount))).1),
        (applyPayment boat (toFloat (atof amount))).2)

/-! ## Notions used to state the properties -/

/-- Two strings are equal up to the case of their letters. -/
abbrev eqIgnoreCase (a b : CString) : Prop :=
  (cstr a).map tolower = (cstr b).map tolower

/-- The fields of a line: the pieces between its commas, empty ones included. -/
def splitComma : CString → List CString
  | [] => [[]]
  | c :: cs =>
    if c = ',' then [] :: splitComma cs
    else
      match splitComma cs with
      | [] => [[c]]
      | f :: fs => (c :: f) :: fs

/-- The comma-delimited tokens of a line: its non-empty fields. -/
def tokens (s : CString) : List CString := (splitComma s).filter (fun f => !f.isEmpty)

/-- The pair `m`, `e` is how the format stores the finite value `m * 2^e`. -/
def Format.stores (f : Format) (m : Nat) (e : Int) : Bool :=
  decide (m < 2 ^ f.prec) && decide (f.emin ≤ e) && decide (e ≤ f.emax) &&
    (decide (2 ^ (f.prec - 1) ≤ m) || decide (e = f.emin))

/-- A `float` number whose value is a whole multiple of `10^-P`: an
integer-valued number for `P = 0`, a number with at most two decimals for
`P = 2`. -/
def CFloat.hasDecimals (P : Nat) : CFloat → Bool
  | CFloat.fin _ m e =>
    binary32.stores m e && decide (m * 10 ^ P * 2 ^ e.toNat % 2 ^ (-e).toNat = 0)
  | _ => false

/-- The value is in the range of `int`. -/
def inIntRange (n : Int) : Bool := decide (-2147483648 ≤ n) && decide (n ≤ 2147483647)

/-- The payloads of the valid boats of claim C1: an `int` for a slip or a
storage, a single byte for a bay, a licence string of at most 19 bytes; the
bytes are none of the delimiters of the file format, comma and newline, which
the format cannot carry inside a field, and a licence has no NUL in it. -/
def validInfo : ExtraInfo → Bool
  | ExtraInfo.slip_number n => inIntRange n
  | ExtraInfo.bay_letter c => c != ',' && c != '\n'
  | ExtraInfo.trailer_license s =>
    decide (s.length ≤ 19) && s.all (fun c => c != ',' && c != '\n' && c != '\x00')
  | ExtraInfo.storage_number n => inIntRange n

/-- The `float` that C makes of the decimal amount `±K/100`: the nearest
`double`, converted to `float`. -/
def floatOfCents (neg : Bool) (K : Nat) : CFloat := toFloat (roundBin binary64 neg K 100)

/-- An amount with at most two decimals: a `float` whose value has at most two
decimals, or the `float` that C makes of a decimal amount with two decimals,
whatever its size. -/
def IsCentAmount (x : CFloat) : Prop :=
  x.hasDecimals 2 = true ∨ ∃ (neg : Bool) (K : Nat), x = floatOfCents neg K

/-- The valid boats of claim C1: a name of 1 to 127 bytes without NUL and
without the delimiters of the file format (comma, newline), an integer-valued
length, a payload as in `validInfo`, a balance with at most two decimals. -/
def ValidBoat (b : Boat) : Prop :=
  1 ≤ b.name.length ∧ b.name.length ≤ 127 ∧
    (∀ c ∈ b.name, c ≠ ',' ∧ c ≠ '\n' ∧ c ≠ '\x00') ∧
    b.length.hasDecimals 0 = true ∧ validInfo b.info = true ∧ IsCentAmount b.amountOwed

/-- Text that a field of the file format carries unchanged: not empty, without
comma, newline or NUL, and without white space at its two ends. -/
def cleanField (f : CString) : Bool :=
  !f.isEmpty && f.all (fun c => c != ',' && c != '\n' && c != '\x00') &&
    !isspace (f.headD ' ') && !isspace (f.reverse.headD ' ')

/-- The payloads that the file format carries unchanged. -/
def cleanInfo : ExtraInfo → Bool
  | ExtraInfo.slip_number n => inIntRange n
  | ExtraInfo.bay_letter c => cleanField [c]
  | ExtraInfo.trailer_license s => decide (s.length ≤ 19) && cleanField s
  | ExtraInfo.storage_number n => inIntRange n

/-- The valid boats whose name and payload the file format carries unchanged. -/
def CleanBoat (b : Boat) : Prop :=
  b.name.length ≤ 127 ∧ cleanField b.name = true ∧ b.length.hasDecimals 0 = true ∧
    cleanInfo b.info = true ∧ IsCentAmount b.amountOwed

/-- A datum is a number: neither an infinity nor a NaN. -/
def CFloat.isFinite : CFloat → Bool
  | CFloat.fin _ _ _ => true
  | _ => false

/-- A datum is the number zero (of either sign). -/
def CFloat.isZero : CFloat → Bool
  | CFloat.fin _ m _ => m == 0
  | _ => false

/-- The boat that both readers build from the first five tokens of a line. -/
def boatOfTokens (t1 t2 t3 t4 t5 : CString) : Boat :=
  newBoatCSV (strncpy (trimWhitespace t1) 127) (toFloat (atof (trimWhitespace t2)))
    (getBoatType (strncpy (trimWhitespace t3) 19)) (strncpy (trimWhitespace t4) 49)
    (toFloat (atof (trimWhitespace t5)))

/-- The names of the registry are in the order of `strcasecmp`. -/
def SortedByName (boats : List Boat) : Prop :=
  (boats.map Boat.name).Pairwise (fun a b => strcasecmp a b ≤ 0)

/-- The registries that the program can be in: it starts with the empty
registry and performs the menu's operations and loads in any order. -/
inductive Reachable (q : Qsort) : List Boat → Prop where
  | empty : Reachable q []
  | load (boats : List Boat) (file : Option (List Char)) :
      Reachable q boats → Reachable q (loadBoatsFromFile q boats file)
  | add (boats : List Boat) (csvLine : CString) :
      Reachable q boats → Reachable q (addBoatFromCSV q boats csvLine)
  | remove (boats : List Boat) (name : CString) :
      Reachable q boats → Reachable q (removeBoatByName boats name).1
  | charges (boats : List Boat) :
      Reachable q boats → Reachable q (updateMonthlyCharges boats)
  | payment (boats : List Boat) (name amount : CString) :
      Reachable q boats → Reachable q (paymentEntry boats name amount).1

/-- The boat `b` takes its fields from the tokens `t1` .. `t5`, as lines
246-304 (and 110-169) do: each token trimmed, the name cut to 127 bytes, the
kind name to 19, the extra text to 49 (the licence to 19), the numbers
converted by `atof` and `atoi`. -/
def fieldsFrom (b : Boat) (t1 t2 t3 t4 t5 : CString) : Prop :=
  b.name = strncpy (trimWhitespace t1) 127 ∧
  b.length = toFloat (atof (trimWhitespace t2)) ∧
  b.type = getBoatType (strncpy (trimWhitespace t3) 19) ∧
  b.info = (match getBoatType (strncpy (trimWhitespace t3) 19) with
    | BoatType.SLIP => ExtraInfo.slip_number (atoi (strncpy (trimWhitespace t4) 49))
    | BoatType.LAND => ExtraInfo.bay_letter ((strncpy (trimWhitespace t4) 49).headD '\x00')
    | BoatType.TRAILOR =>
      ExtraInfo.trailer_license (strncpy (strncpy (trimWhitespace t4) 49) 19)
    | BoatType.STORAGE => ExtraInfo.storage_number (atoi (strncpy (trimWhitespace t4) 49))) ∧
  b.amountOwed = toFloat (atof (trimWhitespace t5))

/-- The content of a text file with the given lines, each ended by a newline. -/
def unlines : List CString → List Char
  | [] => []
  | l :: ls => l ++ '\n' :: unlines ls

/-- The length of the trailer licence of a boat, 0 for the other kinds. -/
def licenseLength : ExtraInfo → Nat
  | ExtraInfo.trailer_license s => s.length
  | _ => 0

/-- No two boats of the registry have names that are equal up to the case of
their letters. -/
def UniqueNames (boats : List Boat) : Prop :=
  (boats.map Boat.name).Pairwise (fun a b => ¬ eqIgnoreCase a b)

/-- The registry after `addBoatFromCSV` has been called with each of the lines
in turn. -/
def addAll (q : Qsort) (boats : List Boat) (lines : List CString) : List Boat :=
  lines.foldl (addBoatFromCSV q) boats

/-- The boat's name equals `name` under `strcasecmp`. -/
def hasName (name : CString) (b : Boat) : Bool := decide (strcasecmp b.name name = 0)

/-- The library's `qsort` is stable: the boats of one name keep their order.
The C standard leaves this open. -/
def Qsort.Stable (q : Qsort) : Prop :=
  ∀ (l : List Boat) (name : CString), (q.sort l).filter (hasName name) = l.filter (hasName name)

/-- The merge loop of `msort_with_tmp`, the merge sort behind the `qsort` of
the GNU C library: while both runs have elements, the first element of the
left run is taken if `compareBoats` of the two first elements is `<= 0`, else
that of the right run; what is left of either run follows. `fuel` bounds the
number of steps. -/
def mergeRuns : Nat → List Boat → List Boat → List Boat
  | 0, xs, ys => xs ++ ys
  | _ + 1, [], ys => ys
  | _ + 1, xs, [] => xs
  | fuel + 1, x :: xs, y :: ys =>
    if compareBoats x y ≤ 0 then x :: mergeRuns fuel xs (y :: ys)
    else y :: mergeRuns fuel (x :: xs) ys

/-- The function `msort_with_tmp` of the GNU C library: an array of at most
one element is left as it is; otherwise the first `n / 2` elements and the
remaining ones are sorted and then merged. `fuel` bounds the depth. -/
def msort : Nat → List Boat → List Boat
  | 0, l => l
  | fuel + 1, l =>
    if l.length ≤ 1 then l
    else mergeRuns l.length (msort fuel (l.take (l.length / 2)))
      (msort fuel (l.drop (l.length / 2)))

/-- The line made of five fields, with commas between them. -/
def joinFields (f1 f2 f3 f4 f5 : CString) : CString :=
  f1 ++ ',' :: (f2 ++ ',' :: (f3 ++ ',' :: (f4 ++ ',' :: f5)))

/-- A non-blank field: text without comma and NUL that has a character other
than white space. -/
def isField (f : CString) : Bool :=
  f.all (fun c => c != ',' && c != '\x00') && f.any (fun c => !isspace c)

/-- Text made of white space only. -/
def isPadding (w : CString) : Bool := w.all isspace

/-- The text begins, after white space and a sign, like a number of `strtod`:
with a digit, with a point and a digit, or with the letters `inf` or `nan` in
either case. -/
def startsNumeric (t : CString) : Bool :=
  let u := (takeSign (t.dropWhile isspace)).2
  isdigit (u.headD ' ') || (u.headD ' ' == '.' && isdigit ((u.drop 1).headD ' ')) ||
    startsWithCI u "inf".toList || startsWithCI u "nan".toList

/-- The text does not continue a decimal numeral in front of it: it is empty
or starts with a character that is no digit, no point and none of the letters
`e`, `E`, `x`, `X`. -/
def endsNumeral : CString → Bool
  | [] => true
  | c :: _ => !isdigit c && c != '.' && tolower c != 'e' && tolower c != 'x'

/-- The comparison `x <= y` of C; false when an operand is a NaN. -/
def CFloat.le (x y : CFloat) : Bool := CFloat.lt x y || CFloat.eq x y

/-- The datum is a NaN. -/
def CFloat.isNaN : CFloat → Bool
  | CFloat.nan _ => true
  | _ => false

/-- The datum is one that a `float` variable holds: a NaN, an infinity, or a
finite number as binary32 stores it. -/
def CFloat.isFloat : CFloat → Bool
  | CFloat.fin _ m e => binary32.stores m e
  | _ => true

/-- The `float` number `+0`. -/
def zeroFloat : CFloat := CFloat.fin false 0 binary32.emin

/-- The rational value of the finite datum `fin s m e`. -/
def finValue (s : Bool) (m : Nat) (e : Int) : ℚ := ((signed s m : Int) : ℚ) * (2 : ℚ) ^ e

/-- The datum is a finite number greater than zero. -/
def CFloat.isPositive : CFloat → Bool
  | CFloat.fin false m _ => m != 0
  | _ => false

/-- The rates per foot of lines 335-345 as decimal numbers: 12.50 for a slip,
14.00 on land, 25.00 for a trailer, 11.20 in storage. -/
def rateOf : BoatType → ℚ
  | BoatType.SLIP => 25 / 2
  | BoatType.LAND => 14
  | BoatType.TRAILOR => 25
  | BoatType.STORAGE => 56 / 5

/-- The rational value of a finite datum; 0 for an infinity or a NaN. -/
def CFloat.toRat : CFloat → ℚ
  | CFloat.fin s m e => finValue s m e
  | _ => 0

/-- The rational number `v` is a `float` number: binary32 stores it exactly. -/
def IsFloatValue (v : ℚ) : Prop :=
  ∃ z : CFloat, z.isFloat = true ∧ z.isFinite = true ∧ z.toRat = v

/-- The boat at index `i` of the registry, which is `b`, is billed exactly `v`:
after `updateMonthlyCharges` its balance is finite and is the balance of `b`
plus `v`, as numbers. -/
def GainsExactly (boats : List Boat) (i : Nat) (b : Boat) (v : ℚ) : Prop :=
  ∃ b' : Boat, (updateMonthlyCharges boats)[i]? = some b' ∧
    b'.amountOwed.isFloat = true ∧ b'.amountOwed.isFinite = true ∧
    b'.amountOwed.toRat = b.amountOwed.toRat + v

/-! ## Data for the examples -/

/-- The `float` that a decimal constant denotes. -/
def floatLit (text : String) : CFloat := toFloat (strtod text.toList)

/-- The boat of the line `Sea Lion,21,slip,21,100.50`. -/
def seaLion : Boat :=
  { name := "Sea Lion".toList, length := floatLit "21", info := ExtraInfo.slip_number 21,
    amountOwed := floatLit "100.50" }

/-- A trailer boat `Jon Boat` of 14 feet with licence `TX1234` that owes nothing. -/
def jonBoat : Boat :=
  { name := "Jon Boat".toList, length := floatLit "14",
    info := ExtraInfo.trailer_license "TX1234".toList, amountOwed := floatLit "0.00" }

/-- A boat on land, in bay `B`. -/
def bigBrother : Boat :=
  { name := "Big Brother".toList, length := floatLit "20", info := ExtraInfo.bay_letter 'B',
    amountOwed := floatLit "1200.00" }

/-- A storage boat that owes 1200.10. -/
def osprey : Boat :=
  { name := "Osprey".toList, length := floatLit "25", info := ExtraInfo.storage_number 7,
    amountOwed := floatLit "1200.10" }

/-- The boat of the line `P,5,trailor, ,1`: a trailer boat whose licence is
the empty string. -/
def noLicence : Boat :=
  { name := "P".toList, length := floatLit "5", info := ExtraInfo.trailer_license [],
    amountOwed := floatLit "1" }

/-- The boat of the line `P,5,land, ,1`: a boat on land whose bay letter is
the NUL that ends the empty string. -/
def noBay : Boat :=
  { name := "P".toList, length := floatLit "5", info := ExtraInfo.bay_letter '\x00',
    amountOwed := floatLit "1" }

/-- The boat of the line `P,5,trailor,ABCDEFGHIJKLMNOPQR ST,1`: the licence is
cut to 19 bytes, the last of them a space. -/
def cutLicence : Boat :=
  { name := "P".toList, length := floatLit "5",
    info := ExtraInfo.trailer_license "ABCDEFGHIJKLMNOPQR ".toList,
    amountOwed := floatLit "1" }

/-- The file of the end-to-end scenario. -/
def scenarioFile : List Char :=
  "Sea Lion,21,slip,21,100.50\nJon Boat,14,trailer,TX1234,0.00\n".toList

/-- The scenario: the registry after loading `scenarioFile` into the empty one. -/
def scenarioLoaded (q : Qsort) : List Boat := loadBoatsFromFile q [] (some scenarioFile)

/-- The scenario: the registry after the monthly charges. -/
def scenarioCharged (q : Qsort) : List Boat := updateMonthlyCharges (scenarioLoaded q)

/-- The scenario: a payment of 50 on `Jon Boat`. -/
def scenarioPaidJon (q : Qsort) : List Boat × PaymentOutcome :=
  paymentEntry (scenarioCharged q) "Jon Boat".toList "50".toList

/-- The scenario: then a payment of 363.00 on `Sea Lion`. -/
def scenarioPaidSea (q : Qsort) : List Boat × PaymentOutcome :=
  paymentEntry (scenarioPaidJon q).1 "Sea Lion".toList "363.00".toList

/-- The scenario: the file written at the end. -/
def scenarioSaved (q : Qsort) : List Char := saveBoatsToFile (scenarioPaidSea q).1

/-- The boat that the program makes of the line `Jon Boat,14,trailer,TX1234,0.00`,
with the balance `owed`. -/
def jonAsSlip (owed : String) : Boat :=
  { name := "Jon Boat".toList, length := floatLit "14", info := ExtraInfo.slip_number 0,
    amountOwed := floatLit owed }

/-- The boat of the line `Ark,30,slip,1,0.00`. -/
def ark : Boat :=
  { name := "Ark".toList, length := floatLit "30", info := ExtraInfo.slip_number 1,
    amountOwed := floatLit "0.00" }

/-- The boat of the line `Ark,-30,slip,1,0.00`. -/
def arkNegative : Boat :=
  { name := "Ark".toList, length := floatLit "-30", info := ExtraInfo.slip_number 1,
    amountOwed := floatLit "0.00" }

/-- The boat of the line `Ark,30,slip,1,16777216`. -/
def arkRich : Boat :=
  { name := "Ark".toList, length := floatLit "30", info := ExtraInfo.slip_number 1,
    amountOwed := floatLit "16777216" }

/-- The boat of the line `Ark,30,slip,1,10000000000`. -/
def arkHuge : Boat :=
  { name := "Ark".toList, length := floatLit "30", info := ExtraInfo.slip_number 1,
    amountOwed := floatLit "10000000000" }

/-- The boat of the line `Dinghy,1,storage,1,0.00`. -/
def dinghy : Boat :=
  { name := "Dinghy".toList, length := floatLit "1", info := ExtraInfo.storage_number 1,
    amountOwed := floatLit "0.00" }

/-! ## The order of `strcasecmp`, and a reference `qsort` -/

theorem strcasecmp_nil_left (b : CString) : strcasecmp [] b ≤ 0 := by
  cases b with
  | nil => simp [strcasecmp]
  | cons y bs => simp only [strcasecmp]; omega

theorem lowerByte_eq (c : Char) :
    lowerByte c = if 65 ≤ c.toNat ∧ c.toNat ≤ 90 then c.toNat + 32 else c.toNat := by
  unfold lowerByte tolower
  split
  · rename_i h
    have hc : c = Char.ofNat c.toNat := (Char.ofNat_toNat c).symm
    obtain ⟨h1, h2⟩ := h
    generalize c.toNat = n at hc h1 h2 ⊢
    interval_cases n <;> rfl
  · rfl

theorem lowerByte_eq_zero (c : Char) : lowerByte c = 0 ↔ c.toNat = 0 := by
  rw [lowerByte_eq]; split <;> omega

theorem strcasecmp_total (a b : CString) : strcasecmp a b ≤ 0 ∨ strcasecmp b a ≤ 0 := by
  induction a generalizing b with
  | nil => exact Or.inl (strcasecmp_nil_left b)
  | cons x as ih =>
    cases b with
    | nil => exact Or.inr (strcasecmp_nil_left _)
    | cons y bs =>
      have hx := lowerByte_eq_zero x
      have hy := lowerByte_eq_zero y
      simp only [strcasecmp]
      rcases ih bs with h | h <;> split_ifs <;> omega

theorem strcasecmp_trans (a b c : CString) (hab : strcasecmp a b ≤ 0)
    (hbc : strcasecmp b c ≤ 0) : strcasecmp a c ≤ 0 := by
  induction a generalizing b c with
  | nil => exact strcasecmp_nil_left c
  | cons x as ih =>
    have hx := lowerByte_eq_zero x
    cases b with
    | nil =>
      cases c with
      | nil => simpa [strcasecmp] using hab
      | cons z cs =>
        simp only [strcasecmp] at hab ⊢
        split_ifs <;> omega
    | cons y bs =>
      have hy := lowerByte_eq_zero y
      cases c with
      | nil =>
        simp only [strcasecmp] at hab hbc ⊢
        split_ifs at hab <;> omega
      | cons z cs =>
        have hz := lowerByte_eq_zero z
        have ih1 := ih bs cs
        simp only [strcasecmp] at hab hbc ⊢
        split_ifs at hab hbc ⊢ <;> omega

instance compareBoats_total : IsTotal Boat (fun a b => compareBoats a b ≤ 0) :=
  ⟨fun a b => strcasecmp_total a.name b.name⟩

instance compareBoats_trans : IsTrans Boat (fun a b => compareBoats a b ≤ 0) :=
  ⟨fun a b c => strcasecmp_trans a.name b.name c.name⟩

/-- One `qsort` among those allowed: sorting by insertion. -/
def insertionQsort : Qsort where
  sort := List.insertionSort (fun a b => compareBoats a b ≤ 0)
  perm := List.perm_insertionSort _
  sorted := List.sorted_insertionSort _

/-! ## Names that differ only in letter case -/

theorem char_eq_of_toNat_eq (a b : Char) (h : a.toNat = b.toNat) : a = b := by
  rw [← Char.ofNat_toNat a, ← Char.ofNat_toNat b, h]

theorem tolower_eq_iff (a b : Char) : tolower a = tolower b ↔ lowerByte a = lowerByte b :=
  ⟨fun h => by unfold lowerByte; rw [h], fun h => char_eq_of_toNat_eq _ _ h⟩

theorem tolower_idem (c : Char) : tolower (tolower c) = tolower c := by
  apply char_eq_of_toNat_eq
  have h1 := lowerByte_eq c
  have h2 := lowerByte_eq (tolower c)
  unfold lowerByte at h1 h2
  rw [h2, h1]
  split_ifs <;> omega

theorem cstr_cons (c : Char) (s : CString) :
    cstr (c :: s) = if c.toNat = 0 then [] else c :: cstr s := by
  unfold cstr
  by_cases h : c.toNat = 0
  · have hc : c = '\x00' := char_eq_of_toNat_eq _ _ h
    subst hc
    rfl
  · have hc : c ≠ '\x00' := fun hc => h (by rw [hc]; rfl)
    simp [List.takeWhile_cons, hc, h]

theorem strcasecmp_eq_zero_iff (a b : CString) : strcasecmp a b = 0 ↔ eqIgnoreCase a b := by
  unfold eqIgnoreCase
  induction a generalizing b with
  | nil =>
    cases b with
    | nil => simp [strcasecmp]
    | cons y bs =>
      have hy := lowerByte_eq_zero y
      simp only [strcasecmp, cstr_cons]
      split_ifs with h
      · simp [cstr]; omega
      · simp [cstr]; omega
  | cons x as ih =>
    have hx := lowerByte_eq_zero x
    cases b with
    | nil =>
      simp only [strcasecmp, cstr_cons]
      split_ifs with h
      · simp [cstr]; omega
      · simp [cstr]; omega
    | cons y bs =>
      have hy := lowerByte_eq_zero y
      have hxy := tolower_eq_iff x y
      simp only [strcasecmp, cstr_cons]
      split_ifs with h1 h2 h3 h3 h4 h5
      all_goals first
        | omega
        | (simp; done)
        | (simp; omega)
        | (simp only [List.map_cons, List.cons.injEq, ih bs]
           exact ⟨fun h => ⟨hxy.2 h1, h⟩, fun h => h.2⟩)
        | (simp only [List.map_cons, List.cons.injEq]
           exact ⟨fun h => by omega, fun h => absurd (hxy.1 h.1) h1⟩)

theorem strcasecmp_congr (a a1 b b1 : CString) (ha : a.map tolower = a1.map tolower)
    (hb : b.map tolower = b1.map tolower) : strcasecmp a b = strcasecmp a1 b1 := by
  induction a generalizing a1 b b1 with
  | nil =>
    cases a1 with
    | cons _ _ => simp at ha
    | nil =>
      cases b with
      | nil =>
        cases b1 with
        | nil => rfl
        | cons _ _ => simp at hb
      | cons y bs =>
        cases b1 with
        | nil => simp at hb
        | cons y1 bs1 =>
          simp only [List.map_cons, List.cons.injEq] at hb
          simp only [strcasecmp, (tolower_eq_iff y y1).1 hb.1]
  | cons x as ih =>
    cases a1 with
    | nil => simp at ha
    | cons x1 as1 =>
      simp only [List.map_cons, List.cons.injEq] at ha
      have hx := (tolower_eq_iff x x1).1 ha.1
      have hx0 := lowerByte_eq_zero x
      have hx1 := lowerByte_eq_zero x1
      cases b with
      | nil =>
        cases b1 with
        | nil => simp only [strcasecmp, hx]
        | cons _ _ => simp at hb
      | cons y bs =>
        cases b1 with
        | nil => simp at hb
        | cons y1 bs1 =>
          simp only [List.map_cons, List.cons.injEq] at hb
          have hy := (tolower_eq_iff y y1).1 hb.1
          simp only [strcasecmp, hx, hy, ih as1 bs bs1 ha.2 hb.2]
          have : (x.toNat = 0) ↔ (x1.toNat = 0) := by omega
          simp only [this]

theorem getBoatType_lower (s : CString) : getBoatType s = getBoatType (s.map tolower) := by
  have h : ∀ w, strcasecmp s w = strcasecmp (s.map tolower) w := fun w =>
    strcasecmp_congr s (s.map tolower) w w
      (by simp [List.map_map, Function.comp_def, tolower_idem]) rfl
  unfold getBoatType
  simp only [h]

/-! ## Kind names (claim C9) -/

/-- C9, as stated, fails: the name `trailer` is not read as the trailer kind (it
falls to the default, SLIP), and the trailer kind is not written as `trailer`. -/
theorem kind_names_trailer_counterexample :
    getBoatType "trailer".toList = BoatType.SLIP ∧
    getBoatType "trailer".toList ≠ BoatType.TRAILOR ∧
    getBoatTypeString BoatType.TRAILOR ≠ "trailer".toList := by
  decide

/-- C9, amended: `getBoatType` maps each of the names `slip`, `land`, `trailor`,
`storage`, in any letter case, to SLIP, LAND, TRAILOR, STORAGE respectively (and
`trailer`, in any letter case, to SLIP); `getBoatTypeString` renders the four
kinds as exactly `slip`, `land`, `trailor`, `storage`. -/
theorem kind_names_trailor (s : CString) :
    (s.map tolower = "slip".toList → getBoatType s = BoatType.SLIP) ∧
    (s.map tolower = "land".toList → getBoatType s = BoatType.LAND) ∧
    (s.map tolower = "trailor".toList → getBoatType s = BoatType.TRAILOR) ∧
    (s.map tolower = "storage".toList → getBoatType s = BoatType.STORAGE) ∧
    (s.map tolower = "trailer".toList → getBoatType s = BoatType.SLIP) ∧
    getBoatTypeString BoatType.SLIP = "slip".toList ∧
    getBoatTypeString BoatType.LAND = "land".toList ∧
    getBoatTypeString BoatType.TRAILOR = "trailor".toList ∧
    getBoatTypeString BoatType.STORAGE = "storage".toList := by
  refine ⟨?_, ?_, ?_, ?_, ?_, rfl, rfl, rfl, rfl⟩ <;>
  · intro h
    rw [getBoatType_lower, h]
    decide

/-- C9, amended, at the mixed-case names `SLIP`, `Land`, `TrAiLoR`, `storagE`. -/
theorem kind_names_trailor_witness :
    getBoatType "SLIP".toList = BoatType.SLIP ∧
    getBoatType "Land".toList = BoatType.LAND ∧
    getBoatType "TrAiLoR".toList = BoatType.TRAILOR ∧
    getBoatType "storagE".toList = BoatType.STORAGE :=
  ⟨(kind_names_trailor "SLIP".toList).1 (by decide),
   (kind_names_trailor "Land".toList).2.1 (by decide),
   (kind_names_trailor "TrAiLoR".toList).2.2.1 (by decide),
   (kind_names_trailor "storagE".toList).2.2.2.1 (by decide)⟩

/-! ## Lookup (claim C8) -/

theorem findBoatByName_congr (boats : List Boat) (n1 n2 : CString)
    (h : n1.map tolower = n2.map tolower) :
    findBoatByName boats n1 = findBoatByName boats n2 := by
  induction boats with
  | nil => rfl
  | cons b bs ih =>
    simp only [findBoatByName, ih, strcasecmp_congr b.name b.name n1 n2 rfl h]

theorem findBoatByName_some (boats : List Boat) (n : CString) (i : Nat)
    (h : findBoatByName boats n = some i) :
    ∃ b, boats[i]? = some b ∧ eqIgnoreCase b.name n ∧
      ∀ j b1, j < i → boats[j]? = some b1 → ¬ eqIgnoreCase b1.name n := by
  induction boats generalizing i with
  | nil => simp [findBoatByName] at h
  | cons b bs ih =>
    simp only [findBoatByName] at h
    split_ifs at h with hb
    · cases h
      exact ⟨b, List.getElem?_cons_zero, (strcasecmp_eq_zero_iff _ _).1 hb,
        fun j b1 hj => absurd hj (Nat.not_lt_zero j)⟩
    · cases hf : findBoatByName bs n with
      | none => simp [hf] at h
      | some k =>
        simp only [hf, Option.map_some', Option.some.injEq] at h
        subst h
        obtain ⟨b0, h1, h2, h3⟩ := ih k hf
        refine ⟨b0, by simpa using h1, h2, ?_⟩
        intro j b1 hj hget
        cases j with
        | zero =>
          simp only [List.getElem?_cons_zero, Option.some.injEq] at hget
          subst hget
          exact fun hc => hb ((strcasecmp_eq_zero_iff _ _).2 hc)
        | succ j1 => exact h3 j1 b1 (by omega) (by simpa using hget)

theorem findBoatByName_none (boats : List Boat) (n : CString)
    (h : findBoatByName boats n = none) : ∀ b ∈ boats, ¬ eqIgnoreCase b.name n := by
  induction boats with
  | nil => simp
  | cons b bs ih =>
    simp only [findBoatByName] at h
    split_ifs at h with hb
    cases hf : findBoatByName bs n with
    | some k => simp [hf] at h
    | none =>
      intro x hx
      rcases List.mem_cons.1 hx with rfl | hx
      · exact fun hc => hb ((strcasecmp_eq_zero_iff _ _).2 hc)
      · exact ih hf x hx

/-- C8: for names `n1`, `n2` that differ only in letter case `findBoatByName`
returns the same entry of the registry, or NULL for both; the entry returned
is the first one whose name equals the query up to letter case, and NULL is
returned only when there is no such entry. -/
theorem findBoatByName_case_insensitive (boats : List Boat) (n1 n2 : CString)
    (h : n1.map tolower = n2.map tolower) :
    findBoatByName boats n1 = findBoatByName boats n2 ∧
    (∀ i, findBoatByName boats n1 = some i →
      ∃ b, boats[i]? = some b ∧ eqIgnoreCase b.name n1 ∧
        ∀ j b1, j < i → boats[j]? = some b1 → ¬ eqIgnoreCase b1.name n1) ∧
    (findBoatByName boats n1 = none → ∀ b ∈ boats, ¬ eqIgnoreCase b.name n1) :=
  ⟨findBoatByName_congr boats n1 n2 h, fun i hi => findBoatByName_some boats n1 i hi,
    findBoatByName_none boats n1⟩

/-- C8 at the registry `Jon Boat`, `Sea Lion` and the names `Sea Lion`, `SEA LION`. -/
theorem findBoatByName_case_insensitive_witness :
    findBoatByName [jonBoat, seaLion] "Sea Lion".toList =
      findBoatByName [jonBoat, seaLion] "SEA LION".toList ∧
    findBoatByName [jonBoat, seaLion] "Sea Lion".toList = some 1 :=
  ⟨(findBoatByName_case_insensitive [jonBoat, seaLion] "Sea Lion".toList "SEA LION".toList
      (by decide)).1, by decide⟩

/-! ## Removal (claim C7) -/

theorem removeBoatByName_absent (boats : List Boat) (n : CString)
    (h : ∀ b ∈ boats, ¬ eqIgnoreCase b.name n) : removeBoatByName boats n = (boats, false) := by
  induction boats with
  | nil => rfl
  | cons b bs ih =>
    have hb : ¬ strcasecmp b.name n = 0 := fun hc =>
      h b (List.mem_cons_self _ _) ((strcasecmp_eq_zero_iff _ _).1 hc)
    simp only [removeBoatByName, hb, if_false,
      ih (fun x hx => h x (List.mem_cons_of_mem _ hx)), List.cons]

theorem removeBoatByName_present (boats : List Boat) (n : CString)
    (h : ∃ b ∈ boats, eqIgnoreCase b.name n) :
    ∃ l1 b l2, boats = l1 ++ b :: l2 ∧ (∀ x ∈ l1, ¬ eqIgnoreCase x.name n) ∧
      eqIgnoreCase b.name n ∧ removeBoatByName boats n = (l1 ++ l2, true) := by
  induction boats with
  | nil => simp at h
  | cons b bs ih =>
    by_cases hb : strcasecmp b.name n = 0
    · exact ⟨[], b, bs, rfl, by simp, (strcasecmp_eq_zero_iff _ _).1 hb,
        by simp [removeBoatByName, hb]⟩
    · obtain ⟨x, hx, hxn⟩ := h
      rcases List.mem_cons.1 hx with rfl | hx
      · exact absurd ((strcasecmp_eq_zero_iff _ _).2 hxn) hb
      · obtain ⟨l1, b0, l2, h1, h2, h3, h4⟩ := ih ⟨x, hx, hxn⟩
        refine ⟨b :: l1, b0, l2, by rw [h1]; rfl, ?_, h3, ?_⟩
        · intro y hy
          rcases List.mem_cons.1 hy with rfl | hy
          · exact fun hc => hb ((strcasecmp_eq_zero_iff _ _).2 hc)
          · exact h2 y hy
        · simp only [removeBoatByName, hb, if_false, h4, List.cons, List.cons_append]

/-- C7: if some boat's name equals `n` up to letter case, `removeBoatByName`
deletes the first such boat and nothing else (the boats before and behind it
stay, in their order, and the count drops by exactly 1) and sets `found`; if no
name matches, the registry is unchanged and `found` stays 0 (the message
`No boat with that name.`). -/
theorem removeBoatByName_spec (boats : List Boat) (n : CString) :
    ((∃ b ∈ boats, eqIgnoreCase b.name n) →
      ∃ l1 b l2, boats = l1 ++ b :: l2 ∧ (∀ x ∈ l1, ¬ eqIgnoreCase x.name n) ∧
        eqIgnoreCase b.name n ∧ removeBoatByName boats n = (l1 ++ l2, true) ∧
        (removeBoatByName boats n).1.length + 1 = boats.length) ∧
    ((∀ b ∈ boats, ¬ eqIgnoreCase b.name n) → removeBoatByName boats n = (boats, false)) := by
  refine ⟨fun h => ?_, removeBoatByName_absent boats n⟩
  obtain ⟨l1, b, l2, h1, h2, h3, h4⟩ := removeBoatByName_present boats n h
  refine ⟨l1, b, l2, h1, h2, h3, h4, ?_⟩
  rw [h4, h1]
  simp only [List.length_append, List.length_cons]
  omega

/-- C7 at the registry `Big Brother`, `Jon Boat`, `Sea Lion`: removing
`jon boat` leaves `Big Brother`, `Sea Lion`; removing `Osprey` changes nothing. -/
theorem removeBoatByName_spec_witness :
    (∃ l1 b l2, [bigBrother, jonBoat, seaLion] = l1 ++ b :: l2 ∧
        (∀ x ∈ l1, ¬ eqIgnoreCase x.name "jon boat".toList) ∧
        eqIgnoreCase b.name "jon boat".toList ∧
        removeBoatByName [bigBrother, jonBoat, seaLion] "jon boat".toList = (l1 ++ l2, true) ∧
        (removeBoatByName [bigBrother, jonBoat, seaLion] "jon boat".toList).1.length + 1 =
          [bigBrother, jonBoat, seaLion].length) ∧
    removeBoatByName [bigBrother, jonBoat, seaLion] "jon boat".toList =
      ([bigBrother, seaLion], true) ∧
    removeBoatByName [bigBrother, jonBoat, seaLion] "Osprey".toList =
      ([bigBrother, jonBoat, seaLion], false) :=
  ⟨(removeBoatByName_spec [bigBrother, jonBoat, seaLion] "jon boat".toList).1
      ⟨jonBoat, by decide, by decide⟩,
    by decide,
    (removeBoatByName_spec [bigBrother, jonBoat, seaLion] "Osprey".toList).2 (by decide)⟩

/-! ## Tokens of a line -/

theorem splitComma_eq (s : CString) :
    splitComma s = s.takeWhile (fun c => c != ',') ::
      (match s.dropWhile (fun c => c != ',') with
        | [] => []
        | _ :: r => splitComma r) := by
  induction s with
  | nil => rfl
  | cons c cs ih =>
    by_cases hc : c = ','
    · subst hc
      simp [splitComma, List.takeWhile_cons, List.dropWhile_cons]
    · simp only [splitComma, hc, if_false]
      rw [ih]
      simp [List.takeWhile_cons, List.dropWhile_cons, hc]

theorem tokens_cons_comma (s : CString) : tokens (',' :: s) = tokens s := by
  simp [tokens, splitComma]

theorem tokens_eq_strtok (s : CString) :
    tokens s = match strtok s with
      | none => []
      | some (t, r) => t :: tokens r := by
  induction s with
  | nil => rfl
  | cons c cs ih =>
    by_cases hc : c = ','
    · subst hc
      rw [tokens_cons_comma, ih]
      simp [strtok, List.dropWhile_cons]
    · have h1 : strtok (c :: cs) = some (c :: cs.takeWhile (fun c => c != ','),
          (cs.dropWhile (fun c => c != ',')).drop 1) := by
        simp [strtok, List.dropWhile_cons, List.takeWhile_cons, hc]
      rw [h1]
      simp only [tokens, splitComma, hc, if_false]
      rw [splitComma_eq cs]
      cases hd : cs.dropWhile (fun c => c != ',') with
      | nil => simp [splitComma]
      | cons x r => simp

theorem tokens_length_append (l1 l3 : CString) :
    (tokens l1).length ≤ (tokens (l1 ++ l3)).length ∧
    ((splitComma l1).tail.filter (fun f => !f.isEmpty)).length ≤
      ((splitComma (l1 ++ l3)).tail.filter (fun f => !f.isEmpty)).length := by
  induction l1 with
  | nil =>
    constructor
    · simp [tokens, splitComma]
    · simp [splitComma]
  | cons c r ih =>
    by_cases hc : c = ','
    · subst hc
      constructor
      · simpa [tokens_cons_comma] using ih.1
      · simpa [splitComma, tokens] using ih.1
    · have h1 : ∀ x : CString, splitComma (c :: x) =
          (c :: x.takeWhile (fun c => c != ',')) :: (splitComma x).tail := by
        intro x
        simp only [splitComma, hc, if_false]
        rw [splitComma_eq x]
        rfl
      constructor
      · simp only [tokens, List.cons_append, h1, List.filter_cons, List.isEmpty_cons,
          Bool.not_false, if_true, List.length_cons]
        have := ih.2
        omega
      · simp only [List.cons_append, h1, List.tail_cons]
        exact ih.2

theorem tokens_length_of_initial (l1 l2 : CString) (h : l1 <+: l2) :
    (tokens l1).length ≤ (tokens l2).length := by
  obtain ⟨t, rfl⟩ := h
  exact (tokens_length_append l1 t).1

theorem cstr_initial (s : CString) : cstr s <+: s := List.takeWhile_prefix _

theorem strncpy_initial (s : CString) (n : Nat) : strncpy s n <+: s :=
  (List.take_prefix _ _).trans (cstr_initial s)

theorem parseCSV_eq (csvLine : CString) :
    parseCSV csvLine = match tokens (strncpy csvLine (MAX_LINE_LENGTH - 1)) with
      | t1 :: t2 :: t3 :: t4 :: t5 :: _ => some (boatOfTokens t1 t2 t3 t4 t5)
      | _ => none := by
  unfold parseCSV
  generalize strncpy csvLine (MAX_LINE_LENGTH - 1) = l
  simp only []
  rw [tokens_eq_strtok l]
  cases strtok l with
  | none => rfl
  | some r1 =>
    obtain ⟨t1, p1⟩ := r1
    simp only []
    rw [tokens_eq_strtok p1]
    cases strtok p1 with
    | none => rfl
    | some r2 =>
      obtain ⟨t2, p2⟩ := r2
      simp only []
      rw [tokens_eq_strtok p2]
      cases strtok p2 with
      | none => rfl
      | some r3 =>
        obtain ⟨t3, p3⟩ := r3
        simp only []
        rw [tokens_eq_strtok p3]
        cases strtok p3 with
        | none => rfl
        | some r4 =>
          obtain ⟨t4, p4⟩ := r4
          simp only []
          rw [tokens_eq_strtok p4]
          cases strtok p4 with
          | none => rfl
          | some r5 =>
            obtain ⟨t5, p5⟩ := r5
            rfl

theorem parseLoad_eq (buf : List Char) :
    parseLoad buf = match tokens ((cstr buf).takeWhile (fun c => c != '\n')) with
      | t1 :: t2 :: t3 :: t4 :: t5 :: _ => some (boatOfTokens t1 t2 t3 t4 t5)
      | _ => none := by
  unfold parseLoad
  generalize (cstr buf).takeWhile (fun c => c != '\n') = l
  simp only []
  by_cases hl : l.length = 0
  · have : l = [] := List.length_eq_zero.1 hl
    subst this
    rfl
  simp only [hl, if_false]
  rw [tokens_eq_strtok l]
  cases strtok l with
  | none => rfl
  | some r1 =>
    obtain ⟨t1, p1⟩ := r1
    simp only []
    rw [tokens_eq_strtok p1]
    cases strtok p1 with
    | none => rfl
    | some r2 =>
      obtain ⟨t2, p2⟩ := r2
      simp only []
      rw [tokens_eq_strtok p2]
      cases strtok p2 with
      | none => rfl
      | some r3 =>
        obtain ⟨t3, p3⟩ := r3
        simp only []
        rw [tokens_eq_strtok p3]
        cases strtok p3 with
        | none => rfl
        | some r4 =>
          obtain ⟨t4, p4⟩ := r4
          simp only []
          rw [tokens_eq_strtok p4]
          cases strtok p4 with
          | none => rfl
          | some r5 =>
            obtain ⟨t5, p5⟩ := r5
            rfl

theorem parse_none_of_short (l : CString) (h : (tokens l).length < 5) :
    (match tokens l with
      | t1 :: t2 :: t3 :: t4 :: t5 :: _ => some (boatOfTokens t1 t2 t3 t4 t5)
      | _ => none) = none := by
  match hl : tokens l, h with
  | [], _ => rfl
  | [_], _ => rfl
  | [_, _], _ => rfl
  | [_, _, _], _ => rfl
  | [_, _, _, _], _ => rfl
  | _ :: _ :: _ :: _ :: _ :: _, h => exact absurd h (by simp)

/-! ## Incomplete lines (claim C10) -/

theorem takeWhile_append_stop (r : Char → Bool) (l : CString) (n : Char) (hn : r n = false) :
    (l ++ [n]).takeWhile r = l.takeWhile r := by
  induction l with
  | nil => simp [List.takeWhile_cons, hn]
  | cons c cs ih =>
    simp only [List.cons_append, List.takeWhile_cons, ih]

theorem load_line_initial (line suffix : CString) (hs : suffix = [] ∨ suffix = ['\n']) :
    (cstr (line ++ suffix)).takeWhile (fun c => c != '\n') <+: line := by
  unfold cstr
  rw [List.takeWhile_takeWhile]
  rcases hs with rfl | rfl
  · rw [List.append_nil]
    exact List.takeWhile_prefix _
  · rw [takeWhile_append_stop _ _ _ (by decide)]
    exact List.takeWhile_prefix _

/-- C10: a line with fewer than 5 comma-delimited tokens makes no boat:
`addBoatFromCSV` returns the registry it was given, and in `loadBoatsFromFile`
the step for that line (whether or not a newline ends it) goes on to the
next line with the registry unchanged. -/
theorem incomplete_line_rejected (q : Qsort) (boats : List Boat) (line : CString)
    (h : (tokens line).length < 5) :
    parseCSV line = none ∧ addBoatFromCSV q boats line = boats ∧
    parseLoad line = none ∧ parseLoad (line ++ ['\n']) = none ∧
    ∀ rest, loadLoop boats (line :: rest) = loadLoop boats rest ∧
      loadLoop boats ((line ++ ['\n']) :: rest) = loadLoop boats rest := by
  have h1 : parseCSV line = none := by
    rw [parseCSV_eq]
    exact parse_none_of_short _
      (lt_of_le_of_lt (tokens_length_of_initial _ _ (strncpy_initial line _)) h)
  have h2 : ∀ suffix, suffix = [] ∨ suffix = ['\n'] → parseLoad (line ++ suffix) = none := by
    intro suffix hs
    rw [parseLoad_eq]
    exact parse_none_of_short _
      (lt_of_le_of_lt (tokens_length_of_initial _ _ (load_line_initial line suffix hs)) h)
  have h3 : parseLoad line = none := by simpa using h2 [] (Or.inl rfl)
  have h4 := h2 ['\n'] (Or.inr rfl)
  refine ⟨h1, ?_, h3, h4, fun rest => ⟨?_, ?_⟩⟩
  · simp only [addBoatFromCSV, h1]
  · simp only [loadLoop, h3]
  · simp only [loadLoop, h4]

/-- C10 at the four-token line `Osprey,25,slip,7` and the registry `Jon Boat`,
`Sea Lion`. -/
theorem incomplete_line_rejected_witness :
    (tokens "Osprey,25,slip,7".toList).length < 5 ∧
    addBoatFromCSV insertionQsort [jonBoat, seaLion] "Osprey,25,slip,7".toList =
      [jonBoat, seaLion] ∧
    parseLoad "Osprey,25,slip,7\n".toList = none :=
  ⟨by decide,
    (incomplete_line_rejected insertionQsort [jonBoat, seaLion] "Osprey,25,slip,7".toList
      (by decide)).2.1,
    (incomplete_line_rejected insertionQsort [jonBoat, seaLion] "Osprey,25,slip,7".toList
      (by decide)).2.2.2.1⟩

/-! ## Capacity (claim C4) -/

theorem strncpy_eq_self (s : CString) (n : Nat) (hn : s.length ≤ n) (h0 : '\x00' ∉ s) :
    strncpy s n = s := by
  have hc : cstr s = s := by
    unfold cstr
    rw [List.takeWhile_eq_self_iff]
    intro c hc
    have : c ≠ '\x00' := fun h => h0 (h ▸ hc)
    simpa using this
  unfold strncpy
  rw [hc]
  exact List.take_of_length_le hn

theorem parse_some_of_five (l : CString) (h : 5 ≤ (tokens l).length) :
    ∃ b, (match tokens l with
      | t1 :: t2 :: t3 :: t4 :: t5 :: _ => some (boatOfTokens t1 t2 t3 t4 t5)
      | _ => none) = some b := by
  match hl : tokens l, h with
  | [], h => exact absurd h (by simp)
  | [_], h => exact absurd h (by simp)
  | [_, _], h => exact absurd h (by simp)
  | [_, _, _], h => exact absurd h (by simp)
  | [_, _, _, _], h => exact absurd h (by simp)
  | t1 :: t2 :: t3 :: t4 :: t5 :: _, _ => exact ⟨_, rfl⟩

/-- C4: when the registry holds 120 boats, `addBoatFromCSV` returns it
unchanged whatever the line; when it holds fewer and the line is a string
that fits the line buffer and has five tokens, the result has exactly one boat
more. -/
theorem addBoatFromCSV_capacity (q : Qsort) (boats : List Boat) (line : CString) :
    (boats.length = MAX_BOATS → addBoatFromCSV q boats line = boats) ∧
    (boats.length < MAX_BOATS → line.length < MAX_LINE_LENGTH → '\x00' ∉ line →
      (tokens line).length = 5 →
      (addBoatFromCSV q boats line).length = boats.length + 1) := by
  constructor
  · intro h
    unfold addBoatFromCSV
    cases parseCSV line with
    | none => rfl
    | some b => simp [h]
  · intro h hfit h0 h5
    have hl : strncpy line (MAX_LINE_LENGTH - 1) = line :=
      strncpy_eq_self line _ (by unfold MAX_LINE_LENGTH at hfit ⊢; omega) h0
    obtain ⟨b, hb⟩ := parse_some_of_five line (by omega)
    have hp : parseCSV line = some b := by rw [parseCSV_eq, hl]; exact hb
    have hlt : ¬ boats.length ≥ MAX_BOATS := by omega
    simp only [addBoatFromCSV, hp, hlt, if_false]
    rw [(q.perm _).length_eq]
    simp

theorem addBoatFromCSV_capacity_witness :
    addBoatFromCSV insertionQsort (List.replicate 120 seaLion)
      "Osprey,25,slip,7,0.00".toList = List.replicate 120 seaLion ∧
    (addBoatFromCSV insertionQsort [jonBoat, seaLion] "Osprey,25,slip,7,0.00".toList).length =
      [jonBoat, seaLion].length + 1 :=
  ⟨(addBoatFromCSV_capacity insertionQsort (List.replicate 120 seaLion)
      "Osprey,25,slip,7,0.00".toList).1 (by simp [MAX_BOATS]),
    (addBoatFromCSV_capacity insertionQsort [jonBoat, seaLion]
      "Osprey,25,slip,7,0.00".toList).2 (by decide) (by decide) (by decide) (by decide)⟩

/-! ## The registry stays sorted (claim C3) -/

theorem sortedByName_sort (q : Qsort) (l : List Boat) : SortedByName (q.sort l) :=
  List.pairwise_map.2 (q.sorted l)

theorem removeBoatByName_sublist (boats : List Boat) (n : CString) :
    List.Sublist (removeBoatByName boats n).1 boats := by
  induction boats with
  | nil => exact List.Sublist.slnil
  | cons b bs ih =>
    simp only [removeBoatByName]
    split
    · exact List.sublist_cons_self b bs
    · exact List.Sublist.cons₂ b ih

theorem updateMonthlyCharges_names (boats : List Boat) :
    (updateMonthlyCharges boats).map Boat.name = boats.map Boat.name := by
  induction boats with
  | nil => rfl
  | cons b bs ih => simp only [updateMonthlyCharges, List.map_cons, ih]

theorem set_names (boats : List Boat) (i : Nat) (b b1 : Boat) (hb : boats[i]? = some b)
    (hn : b1.name = b.name) : (boats.set i b1).map Boat.name = boats.map Boat.name := by
  induction boats generalizing i with
  | nil => rfl
  | cons x xs ih =>
    cases i with
    | zero =>
      simp only [List.getElem?_cons_zero, Option.some.injEq] at hb
      subst hb
      simp only [List.set_cons_zero, List.map_cons, hn]
    | succ k =>
      simp only [List.getElem?_cons_succ] at hb
      simp only [List.set_cons_succ, List.map_cons, ih k hb]

theorem applyPayment_name (b : Boat) (a : CFloat) : (applyPayment b a).1.name = b.name := by
  unfold applyPayment
  split <;> rfl

theorem paymentEntry_names (boats : List Boat) (name amount : CString) :
    (paymentEntry boats name amount).1.map Boat.name = boats.map Boat.name := by
  unfold paymentEntry
  cases findBoatByName boats name with
  | none => rfl
  | some i =>
    simp only []
    cases hb : boats[i]? with
    | none => rfl
    | some b => exact set_names boats i b _ hb (applyPayment_name b _)

theorem reachable_sortedByName (q : Qsort) (boats : List Boat) (h : Reachable q boats) :
    SortedByName boats := by
  induction h with
  | empty => exact List.Pairwise.nil
  | load boats file _ ih =>
    cases file with
    | none => exact ih
    | some content => exact sortedByName_sort q _
  | add boats csvLine _ ih =>
    unfold addBoatFromCSV
    cases parseCSV csvLine with
    | none => exact ih
    | some b =>
      simp only []
      split
      · exact ih
      · exact sortedByName_sort q _
  | remove boats name _ ih =>
    exact List.Pairwise.sublist ((removeBoatByName_sublist boats name).map Boat.name) ih
  | charges boats _ ih =>
    unfold SortedByName
    rw [updateMonthlyCharges_names]
    exact ih
  | payment boats name amount _ ih =>
    unfold SortedByName
    rw [paymentEntry_names]
    exact ih

theorem pairwise_adjacent (l : List CString) (h : l.Pairwise (fun a b => strcasecmp a b ≤ 0))
    (i : Nat) (a b : CString) (ha : l[i]? = some a) (hb : l[i + 1]? = some b) :
    strcasecmp a b ≤ 0 := by
  induction l generalizing i with
  | nil => simp at ha
  | cons x xs ih =>
    rw [List.pairwise_cons] at h
    cases i with
    | zero =>
      simp only [List.getElem?_cons_zero, Option.some.injEq] at ha
      simp only [List.getElem?_cons_succ] at hb
      subst ha
      exact h.1 b (List.getElem?_mem hb)
    | succ k =>
      simp only [List.getElem?_cons_succ] at ha hb
      exact ih h.2 k ha hb

/-- C3: in every registry that can be reached from the empty one by loads,
additions, removals, monthly charges and payments, every two neighbours
`boats[i]`, `boats[i+1]` satisfy `strcasecmp(boats[i].name, boats[i+1].name) <= 0`. -/
theorem registry_sorted (q : Qsort) (boats : List Boat) (h : Reachable q boats)
    (i : Nat) (a b : Boat) (ha : boats[i]? = some a) (hb : boats[i + 1]? = some b) :
    strcasecmp a.name b.name ≤ 0 :=
  pairwise_adjacent (boats.map Boat.name) (reachable_sortedByName q boats h) i a.name b.name
    (by rw [List.getElem?_map, ha]; rfl) (by rw [List.getElem?_map, hb]; rfl)

/-- C3 at the registry obtained by loading the scenario's file, charging, and
adding and removing a boat. -/
theorem registry_sorted_witness :
    strcasecmp "Jon Boat".toList "Sea Lion".toList ≤ 0 :=
  registry_sorted insertionQsort
    (removeBoatByName (addBoatFromCSV insertionQsort
      (updateMonthlyCharges (loadBoatsFromFile insertionQsort [] (some scenarioFile)))
      "Osprey,25,slip,7,0.00".toList) "osprey".toList).1
    (Reachable.remove _ _ (Reachable.add _ _ (Reachable.charges _
      (Reachable.load _ _ Reachable.empty))))
    0 (jonAsSlip "175.00") { seaLion with amountOwed := floatLit "363.00" }
    (by decide) (by decide)

/-! ## Payments (claim C5) -/

theorem signed_not (s : Bool) (n : Nat) : signed (!s) n = 0 - signed s n := by
  cases s <;> simp [signed]

theorem CFloat.eq_fin_left (s : Bool) (m : Nat) (e : Int) (y : CFloat)
    (h : CFloat.eq (CFloat.fin s m e) y = true) :
    ∃ t n g, y = CFloat.fin t n g ∧
      signed t (n * 2 ^ (g - min g e).toNat) = signed s (m * 2 ^ (e - min g e).toNat) := by
  cases y with
  | nan t => simp [CFloat.eq] at h
  | inf t => cases t <;> simp [CFloat.eq, CFloat.lt] at h
  | fin t n g =>
    refine ⟨t, n, g, rfl, ?_⟩
    simp only [CFloat.eq, CFloat.lt, Bool.and_eq_true, Bool.not_eq_true', decide_eq_false_iff_not,
      not_lt] at h
    rw [min_comm g e]
    rw [min_comm g e] at h
    omega

/-- C5, as stated, fails: the line `Ark,30,slip,1,inf` makes a boat whose
balance is infinite; the payment `inf` equals that balance, is accepted, and
leaves a balance that is not zero (it is `inf - inf`, a NaN). -/
theorem applyPayment_infinite_counterexample :
    addBoatFromCSV insertionQsort [] "Ark,30,slip,1,inf".toList =
      [{ name := "Ark".toList, length := floatLit "30", info := ExtraInfo.slip_number 1,
         amountOwed := CFloat.inf false }] ∧
    CFloat.eq (toFloat (atof "inf".toList)) (CFloat.inf false) = true ∧
    (paymentEntry (addBoatFromCSV insertionQsort [] "Ark,30,slip,1,inf".toList)
      "Ark".toList "inf".toList).2 = PaymentOutcome.accepted ∧
    (paymentEntry (addBoatFromCSV insertionQsort [] "Ark,30,slip,1,inf".toList)
      "Ark".toList "inf".toList).1.map (fun b => b.amountOwed.isZero) = [false] ∧
    (paymentEntry (addBoatFromCSV insertionQsort [] "Ark,30,slip,1,inf".toList)
      "Ark".toList "inf".toList).1.map (fun b => b.amountOwed.isFinite) = [false] := by
  decide

/-- C5, amended: a payment `a` greater than the balance is rejected and changes
nothing; any other payment is accepted and the balance becomes
`amountOwed - a` (the `float` difference); in particular a payment that is a
finite number and equals the balance is accepted and leaves the balance at
exactly zero, the rest of the boat unchanged. -/
theorem applyPayment_bound (b : Boat) (a : CFloat) :
    (CFloat.gt a b.amountOwed = true → applyPayment b a = (b, PaymentOutcome.rejected)) ∧
    (CFloat.gt a b.amountOwed = false →
      applyPayment b a =
        ({ b with amountOwed := CFloat.sub binary32 b.amountOwed a }, PaymentOutcome.accepted)) ∧
    (a.isFinite = true → CFloat.eq a b.amountOwed = true →
      (applyPayment b a).2 = PaymentOutcome.accepted ∧
      (applyPayment b a).1.amountOwed.isZero = true ∧
      (applyPayment b a).1.name = b.name ∧ (applyPayment b a).1.length = b.length ∧
      (applyPayment b a).1.info = b.info) := by
  refine ⟨fun h => by simp [applyPayment, h], fun h => by simp [applyPayment, h], ?_⟩
  intro hfin heq
  cases a with
  | nan s => simp [CFloat.isFinite] at hfin
  | inf s => simp [CFloat.isFinite] at hfin
  | fin s m e =>
    obtain ⟨t, n, g, hy, hv⟩ := CFloat.eq_fin_left s m e _ heq
    have hgt : CFloat.gt (CFloat.fin s m e) b.amountOwed = false := by
      rw [hy]
      simp only [CFloat.gt, CFloat.lt, decide_eq_false_iff_not, not_lt]
      omega
    have hsub : CFloat.sub binary32 b.amountOwed (CFloat.fin s m e) =
        CFloat.fin (t && !s) 0 binary32.emin := by
      rw [hy]
      simp only [CFloat.sub, CFloat.negate, CFloat.add, signed_not]
      rw [if_pos (by omega)]
    simp only [applyPayment, hgt, hsub, CFloat.isZero]
    simp

/-- C5, amended, at the boat `Sea Lion` owing 363.00: a payment of 400.00 is rejected,
a payment of 363.00 is accepted and leaves 0.00. -/
theorem applyPayment_bound_witness :
    applyPayment { seaLion with amountOwed := floatLit "363.00" } (floatLit "400.00") =
      ({ seaLion with amountOwed := floatLit "363.00" }, PaymentOutcome.rejected) ∧
    (applyPayment { seaLion with amountOwed := floatLit "363.00" } (floatLit "363.00")).2 =
      PaymentOutcome.accepted ∧
    (applyPayment { seaLion with amountOwed := floatLit "363.00" }
      (floatLit "363.00")).1.amountOwed.isZero = true :=
  ⟨(applyPayment_bound { seaLion with amountOwed := floatLit "363.00" } (floatLit "400.00")).1
      (by decide),
    ((applyPayment_bound { seaLion with amountOwed := floatLit "363.00" }
      (floatLit "363.00")).2.2 (by decide) (by decide)).1,
    ((applyPayment_bound { seaLion with amountOwed := floatLit "363.00" }
      (floatLit "363.00")).2.2 (by decide) (by decide)).2.1⟩

/-! ## Monthly charges (claim C6) -/

theorem updateMonthlyCharges_eq_map (boats : List Boat) :
    updateMonthlyCharges boats = boats.map (fun b =>
      { b with amountOwed := CFloat.add binary32 b.amountOwed (monthlyCharge b) }) := by
  induction boats with
  | nil => rfl
  | cons b bs ih => simp only [updateMonthlyCharges, List.map_cons, ih]

/-! ## The end-to-end scenario (claim C2) -/

theorem Qsort.sort_pair (q : Qsort) (a b : Boat) (hba : compareBoats b a ≤ 0)
    (hab : ¬ compareBoats a b ≤ 0) : q.sort [a, b] = [b, a] := by
  have hp := q.perm [a, b]
  have hs := q.sorted [a, b]
  have hne : a ≠ b := fun h => hab (h ▸ hba)
  have hlen := hp.length_eq
  match hl : q.sort [a, b], hlen with
  | [x, y], _ =>
    rw [hl] at hp hs
    have hx : x ∈ [a, b] := hp.subset (List.mem_cons_self _ _)
    have hy : y ∈ [a, b] := hp.subset (List.mem_cons_of_mem _ (List.mem_cons_self _ _))
    have hnd : [x, y].Nodup := hp.nodup_iff.2 (by simp [hne])
    have hxy : x ≠ y := by
      intro h
      simp [h] at hnd
    have hsxy : compareBoats x y ≤ 0 := by
      simpa using (List.pairwise_cons.1 hs).1 y (List.mem_cons_self _ _)
    simp only [List.mem_cons, List.mem_singleton, List.not_mem_nil, or_false] at hx hy
    rcases hx with rfl | rfl <;> rcases hy with rfl | rfl
    · exact absurd rfl hxy
    · exact absurd hsxy hab
    · rfl
    · exact absurd rfl hxy

theorem scenarioLoaded_eq (q : Qsort) : scenarioLoaded q = [jonAsSlip "0.00", seaLion] := by
  have h : loadLoop [] (fgetsAll (MAX_LINE_LENGTH - 1) [] scenarioFile) =
      [seaLion, jonAsSlip "0.00"] := by decide
  unfold scenarioLoaded loadBoatsFromFile
  simp only [h]
  exact q.sort_pair seaLion (jonAsSlip "0.00") (by decide) (by decide)

/-- C2, as stated, fails: after the monthly charges `Jon Boat` owes 175.00, so
the payment of 50 on it is accepted, not rejected, and its balance changes;
and the file written does not show `Jon Boat` with the kind `trailer` and the
extra field `TX1234` it was loaded with. -/
theorem scenario_counterexample :
    (scenarioPaidJon insertionQsort).2 = PaymentOutcome.accepted ∧
    (scenarioPaidJon insertionQsort).1 ≠ scenarioCharged insertionQsort ∧
    scenarioSaved insertionQsort ≠
      "Jon Boat,14,trailer,TX1234,0.00\nSea Lion,21,slip,21,0.00\n".toList ∧
    scenarioSaved insertionQsort =
      "Jon Boat,14,slip,0,125.00\nSea Lion,21,slip,21,0.00\n".toList := by
  decide

/-- C2, amended: loading the two lines into the empty registry gives `Jon Boat`
before `Sea Lion`, `Jon Boat` being read as a slip boat with number 0 because
`trailer` is not one of the kind names; after `updateMonthlyCharges`
`Sea Lion` owes 363.00 and `Jon Boat` 175.00; the payment of 50 on `Jon Boat`
is accepted and leaves 125.00; the payment of 363.00 on `Sea Lion` is accepted
and leaves 0.00; `saveBoatsToFile` then writes exactly the two lines
`Jon Boat,14,slip,0,125.00` and `Sea Lion,21,slip,21,0.00`, in this order. -/
theorem scenario_actual (q : Qsort) :
    scenarioLoaded q = [jonAsSlip "0.00", seaLion] ∧
    scenarioCharged q =
      [jonAsSlip "175.00", { seaLion with amountOwed := floatLit "363.00" }] ∧
    scenarioPaidJon q =
      ([jonAsSlip "125.00", { seaLion with amountOwed := floatLit "363.00" }],
        PaymentOutcome.accepted) ∧
    scenarioPaidSea q =
      ([jonAsSlip "125.00", { seaLion with amountOwed := floatLit "0.00" }],
        PaymentOutcome.accepted) ∧
    scenarioSaved q = "Jon Boat,14,slip,0,125.00\nSea Lion,21,slip,21,0.00\n".toList := by
  have h1 := scenarioLoaded_eq q
  have h2 : scenarioCharged q =
      [jonAsSlip "175.00", { seaLion with amountOwed := floatLit "363.00" }] := by
    unfold scenarioCharged
    rw [h1]
    decide
  have h3 : scenarioPaidJon q =
      ([jonAsSlip "125.00", { seaLion with amountOwed := floatLit "363.00" }],
        PaymentOutcome.accepted) := by
    unfold scenarioPaidJon
    rw [h2]
    decide
  have h4 : scenarioPaidSea q =
      ([jonAsSlip "125.00", { seaLion with amountOwed := floatLit "0.00" }],
        PaymentOutcome.accepted) := by
    unfold scenarioPaidSea
    rw [h3]
    decide
  refine ⟨h1, h2, h3, h4, ?_⟩
  unfold scenarioSaved
  rw [h4]
  decide

/-! ## Rounding of values that the format holds exactly -/

theorem bitLenAux_spec (fuel n : Nat) (h : n ≤ fuel) :
    n < 2 ^ bitLenAux fuel n ∧ (n ≠ 0 → 1 ≤ bitLenAux fuel n ∧ 2 ^ (bitLenAux fuel n - 1) ≤ n) := by
  induction fuel generalizing n with
  | zero =>
    have : n = 0 := by omega
    subst this
    simp [bitLenAux]
  | succ f ih =>
    by_cases hn : n = 0
    · subst hn
      simp [bitLenAux]
    · simp only [bitLenAux, hn, if_false]
      obtain ⟨h1, h2⟩ := ih (n / 2) (by omega)
      refine ⟨?_, fun _ => ⟨by omega, ?_⟩⟩
      · rw [pow_succ]
        omega
      · simp only [Nat.add_sub_cancel]
        by_cases hz : n / 2 = 0
        · have hb : bitLenAux f (n / 2) = 0 := by
            rw [hz]
            cases f <;> simp [bitLenAux]
          rw [hb]
          simp
          omega
        · obtain ⟨h3, h4⟩ := h2 hz
          have : 2 ^ bitLenAux f (n / 2) = 2 * 2 ^ (bitLenAux f (n / 2) - 1) := by
            rw [← pow_succ']
            congr 1
            omega
          omega

theorem bitLen_spec (n : Nat) (hn : 0 < n) :
    1 ≤ bitLen n ∧ 2 ^ (bitLen n - 1) ≤ n ∧ n < 2 ^ bitLen n := by
  obtain ⟨h1, h2⟩ := bitLenAux_spec n n (le_refl n)
  obtain ⟨h3, h4⟩ := h2 (by omega)
  exact ⟨h3, h4, h1⟩

theorem zpow_two_split (j : Int) :
    (2 : ℚ) ^ j = (2 : ℚ) ^ j.toNat / (2 : ℚ) ^ (-j).toNat := by
  rcases le_total 0 j with h | h
  · obtain ⟨k, rfl⟩ := Int.eq_ofNat_of_zero_le h
    simp
  · obtain ⟨k, hk⟩ := Int.eq_ofNat_of_zero_le (neg_nonneg.2 h)
    have hj : j = -(k : Int) := by omega
    subst hj
    simp [zpow_neg]

theorem le_scaled_iff (n d : Nat) (hd : 0 < d) (j : Int) :
    d * 2 ^ j.toNat ≤ n * 2 ^ (-j).toNat ↔ (2 : ℚ) ^ j ≤ (n : ℚ) / d := by
  have hd1 : (0 : ℚ) < d := by exact_mod_cast hd
  have hp : (0 : ℚ) < (2 : ℚ) ^ (-j).toNat := by positivity
  rw [zpow_two_split, div_le_div_iff₀ hp hd1]
  constructor
  · intro h
    have : ((d * 2 ^ j.toNat : Nat) : ℚ) ≤ ((n * 2 ^ (-j).toNat : Nat) : ℚ) := by exact_mod_cast h
    push_cast at this
    linarith
  · intro h
    have : ((d * 2 ^ j.toNat : Nat) : ℚ) ≤ ((n * 2 ^ (-j).toNat : Nat) : ℚ) := by
      push_cast
      linarith
    exact_mod_cast this

theorem floorLog_spec (n d : Nat) (hn : 0 < n) (hd : 0 < d) (fl : Int)
    (hfl : fl = if d * 2 ^ ((bitLen n : Int) - (bitLen d : Int)).toNat ≤
        n * 2 ^ (-((bitLen n : Int) - (bitLen d : Int))).toNat
      then (bitLen n : Int) - (bitLen d : Int) else (bitLen n : Int) - (bitLen d : Int) - 1) :
    (2 : ℚ) ^ fl ≤ (n : ℚ) / d ∧ (n : ℚ) / d < (2 : ℚ) ^ (fl + 1) := by
  obtain ⟨hn1, hn2, hn3⟩ := bitLen_spec n hn
  obtain ⟨hd1, hd2, hd3⟩ := bitLen_spec d hd
  have hdq : (0 : ℚ) < d := by exact_mod_cast hd
  have hnq : (0 : ℚ) < n := by exact_mod_cast hn
  have qn2 : (2 : ℚ) ^ ((bitLen n : Int) - 1) ≤ n := by
    have : ((2 ^ (bitLen n - 1) : Nat) : ℚ) ≤ n := by exact_mod_cast hn2
    rw [show ((bitLen n : Int) - 1) = ((bitLen n - 1 : Nat) : Int) by omega, zpow_natCast]
    exact_mod_cast this
  have qn3 : (n : ℚ) < (2 : ℚ) ^ (bitLen n : Int) := by
    rw [zpow_natCast]
    exact_mod_cast hn3
  have qd2 : (2 : ℚ) ^ ((bitLen d : Int) - 1) ≤ d := by
    have : ((2 ^ (bitLen d - 1) : Nat) : ℚ) ≤ d := by exact_mod_cast hd2
    rw [show ((bitLen d : Int) - 1) = ((bitLen d - 1 : Nat) : Int) by omega, zpow_natCast]
    exact_mod_cast this
  have qd3 : (d : ℚ) < (2 : ℚ) ^ (bitLen d : Int) := by
    rw [zpow_natCast]
    exact_mod_cast hd3
  generalize (bitLen n : Int) = bn at *
  generalize (bitLen d : Int) = bd at *
  have two : (0 : ℚ) < 2 := by norm_num
  have hup : (n : ℚ) / d < (2 : ℚ) ^ (bn - bd + 1) := by
    rw [div_lt_iff₀ hdq]
    calc (n : ℚ) < (2 : ℚ) ^ bn := qn3
      _ = (2 : ℚ) ^ (bn - bd + 1) * (2 : ℚ) ^ (bd - 1) := by
          rw [← zpow_add₀ (by norm_num)]; congr 1; omega
      _ ≤ (2 : ℚ) ^ (bn - bd + 1) * d := by
          apply mul_le_mul_of_nonneg_left qd2 (by positivity)
  have hlo : (2 : ℚ) ^ (bn - bd - 1) ≤ (n : ℚ) / d := by
    rw [le_div_iff₀ hdq]
    calc (2 : ℚ) ^ (bn - bd - 1) * d ≤ (2 : ℚ) ^ (bn - bd - 1) * (2 : ℚ) ^ bd := by
          apply mul_le_mul_of_nonneg_left (le_of_lt qd3) (by positivity)
      _ = (2 : ℚ) ^ (bn - 1) := by
          rw [← zpow_add₀ (by norm_num)]; congr 1; omega
      _ ≤ n := qn2
  by_cases hc : d * 2 ^ (bn - bd).toNat ≤ n * 2 ^ (-(bn - bd)).toNat
  · rw [if_pos hc] at hfl
    subst hfl
    exact ⟨(le_scaled_iff n d hd _).1 hc, hup⟩
  · rw [if_neg hc] at hfl
    subst hfl
    refine ⟨hlo, ?_⟩
    rw [show bn - bd - 1 + 1 = bn - bd by omega]
    exact not_le.1 (fun h => hc ((le_scaled_iff n d hd _).2 h))

theorem zpow_two_lt_of_le_of_lt (a b : Int) (v : ℚ) (h1 : (2 : ℚ) ^ a ≤ v)
    (h2 : v < (2 : ℚ) ^ b) : a < b := by
  have h : (2 : ℚ) ^ a < (2 : ℚ) ^ b := lt_of_le_of_lt h1 h2
  exact (zpow_lt_zpow_iff_right₀ (by norm_num : (1 : ℚ) < 2)).1 h

theorem roundBin_exact (f : Format) (hp : 1 ≤ f.prec) (s : Bool) (n d M : Nat) (E : Int)
    (hd : 0 < d) (hv : (n : ℚ) / d = M * (2 : ℚ) ^ E) (hM : M < 2 ^ f.prec)
    (hE1 : f.emin ≤ E) (hE2 : E ≤ f.emax) (hN : 2 ^ (f.prec - 1) ≤ M ∨ E = f.emin) :
    roundBin f s n d = CFloat.fin s M E := by
  have hdq : (0 : ℚ) < d := by exact_mod_cast hd
  have h2E : (0 : ℚ) < (2 : ℚ) ^ E := by positivity
  by_cases hn : n = 0
  · subst hn
    have hM0 : M = 0 := by
      have : (M : ℚ) * (2 : ℚ) ^ E = 0 := by rw [← hv]; simp
      rcases mul_eq_zero.1 this with h | h
      · exact_mod_cast h
      · exact absurd h (ne_of_gt h2E)
    subst hM0
    have hE : E = f.emin := by
      rcases hN with h | h
      · have : 0 < 2 ^ (f.prec - 1) := by positivity
        omega
      · exact h
    subst hE
    simp [roundBin]
  · have hn0 : 0 < n := Nat.pos_of_ne_zero hn
    have hnq : (0 : ℚ) < n := by exact_mod_cast hn0
    have hMq : (0 : ℚ) < M := by
      rcases Nat.eq_zero_or_pos M with h | h
      · subst h
        have : (n : ℚ) / d = 0 := by rw [hv]; simp
        have h3 : (0 : ℚ) < (n : ℚ) / d := div_pos hnq hdq
        linarith
      · exact_mod_cast h
    obtain ⟨hfl1, hfl2⟩ := floorLog_spec n d hn0 hd _ rfl
    have hMlt : (M : ℚ) < (2 : ℚ) ^ (f.prec : Int) := by
      rw [zpow_natCast]
      exact_mod_cast hM
    have hvlt : (n : ℚ) / d < (2 : ℚ) ^ ((f.prec : Int) + E) := by
      rw [hv, zpow_add₀ (by norm_num)]
      exact mul_lt_mul_of_pos_right hMlt h2E
    have he : max ((if d * 2 ^ ((bitLen n : Int) - (bitLen d : Int)).toNat ≤
          n * 2 ^ (-((bitLen n : Int) - (bitLen d : Int))).toNat
        then (bitLen n : Int) - (bitLen d : Int)
        else (bitLen n : Int) - (bitLen d : Int) - 1) - ((f.prec : Int) - 1)) f.emin = E := by
      generalize (if d * 2 ^ ((bitLen n : Int) - (bitLen d : Int)).toNat ≤
          n * 2 ^ (-((bitLen n : Int) - (bitLen d : Int))).toNat
        then (bitLen n : Int) - (bitLen d : Int)
        else (bitLen n : Int) - (bitLen d : Int) - 1) = fl at hfl1 hfl2
      have h1 : fl < (f.prec : Int) + E := zpow_two_lt_of_le_of_lt _ _ _ hfl1 hvlt
      by_cases hnorm : 2 ^ (f.prec - 1) ≤ M
      · have hMge : (2 : ℚ) ^ ((f.prec : Int) - 1) ≤ M := by
          rw [show ((f.prec : Int) - 1) = ((f.prec - 1 : Nat) : Int) by omega, zpow_natCast]
          exact_mod_cast hnorm
        have hvge : (2 : ℚ) ^ ((f.prec : Int) - 1 + E) ≤ (n : ℚ) / d := by
          rw [hv, zpow_add₀ (by norm_num)]
          exact mul_le_mul_of_nonneg_right hMge (le_of_lt h2E)
        have h2 : (f.prec : Int) - 1 + E < fl + 1 := zpow_two_lt_of_le_of_lt _ _ _ hvge hfl2
        rw [max_eq_left (by omega)]
        omega
      · have hEm : E = f.emin := by
          rcases hN with h | h
          · exact absurd h hnorm
          · exact h
        have hMlt2 : (M : ℚ) < (2 : ℚ) ^ ((f.prec : Int) - 1) := by
          rw [show ((f.prec : Int) - 1) = ((f.prec - 1 : Nat) : Int) by omega, zpow_natCast]
          exact_mod_cast (not_le.1 hnorm)
        have hvlt2 : (n : ℚ) / d < (2 : ℚ) ^ ((f.prec : Int) - 1 + E) := by
          rw [hv, zpow_add₀ (by norm_num)]
          exact mul_lt_mul_of_pos_right hMlt2 h2E
        have h2 : fl < (f.prec : Int) - 1 + E := zpow_two_lt_of_le_of_lt _ _ _ hfl1 hvlt2
        rw [max_eq_right (by omega)]
        omega
    have hden : 0 < d * 2 ^ E.toNat := by positivity
    have hnat : n * 2 ^ (-E).toNat = M * (d * 2 ^ E.toNat) := by
      have h := hv
      rw [zpow_two_split, div_eq_iff (ne_of_gt hdq)] at h
      have hq : (0 : ℚ) < (2 : ℚ) ^ (-E).toNat := by positivity
      have h3 : (n : ℚ) * (2 : ℚ) ^ (-E).toNat = M * (d * (2 : ℚ) ^ E.toNat) := by
        rw [h]
        field_simp
        ring
      exact_mod_cast h3
    unfold roundBin
    simp only [hn, if_false, he, hnat, Nat.mul_div_cancel _ hden, Nat.mul_mod_left]
    have h5 : ¬ (d * 2 ^ E.toNat < 2 * 0 ∨ 2 * 0 = d * 2 ^ E.toNat ∧ M % 2 = 1) := by omega
    have h6 : ¬ (M = 2 ^ f.prec) := by omega
    have h7 : ¬ (f.emax < E) := by omega
    simp only [h5, h6, h7, if_false]

theorem bitLen_le_of_lt (m k : Nat) (hm : 0 < m) (h : m < 2 ^ k) : bitLen m ≤ k := by
  obtain ⟨h1, h2, _⟩ := bitLen_spec m hm
  have h3 : 2 ^ (bitLen m - 1) < 2 ^ k := lt_of_le_of_lt h2 h
  have h4 := (Nat.pow_lt_pow_iff_right (by norm_num : 1 < 2)).1 h3
  omega

theorem toFloat_roundBin64 (s : Bool) (n d m : Nat) (e : Int) (hd : 0 < d)
    (hv : (n : ℚ) / d = m * (2 : ℚ) ^ e) (hst : binary32.stores m e = true) :
    toFloat (roundBin binary64 s n d) = CFloat.fin s m e := by
  simp only [Format.stores, binary32, Bool.and_eq_true, Bool.or_eq_true, decide_eq_true_eq]
    at hst
  obtain ⟨⟨⟨h1, h2⟩, h3⟩, h4⟩ := hst
  by_cases hm : m = 0
  · subst hm
    have he : e = -149 := by
      rcases h4 with h | h
      · norm_num at h
      · exact h
    subst he
    have hr : roundBin binary64 s n d = CFloat.fin s 0 (-1074) :=
      roundBin_exact binary64 (by decide) s n d 0 (-1074) hd (by rw [hv]; simp)
        (by decide) (by decide) (by decide) (Or.inr rfl)
    rw [hr]
    simp [toFloat, CFloat.convert, roundBin, binary32]
  · have hm0 : 0 < m := Nat.pos_of_ne_zero hm
    obtain ⟨b1, b2, b3⟩ := bitLen_spec m hm0
    have hb : bitLen m ≤ 24 := bitLen_le_of_lt m 24 hm0 h1
    have hM1 : m * 2 ^ (53 - bitLen m) < 2 ^ 53 := by
      calc m * 2 ^ (53 - bitLen m) < 2 ^ bitLen m * 2 ^ (53 - bitLen m) :=
            Nat.mul_lt_mul_of_pos_right b3 (by positivity)
        _ = 2 ^ 53 := by rw [← pow_add]; congr 1; omega
    have hM2 : 2 ^ 52 ≤ m * 2 ^ (53 - bitLen m) := by
      calc 2 ^ 52 = 2 ^ (bitLen m - 1) * 2 ^ (53 - bitLen m) := by
            rw [← pow_add]; congr 1; omega
        _ ≤ m * 2 ^ (53 - bitLen m) := Nat.mul_le_mul_right _ b2
    have hval : ((m * 2 ^ (53 - bitLen m) : Nat) : ℚ) * (2 : ℚ) ^ (e - ((53 - bitLen m : Nat) : Int))
        = m * (2 : ℚ) ^ e := by
      push_cast
      rw [zpow_sub₀ (by norm_num), zpow_natCast]
      field_simp
      ring
    have hr : roundBin binary64 s n d =
        CFloat.fin s (m * 2 ^ (53 - bitLen m)) (e - ((53 - bitLen m : Nat) : Int)) :=
      roundBin_exact binary64 (by decide) s n d _ _ hd (by rw [hv, hval])
        hM1 (by simp only [binary64]; omega) (by simp only [binary64]; omega) (Or.inl hM2)
    rw [hr]
    simp only [toFloat, CFloat.convert]
    apply roundBin_exact binary32 (by decide) s _ _ m e (by positivity)
    · rw [← hval]
      push_cast
      rw [zpow_two_split (e - ((53 - bitLen m : Nat) : Int))]
      field_simp
    · exact h1
    · exact h2
    · exact h3
    · exact h4

/-! ## Decimal numerals -/

theorem digitChar_toNat (d : Nat) (h : d < 10) : (digitChar d).toNat = 48 + d := by
  interval_cases d <;> rfl

theorem digitChar_isdigit (d : Nat) (h : d < 10) : isdigit (digitChar d) = true := by
  interval_cases d <;> rfl

theorem decValue_cons (a : Nat) (c : Char) (cs : CString) :
    decValue a (c :: cs) = decValue (10 * a + (c.toNat - 48)) cs := rfl

theorem decValue_nil (a : Nat) : decValue a [] = a := rfl

theorem decValue_append (a : Nat) (x y : CString) :
    decValue a (x ++ y) = decValue (decValue a x) y := by
  induction x generalizing a with
  | nil => rfl
  | cons c cs ih => exact ih _

theorem decDigitsAux_spec (fuel n : Nat) (acc : CString) (h : n < fuel) :
    ∃ ds, decDigitsAux fuel n acc = ds ++ acc ∧ ds ≠ [] ∧ (∀ c ∈ ds, isdigit c = true) ∧
      (∀ a, decValue a ds = a * 10 ^ ds.length + n) ∧
      (∀ k, n < 10 ^ (k + 1) → ds.length ≤ k + 1) := by
  induction fuel generalizing n acc with
  | zero => omega
  | succ f ih =>
    by_cases hz : n / 10 = 0
    · refine ⟨[digitChar (n % 10)], by simp [decDigitsAux, hz], by simp, ?_, ?_, ?_⟩
      · intro c hc
        rw [List.mem_singleton.1 hc]
        exact digitChar_isdigit _ (Nat.mod_lt _ (by norm_num))
      · intro a
        simp only [decValue_cons, decValue_nil, digitChar_toNat _ (Nat.mod_lt n (by norm_num : 0 < 10)),
          List.length_singleton, pow_one, Nat.add_sub_cancel_left]
        omega
      · intro k _
        simp
    · obtain ⟨ds, h1, h2, h3, h4, h5⟩ := ih (n / 10) (digitChar (n % 10) :: acc) (by omega)
      refine ⟨ds ++ [digitChar (n % 10)], by simp [decDigitsAux, hz, h1], by simp, ?_, ?_, ?_⟩
      · intro c hc
        rcases List.mem_append.1 hc with hc | hc
        · exact h3 c hc
        · rw [List.mem_singleton.1 hc]
          exact digitChar_isdigit _ (Nat.mod_lt _ (by norm_num))
      · intro a
        rw [decValue_append, h4 a]
        simp only [decValue_cons, decValue_nil, digitChar_toNat _ (Nat.mod_lt n (by norm_num : 0 < 10)),
          List.length_append, List.length_singleton, pow_succ, Nat.add_sub_cancel_left]
        have := Nat.div_add_mod n 10
        linarith
      · intro k hk
        cases k with
        | zero => omega
        | succ j =>
          have : n / 10 < 10 ^ (j + 1) := by
            rw [Nat.div_lt_iff_lt_mul (by norm_num)]
            rw [pow_succ] at hk
            exact hk
          have := h5 j this
          simp only [List.length_append, List.length_singleton]
          omega

theorem decDigits_spec (n : Nat) :
    decDigits n ≠ [] ∧ (∀ c ∈ decDigits n, isdigit c = true) ∧
      (∀ a, decValue a (decDigits n) = a * 10 ^ (decDigits n).length + n) ∧
      (∀ k, n < 10 ^ (k + 1) → (decDigits n).length ≤ k + 1) := by
  obtain ⟨ds, h1, h2, h3, h4, h5⟩ := decDigitsAux_spec (n + 1) n [] (by omega)
  have : decDigits n = ds := by simpa [decDigits] using h1
  rw [this]
  exact ⟨h2, h3, h4, h5⟩

theorem fracDigits_spec (k n : Nat) :
    (fracDigits k n).length = k ∧ (∀ c ∈ fracDigits k n, isdigit c = true) ∧
      (∀ a, decValue a (fracDigits k n) = a * 10 ^ k + n % 10 ^ k) := by
  induction k generalizing n with
  | zero => simp [fracDigits, decValue_nil, Nat.mod_one]
  | succ j ih =>
    obtain ⟨h1, h2, h3⟩ := ih (n / 10)
    refine ⟨by simp [fracDigits, h1], ?_, ?_⟩
    · intro c hc
      simp only [fracDigits] at hc
      rcases List.mem_append.1 hc with hc | hc
      · exact h2 c hc
      · rw [List.mem_singleton.1 hc]
        exact digitChar_isdigit _ (Nat.mod_lt _ (by norm_num))
    · intro a
      simp only [fracDigits, decValue_append, h3, decValue_cons, decValue_nil,
        digitChar_toNat _ (Nat.mod_lt n (by norm_num : 0 < 10)), Nat.add_sub_cancel_left]
      have e1 : n % 10 ^ (j + 1) = 10 * (n / 10 % 10 ^ j) + n % 10 := by
        rw [pow_succ, mul_comm (10 ^ j) 10, Nat.mod_mul]
        omega
      rw [e1, pow_succ]
      ring_nf

/-! ## Reading back a decimal numeral -/

theorem isdigit_cases (c : Char) (h : isdigit c = true) :
    c = '0' ∨ c = '1' ∨ c = '2' ∨ c = '3' ∨ c = '4' ∨ c = '5' ∨ c = '6' ∨ c = '7' ∨
      c = '8' ∨ c = '9' := by
  have hc : c = Char.ofNat c.toNat := (Char.ofNat_toNat c).symm
  simp only [isdigit, Bool.and_eq_true, decide_eq_true_eq] at h
  obtain ⟨h1, h2⟩ := h
  generalize c.toNat = n at hc h1 h2
  subst hc
  interval_cases n <;> decide

theorem takeWhile_isdigit_stop (di tail : CString) (hdig : ∀ c ∈ di, isdigit c = true)
    (ht : tail = [] ∨ ∃ r, tail = '.' :: r) :
    (di ++ tail).takeWhile isdigit = di ∧ (di ++ tail).dropWhile isdigit = tail := by
  induction di with
  | nil =>
    rcases ht with rfl | ⟨r, rfl⟩
    · exact ⟨rfl, rfl⟩
    · exact ⟨rfl, rfl⟩
  | cons c cs ih =>
    have hc := hdig c (List.mem_cons_self _ _)
    obtain ⟨h1, h2⟩ := ih (fun x hx => hdig x (List.mem_cons_of_mem _ hx))
    simp only [List.cons_append, List.takeWhile_cons, List.dropWhile_cons, hc, if_true, h1, h2,
      and_self]

theorem numeral_head (s : Bool) (di tail : CString) (hdi : di ≠ [])
    (hdig : ∀ c ∈ di, isdigit c = true) (ht : tail = [] ∨ ∃ r, tail = '.' :: r) :
    ((if s then ['-'] else []) ++ di ++ tail).dropWhile isspace =
      (if s then ['-'] else []) ++ di ++ tail ∧
    takeSign ((if s then ['-'] else []) ++ di ++ tail) = (s, di ++ tail) ∧
    startsWithCI (di ++ tail) "inf".toList = false ∧
    startsWithCI (di ++ tail) "nan".toList = false ∧
    startsWithCI (di ++ tail) "0x".toList = false := by
  obtain ⟨c0, cs, rfl⟩ := List.exists_cons_of_ne_nil hdi
  have hc0 := isdigit_cases c0 (hdig c0 (List.mem_cons_self _ _))
  refine ⟨?_, ?_, ?_, ?_, ?_⟩
  · cases s
    · rcases hc0 with h | h | h | h | h | h | h | h | h | h <;> subst h <;> rfl
    · rfl
  · cases s
    · rcases hc0 with h | h | h | h | h | h | h | h | h | h <;> subst h <;> rfl
    · rfl
  · rcases hc0 with h | h | h | h | h | h | h | h | h | h <;> subst h <;> rfl
  · rcases hc0 with h | h | h | h | h | h | h | h | h | h <;> subst h <;> rfl
  · cases cs with
    | nil =>
      rcases ht with rfl | ⟨r, rfl⟩
      · simp [startsWithCI]
      · have : tolower '.' ≠ 'x' := by decide
        simp [startsWithCI, this]
    | cons c1 cs1 =>
      have hc1 := isdigit_cases c1 (hdig c1 (List.mem_cons_of_mem _ (List.mem_cons_self _ _)))
      have : (tolower c1 == 'x') = false := by
        rcases hc1 with h | h | h | h | h | h | h | h | h | h <;> subst h <;> decide
      simp [startsWithCI, this]

theorem strtod_integer (s : Bool) (di : CString) (hdi : di ≠ [])
    (hdig : ∀ c ∈ di, isdigit c = true) :
    strtod ((if s then ['-'] else []) ++ di) = roundBin binary64 s (decValue 0 di) 1 := by
  obtain ⟨hA, hB, hC, hD, hE⟩ := numeral_head s di [] hdi hdig (Or.inl rfl)
  obtain ⟨hF, hG⟩ := takeWhile_isdigit_stop di [] hdig (Or.inl rfl)
  simp only [List.append_nil] at hA hB hC hD hE hF hG
  unfold strtod
  simp only [hA, hB, hC, hD, hE, hF, hG, Bool.false_eq_true, if_false, false_and, hdi]
  simp [exponentPart]

theorem strtod_fraction (s : Bool) (di df : CString) (hdi : di ≠ [])
    (hdig : ∀ c ∈ di, isdigit c = true) (hdf : ∀ c ∈ df, isdigit c = true) :
    strtod ((if s then ['-'] else []) ++ di ++ '.' :: df) =
      roundBin binary64 s (decValue 0 (di ++ df)) (10 ^ df.length) := by
  obtain ⟨hA, hB, hC, hD, hE⟩ := numeral_head s di ('.' :: df) hdi hdig (Or.inr ⟨df, rfl⟩)
  obtain ⟨hF, hG⟩ := takeWhile_isdigit_stop di ('.' :: df) hdig (Or.inr ⟨df, rfl⟩)
  obtain ⟨hH, hI⟩ := takeWhile_isdigit_stop df [] hdf (Or.inl rfl)
  simp only [List.append_nil] at hH hI
  unfold strtod
  simp only [hA, hB, hC, hD, hE, hF, hG, hH, hI, Bool.false_eq_true, if_false, false_and, hdi]
  simp [exponentPart]

theorem fmtFixed_exact (P : Nat) (s : Bool) (m : Nat) (e : Int)
    (hdiv : m * 10 ^ P * 2 ^ e.toNat % 2 ^ (-e).toNat = 0) :
    fmtFixed P (CFloat.fin s m e) =
      (if s then ['-'] else []) ++
        decDigits (m * 10 ^ P * 2 ^ e.toNat / 2 ^ (-e).toNat / 10 ^ P) ++
        (if P = 0 then []
          else '.' :: fracDigits P (m * 10 ^ P * 2 ^ e.toNat / 2 ^ (-e).toNat % 10 ^ P)) := by
  have hden : 0 < 2 ^ (-e).toNat := by positivity
  have h5 : ¬ (2 ^ (-e).toNat < 2 * 0 ∨
      2 * 0 = 2 ^ (-e).toNat ∧ m * 10 ^ P * 2 ^ e.toNat / 2 ^ (-e).toNat % 2 = 1) := by omega
  simp only [fmtFixed, hdiv, h5, if_false]

theorem exact_value (P : Nat) (m : Nat) (e : Int)
    (hdiv : m * 10 ^ P * 2 ^ e.toNat % 2 ^ (-e).toNat = 0) :
    ((m * 10 ^ P * 2 ^ e.toNat / 2 ^ (-e).toNat : Nat) : ℚ) / ((10 ^ P : Nat) : ℚ) =
      m * (2 : ℚ) ^ e := by
  have h1 : m * 10 ^ P * 2 ^ e.toNat / 2 ^ (-e).toNat * 2 ^ (-e).toNat =
      m * 10 ^ P * 2 ^ e.toNat := Nat.div_mul_cancel (Nat.dvd_of_mod_eq_zero hdiv)
  generalize m * 10 ^ P * 2 ^ e.toNat / 2 ^ (-e).toNat = q at h1
  have h2 : (q : ℚ) * (2 : ℚ) ^ (-e).toNat = m * (10 : ℚ) ^ P * (2 : ℚ) ^ e.toNat := by
    exact_mod_cast h1
  rw [zpow_two_split]
  push_cast
  have h3 : (0 : ℚ) < (2 : ℚ) ^ (-e).toNat := by positivity
  have h4 : (0 : ℚ) < (10 : ℚ) ^ P := by positivity
  field_simp
  linarith

theorem fmtFixed_roundtrip (P : Nat) (x : CFloat) (h : x.hasDecimals P = true) :
    toFloat (atof (fmtFixed P x)) = x := by
  cases x with
  | nan s => simp [CFloat.hasDecimals] at h
  | inf s => simp [CFloat.hasDecimals] at h
  | fin s m e =>
    simp only [CFloat.hasDecimals, Bool.and_eq_true, decide_eq_true_eq] at h
    obtain ⟨hst, hdiv⟩ := h
    have hv := exact_value P m e hdiv
    rw [fmtFixed_exact P s m e hdiv]
    generalize m * 10 ^ P * 2 ^ e.toNat / 2 ^ (-e).toNat = q at hv
    obtain ⟨d1, d2, d3, _⟩ := decDigits_spec (q / 10 ^ P)
    unfold atof
    by_cases hP : P = 0
    · subst hP
      simp only [if_true, List.append_nil, pow_zero, Nat.div_one] at d1 d2 d3 hv ⊢
      rw [strtod_integer s _ d1 d2, d3 0]
      apply toFloat_roundBin64 s _ 1 m e (by norm_num) _ hst
      simpa using hv
    · obtain ⟨f1, f2, f3⟩ := fracDigits_spec P (q % 10 ^ P)
      simp only [hP, if_false]
      rw [strtod_fraction s _ _ d1 d2 f2, decValue_append, d3 0, f3, f1]
      have hq : (0 * 10 ^ (decDigits (q / 10 ^ P)).length + q / 10 ^ P) * 10 ^ P +
          q % 10 ^ P % 10 ^ P = q := by
        rw [Nat.mod_mod, Nat.zero_mul, Nat.zero_add]
        exact Nat.div_add_mod' q (10 ^ P)
      rw [hq]
      exact toFloat_roundBin64 s _ _ m e (by positivity) hv hst

theorem fmtFixed_text (P : Nat) (x : CFloat) (h : x.hasDecimals P = true) :
    fmtFixed P x ≠ [] ∧
    (∀ c ∈ fmtFixed P x, isdigit c = true ∨ c = '-' ∨ c = '.') ∧
    (fmtFixed P x).length ≤ 41 + P := by
  cases x with
  | nan s => simp [CFloat.hasDecimals] at h
  | inf s => simp [CFloat.hasDecimals] at h
  | fin s m e =>
    simp only [CFloat.hasDecimals, Bool.and_eq_true, decide_eq_true_eq, Format.stores,
      binary32, Bool.or_eq_true] at h
    obtain ⟨⟨⟨⟨hm, _⟩, he⟩, _⟩, hdiv⟩ := h
    rw [fmtFixed_exact P s m e hdiv]
    have hq : m * 10 ^ P * 2 ^ e.toNat / 2 ^ (-e).toNat / 10 ^ P < 10 ^ (38 + 1) := by
      have h1 : m * 10 ^ P * 2 ^ e.toNat / 2 ^ (-e).toNat ≤ m * 10 ^ P * 2 ^ e.toNat :=
        Nat.div_le_self _ _
      have h2 : m * 10 ^ P * 2 ^ e.toNat / 10 ^ P = m * 2 ^ e.toNat := by
        rw [Nat.mul_right_comm]
        exact Nat.mul_div_cancel _ (by positivity)
      have h3 : 2 ^ e.toNat ≤ 2 ^ 104 := Nat.pow_le_pow_right (by norm_num) (by omega)
      have h4 : m * 2 ^ e.toNat < 2 ^ 24 * 2 ^ 104 :=
        Nat.mul_lt_mul_of_lt_of_le hm h3 (by positivity)
      calc m * 10 ^ P * 2 ^ e.toNat / 2 ^ (-e).toNat / 10 ^ P
          ≤ m * 10 ^ P * 2 ^ e.toNat / 10 ^ P := Nat.div_le_div_right h1
        _ = m * 2 ^ e.toNat := h2
        _ < 2 ^ 24 * 2 ^ 104 := h4
        _ < 10 ^ (38 + 1) := by norm_num
    generalize m * 10 ^ P * 2 ^ e.toNat / 2 ^ (-e).toNat = q at hq
    obtain ⟨d1, d2, _, d4⟩ := decDigits_spec (q / 10 ^ P)
    obtain ⟨f1, f2, _⟩ := fracDigits_spec P (q % 10 ^ P)
    have hl := d4 38 hq
    refine ⟨by simp [d1], ?_, ?_⟩
    · intro c hc
      simp only [List.mem_append] at hc
      rcases hc with (hc | hc) | hc
      · cases s
        · simp at hc
        · simp only [if_true, List.mem_singleton] at hc
          exact Or.inr (Or.inl hc)
      · exact Or.inl (d2 c hc)
      · by_cases hP : P = 0
        · simp [hP] at hc
        · simp only [hP, if_false, List.mem_cons] at hc
          rcases hc with hc | hc
          · exact Or.inr (Or.inr hc)
          · exact Or.inl (f2 c hc)
    · simp only [List.length_append]
      have hs : (if s = true then ['-'] else []).length ≤ 1 := by cases s <;> simp
      have hf : (if P = 0 then []
          else '.' :: fracDigits P (q % 10 ^ P)).length ≤ 1 + P := by
        by_cases hP : P = 0
        · simp [hP]
        · simp [hP, f1]; omega
      omega

theorem fmtInt_eq (n : Int) :
    fmtInt n = (if decide (n < 0) then ['-'] else []) ++ decDigits n.natAbs := by
  unfold fmtInt
  by_cases h : n < 0 <;> simp [h]

theorem atoi_fmtInt (n : Int) (h : inIntRange n = true) : atoi (fmtInt n) = n := by
  simp only [inIntRange, Bool.and_eq_true, decide_eq_true_eq] at h
  obtain ⟨d1, d2, d3, _⟩ := decDigits_spec n.natAbs
  obtain ⟨hA, hB, _, _, _⟩ := numeral_head (decide (n < 0)) _ [] d1 d2 (Or.inl rfl)
  obtain ⟨hF, _⟩ := takeWhile_isdigit_stop _ [] d2 (Or.inl rfl)
  simp only [List.append_nil] at hA hB hF
  rw [fmtInt_eq]
  unfold atoi
  simp only [hA, hB, hF, d3 0, wrapInt]
  by_cases hn : n < 0
  · simp only [hn, decide_True, if_true]
    omega
  · simp only [hn, decide_False, Bool.false_eq_true, if_false]
    omega

theorem fmtInt_text (n : Int) (h : inIntRange n = true) :
    fmtInt n ≠ [] ∧ (∀ c ∈ fmtInt n, isdigit c = true ∨ c = '-' ∨ c = '.') ∧
    (fmtInt n).length ≤ 11 := by
  simp only [inIntRange, Bool.and_eq_true, decide_eq_true_eq] at h
  obtain ⟨d1, d2, _, d4⟩ := decDigits_spec n.natAbs
  have hl := d4 9 (by norm_num; omega)
  rw [fmtInt_eq]
  refine ⟨by simp [d1], ?_, ?_⟩
  · intro c hc
    rcases List.mem_append.1 hc with hc | hc
    · by_cases hn : n < 0
      · simp only [hn, decide_True, if_true, List.mem_singleton] at hc
        exact Or.inr (Or.inl hc)
      · simp [hn] at hc
    · exact Or.inl (d2 c hc)
  · simp only [List.length_append]
    have hs : (if decide (n < 0) = true then ['-'] else []).length ≤ 1 := by
      by_cases hn : n < 0 <;> simp [hn]
    omega

/-! ## Fields that the file format carries unchanged -/

theorem cleanField_iff (f : CString) :
    cleanField f = true ↔ f ≠ [] ∧ (∀ c ∈ f, c ≠ ',' ∧ c ≠ '\n' ∧ c ≠ '\x00') ∧
      isspace (f.headD ' ') = false ∧ isspace (f.reverse.headD ' ') = false := by
  simp [cleanField, List.isEmpty_iff, and_assoc]

theorem numeralChar_plain (c : Char) (h : isdigit c = true ∨ c = '-' ∨ c = '.') :
    (c ≠ ',' ∧ c ≠ '\n' ∧ c ≠ '\x00') ∧ isspace c = false := by
  rcases h with h | h | h
  · rcases isdigit_cases c h with h | h | h | h | h | h | h | h | h | h <;> subst h <;> decide
  · subst h; decide
  · subst h; decide

theorem headD_mem (f : CString) (hne : f ≠ []) (d : Char) : f.headD d ∈ f := by
  cases f with
  | nil => exact absurd rfl hne
  | cons a l => exact List.mem_cons_self _ _

theorem cleanField_of_numeral (f : CString) (hne : f ≠ [])
    (h : ∀ c ∈ f, isdigit c = true ∨ c = '-' ∨ c = '.') : cleanField f = true := by
  rw [cleanField_iff]
  refine ⟨hne, fun c hc => (numeralChar_plain c (h c hc)).1, ?_, ?_⟩
  · exact (numeralChar_plain _ (h _ (headD_mem f hne _))).2
  · have hr : f.reverse ≠ [] := by simpa using hne
    exact (numeralChar_plain _ (h _ (List.mem_reverse.1 (headD_mem f.reverse hr _)))).2

theorem trimWhitespace_clean (f : CString) (h : cleanField f = true) : trimWhitespace f = f := by
  rw [cleanField_iff] at h
  obtain ⟨hne, _, hh, hl⟩ := h
  have h1 : f.dropWhile isspace = f := by
    cases f with
    | nil => rfl
    | cons a l =>
      simp only [List.headD_cons] at hh
      simp [List.dropWhile_cons, hh]
  have h2 : f.reverse.dropWhile isspace = f.reverse := by
    cases hr : f.reverse with
    | nil => rfl
    | cons a l =>
      rw [hr] at hl
      simp only [List.headD_cons] at hl
      simp [List.dropWhile_cons, hl]
  unfold trimWhitespace
  simp only [h1, hne, if_false, h2, List.reverse_reverse]

theorem cstr_clean (f : CString) (h : ∀ c ∈ f, c ≠ '\x00') : cstr f = f := by
  unfold cstr
  rw [List.takeWhile_eq_self_iff]
  intro c hc
  simpa using h c hc

theorem strncpy_clean (f : CString) (n : Nat) (h : cleanField f = true) (hl : f.length ≤ n) :
    strncpy f n = f := by
  rw [cleanField_iff] at h
  unfold strncpy
  rw [cstr_clean f (fun c hc => (h.2.1 c hc).2.2)]
  exact List.take_of_length_le hl

theorem strtok_clean (f rest : CString) (h : cleanField f = true) :
    strtok (f ++ ',' :: rest) = some (f, rest) ∧ strtok f = some (f, []) := by
  rw [cleanField_iff] at h
  obtain ⟨hne, hall, _, _⟩ := h
  have hp : ∀ c ∈ f, (fun c => c != ',') c = true := fun c hc => by simpa using (hall c hc).1
  obtain ⟨a, l, rfl⟩ := List.exists_cons_of_ne_nil hne
  have ha : (a == ',') = false := by simpa using (hall a (List.mem_cons_self _ _)).1
  have h1 : ∀ x : CString, ((a :: l) ++ x).dropWhile (fun c => c == ',') = (a :: l) ++ x := by
    intro x
    simp [List.dropWhile_cons, ha]
  have h2 : ((a :: l) ++ ',' :: rest).takeWhile (fun c => c != ',') = a :: l := by
    rw [List.takeWhile_append_of_pos hp]
    simp [List.takeWhile_cons]
  have h3 : ((a :: l) ++ ',' :: rest).dropWhile (fun c => c != ',') = ',' :: rest := by
    rw [List.dropWhile_append_of_pos hp]
    simp [List.dropWhile_cons]
  have h4 : (a :: l).takeWhile (fun c => c != ',') = a :: l :=
    List.takeWhile_eq_self_iff.2 hp
  have h5 : (a :: l).dropWhile (fun c => c != ',') = [] :=
    List.dropWhile_eq_nil_iff.2 hp
  constructor
  · unfold strtok
    simp only [h1, h2, h3]
    simp
  · have h6 := h1 []
    simp only [List.append_nil] at h6
    unfold strtok
    simp only [h6, h4, h5]
    simp

theorem tokens_join (f1 f2 f3 f4 f5 : CString) (h1 : cleanField f1 = true)
    (h2 : cleanField f2 = true) (h3 : cleanField f3 = true) (h4 : cleanField f4 = true)
    (h5 : cleanField f5 = true) :
    tokens (f1 ++ ',' :: (f2 ++ ',' :: (f3 ++ ',' :: (f4 ++ ',' :: f5)))) =
      [f1, f2, f3, f4, f5] := by
  rw [tokens_eq_strtok, (strtok_clean f1 _ h1).1]
  simp only []
  rw [tokens_eq_strtok, (strtok_clean f2 _ h2).1]
  simp only []
  rw [tokens_eq_strtok, (strtok_clean f3 _ h3).1]
  simp only []
  rw [tokens_eq_strtok, (strtok_clean f4 _ h4).1]
  simp only []
  rw [tokens_eq_strtok, (strtok_clean f5 [] h5).2]
  rfl

/-! ## Rounding error of values that the format does not hold -/

theorem roundBin_near (f : Format) (hp : 1 ≤ f.prec) (s : Bool) (n d : Nat) (hn : 0 < n)
    (hd : 0 < d) (B : Int) (hB : (n : ℚ) / d < (2 : ℚ) ^ B) (h1 : f.emin ≤ B - f.prec)
    (h2 : B - f.prec + 1 ≤ f.emax) :
    ∃ M E, roundBin f s n d = CFloat.fin s M E ∧
      |(M : ℚ) * (2 : ℚ) ^ E - (n : ℚ) / d| ≤ (2 : ℚ) ^ (B - f.prec - 1) := by
  have hdq : (0 : ℚ) < d := by exact_mod_cast hd
  obtain ⟨hfl1, hfl2⟩ := floorLog_spec n d hn hd _ rfl
  have hn0 : ¬ n = 0 := by omega
  unfold roundBin
  simp only [hn0, if_false]
  generalize hE : max ((if d * 2 ^ ((bitLen n : Int) - (bitLen d : Int)).toNat ≤
          n * 2 ^ (-((bitLen n : Int) - (bitLen d : Int))).toNat
        then (bitLen n : Int) - (bitLen d : Int)
        else (bitLen n : Int) - (bitLen d : Int) - 1) - ((f.prec : Int) - 1)) f.emin = e
  have he : e ≤ B - f.prec := by
    generalize (if d * 2 ^ ((bitLen n : Int) - (bitLen d : Int)).toNat ≤
          n * 2 ^ (-((bitLen n : Int) - (bitLen d : Int))).toNat
        then (bitLen n : Int) - (bitLen d : Int)
        else (bitLen n : Int) - (bitLen d : Int) - 1) = fl at hfl1 hfl2 hE
    have : fl < B := zpow_two_lt_of_le_of_lt _ _ _ hfl1 hB
    rw [← hE]
    exact max_le (by omega) h1
  have hden : 0 < d * 2 ^ e.toNat := by positivity
  have hdenq : (0 : ℚ) < ((d * 2 ^ e.toNat : Nat) : ℚ) := by exact_mod_cast hden
  have hy : ((n * 2 ^ (-e).toNat : Nat) : ℚ) / ((d * 2 ^ e.toNat : Nat) : ℚ) * (2 : ℚ) ^ e =
      (n : ℚ) / d := by
    rw [zpow_two_split e]
    push_cast
    field_simp
    ring
  have hdm := Nat.div_add_mod (n * 2 ^ (-e).toNat) (d * 2 ^ e.toNat)
  have hr := Nat.mod_lt (n * 2 ^ (-e).toNat) hden
  generalize n * 2 ^ (-e).toNat = num at hy hdm hr ⊢
  generalize d * 2 ^ e.toNat = den at hy hdm hr hden hdenq ⊢
  generalize hq : num / den = q at hdm ⊢
  generalize hrr : num % den = r at hdm hr ⊢
  have hnum : (num : ℚ) = (den : ℚ) * q + r := by exact_mod_cast hdm.symm
  have h2e : (0 : ℚ) < (2 : ℚ) ^ e := by positivity
  have hrq : (r : ℚ) < den := by exact_mod_cast hr
  have hr0 : (0 : ℚ) ≤ r := by positivity
  have key : ∀ q1 : Nat, |(q1 : ℚ) - (num : ℚ) / den| ≤ 1 / 2 →
      |(q1 : ℚ) * (2 : ℚ) ^ e - (n : ℚ) / d| ≤ (2 : ℚ) ^ (B - f.prec - 1) := by
    intro q1 hq1
    rw [← hy]
    have e1 : (q1 : ℚ) * (2 : ℚ) ^ e - (num : ℚ) / den * (2 : ℚ) ^ e =
        ((q1 : ℚ) - (num : ℚ) / den) * (2 : ℚ) ^ e := by ring
    rw [e1, abs_mul, abs_of_pos h2e]
    calc |(q1 : ℚ) - (num : ℚ) / den| * (2 : ℚ) ^ e ≤ 1 / 2 * (2 : ℚ) ^ e :=
          mul_le_mul_of_nonneg_right hq1 (le_of_lt h2e)
      _ = (2 : ℚ) ^ (e - 1) := by
          rw [zpow_sub₀ (by norm_num), zpow_one]; ring
      _ ≤ (2 : ℚ) ^ (B - f.prec - 1) :=
          zpow_le_zpow_right₀ (by norm_num) (by omega)
  have hup : den < 2 * r ∨ 2 * r = den ∧ q % 2 = 1 →
      |((q + 1 : Nat) : ℚ) - (num : ℚ) / den| ≤ 1 / 2 := by
    intro h
    have h2r : (den : ℚ) ≤ 2 * r := by
      rcases h with h | h
      · exact_mod_cast le_of_lt h
      · exact_mod_cast le_of_eq h.1.symm
    have : ((q + 1 : Nat) : ℚ) - (num : ℚ) / den = ((den : ℚ) - r) / den := by
      rw [hnum]; push_cast; field_simp; ring
    rw [this, abs_of_nonneg (div_nonneg (by linarith) (le_of_lt hdenq)),
      div_le_iff₀ hdenq]
    linarith
  have hdown : ¬ (den < 2 * r ∨ 2 * r = den ∧ q % 2 = 1) →
      |(q : ℚ) - (num : ℚ) / den| ≤ 1 / 2 := by
    intro h
    have h2r : 2 * (r : ℚ) ≤ den := by
      have : 2 * r ≤ den := by omega
      exact_mod_cast this
    have : (q : ℚ) - (num : ℚ) / den = -((r : ℚ) / den) := by
      rw [hnum]; field_simp; ring
    rw [this, abs_neg, abs_of_nonneg (div_nonneg hr0 (le_of_lt hdenq)), div_le_iff₀ hdenq]
    linarith
  by_cases hc : den < 2 * r ∨ 2 * r = den ∧ q % 2 = 1
  · simp only [hc, if_true]
    by_cases hq1 : q + 1 = 2 ^ f.prec
    · have h7 : ¬ (f.emax < e + 1) := by omega
      simp only [hq1, if_true, h7, if_false]
      refine ⟨_, _, rfl, ?_⟩
      have := key (q + 1) (hup hc)
      have e2 : ((2 ^ (f.prec - 1) : Nat) : ℚ) * (2 : ℚ) ^ (e + 1) =
          ((q + 1 : Nat) : ℚ) * (2 : ℚ) ^ e := by
        rw [hq1, zpow_add₀ (by norm_num), zpow_one]
        push_cast
        have : f.prec = (f.prec - 1) + 1 := by omega
        conv_rhs => rw [this, pow_succ]
        ring
      rw [e2]
      exact this
    · have h7 : ¬ (f.emax < e) := by omega
      simp only [hq1, if_false, h7]
      exact ⟨_, _, rfl, key (q + 1) (hup hc)⟩
  · simp only [hc, if_false]
    by_cases hq1 : q = 2 ^ f.prec
    · have h7 : ¬ (f.emax < e + 1) := by omega
      simp only [hq1, if_true, h7, if_false]
      refine ⟨_, _, rfl, ?_⟩
      have := key q (hdown hc)
      have e2 : ((2 ^ (f.prec - 1) : Nat) : ℚ) * (2 : ℚ) ^ (e + 1) =
          (q : ℚ) * (2 : ℚ) ^ e := by
        rw [hq1, zpow_add₀ (by norm_num), zpow_one]
        push_cast
        have : f.prec = (f.prec - 1) + 1 := by omega
        conv_rhs => rw [this, pow_succ]
        ring
      rw [e2]
      exact this
    · have h7 : ¬ (f.emax < e) := by omega
      simp only [hq1, if_false, h7]
      exact ⟨_, _, rfl, key q (hdown hc)⟩

theorem floatOfCents_near (s : Bool) (K : Nat) (h0 : 0 < K) (hK : K < 13107200) :
    ∃ m e, floatOfCents s K = CFloat.fin s m e ∧
      |(m : ℚ) * (2 : ℚ) ^ e - (K : ℚ) / 100| < 1 / 200 := by
  have hKq : (K : ℚ) < 13107200 := by exact_mod_cast hK
  have hKq2 : (K : ℚ) ≤ 13107199 := by exact_mod_cast (by omega : K ≤ 13107199)
  have hK0 : (1 : ℚ) ≤ K := by exact_mod_cast h0
  have hx : ((K : Nat) : ℚ) / ((100 : Nat) : ℚ) < (2 : ℚ) ^ (17 : Int) := by
    rw [div_lt_iff₀ (by norm_num)]
    norm_num
    linarith
  obtain ⟨M, E, hd, hde⟩ := roundBin_near binary64 (by decide) s K 100 h0 (by norm_num) 17 hx
    (by decide) (by decide)
  have hde2 : |(M : ℚ) * (2 : ℚ) ^ E - (K : ℚ) / 100| ≤ (2 : ℚ) ^ (-37 : Int) := by
    have : (17 : Int) - (binary64.prec : Int) - 1 = -37 := by decide
    rw [this] at hde
    simpa using hde
  have h37 : (2 : ℚ) ^ (-37 : Int) = 1 / 137438953472 := by norm_num [zpow_neg]
  rw [h37] at hde2
  obtain ⟨hlo, hhi⟩ := abs_le.1 hde2
  have hMpos : (0 : ℚ) < (M : ℚ) * (2 : ℚ) ^ E := by linarith
  have hM0 : 0 < M := by
    rcases Nat.eq_zero_or_pos M with h | h
    · subst h; simp at hMpos
    · exact h
  have hval : ((M * 2 ^ E.toNat : Nat) : ℚ) / ((2 ^ (-E).toNat : Nat) : ℚ) =
      (M : ℚ) * (2 : ℚ) ^ E := by
    rw [zpow_two_split E]
    push_cast
    ring
  have hx2 : ((M * 2 ^ E.toNat : Nat) : ℚ) / ((2 ^ (-E).toNat : Nat) : ℚ) < (2 : ℚ) ^ (17 : Int) := by
    rw [hval]
    norm_num
    linarith
  obtain ⟨m, e, hf, hfe⟩ := roundBin_near binary32 (by decide) s (M * 2 ^ E.toNat)
    (2 ^ (-E).toNat) (by positivity) (by positivity) 17 hx2 (by decide) (by decide)
  rw [hval] at hfe
  have hfe2 : |(m : ℚ) * (2 : ℚ) ^ e - (M : ℚ) * (2 : ℚ) ^ E| ≤ (2 : ℚ) ^ (-8 : Int) := by
    have : (17 : Int) - (binary32.prec : Int) - 1 = -8 := by decide
    rw [this] at hfe
    exact hfe
  have h8 : (2 : ℚ) ^ (-8 : Int) = 1 / 256 := by norm_num [zpow_neg]
  rw [h8] at hfe2
  refine ⟨m, e, ?_, ?_⟩
  · unfold floatOfCents
    rw [hd]
    exact hf
  · obtain ⟨h3, h4⟩ := abs_le.1 hfe2
    rw [abs_lt]
    constructor <;> linarith

theorem fmtFixed_near (s : Bool) (m : Nat) (e : Int) (K : Nat)
    (h : |(m : ℚ) * (2 : ℚ) ^ e - (K : ℚ) / 100| < 1 / 200) :
    fmtFixed 2 (CFloat.fin s m e) =
      (if s then ['-'] else []) ++ decDigits (K / 10 ^ 2) ++
        '.' :: fracDigits 2 (K % 10 ^ 2) := by
  have hden : 0 < 2 ^ (-e).toNat := by positivity
  have hdenq : (0 : ℚ) < ((2 ^ (-e).toNat : Nat) : ℚ) := by exact_mod_cast hden
  have hy : ((m * 10 ^ 2 * 2 ^ e.toNat : Nat) : ℚ) / ((2 ^ (-e).toNat : Nat) : ℚ) =
      100 * ((m : ℚ) * (2 : ℚ) ^ e) := by
    rw [zpow_two_split e]
    push_cast
    ring
  have hdm := Nat.div_add_mod (m * 10 ^ 2 * 2 ^ e.toNat) (2 ^ (-e).toNat)
  have hr := Nat.mod_lt (m * 10 ^ 2 * 2 ^ e.toNat) hden
  unfold fmtFixed
  simp only []
  generalize m * 10 ^ 2 * 2 ^ e.toNat = num at hy hdm hr ⊢
  generalize 2 ^ (-e).toNat = den at hy hdm hr hden hdenq ⊢
  generalize num / den = q at hdm ⊢
  generalize num % den = r at hdm hr ⊢
  have hnum : (num : ℚ) = (den : ℚ) * q + r := by exact_mod_cast hdm.symm
  have hrq : (r : ℚ) < den := by exact_mod_cast hr
  have hr0 : (0 : ℚ) ≤ r := by positivity
  obtain ⟨hlo, hhi⟩ := abs_lt.1 h
  have hyK : (K : ℚ) - 1 / 2 < (num : ℚ) / den ∧ (num : ℚ) / den < (K : ℚ) + 1 / 2 := by
    rw [hy]
    constructor <;> linarith
  have hq1 : (q : ℚ) + (r : ℚ) / den = (num : ℚ) / den := by
    rw [hnum]; field_simp; ring
  have hfrac0 : (0 : ℚ) ≤ (r : ℚ) / den := div_nonneg hr0 (le_of_lt hdenq)
  have hfrac1 : (r : ℚ) / den < 1 := by rw [div_lt_one hdenq]; exact hrq
  have hN : (if den < 2 * r ∨ 2 * r = den ∧ q % 2 = 1 then q + 1 else q) = K := by
    by_cases hc : den < 2 * r ∨ 2 * r = den ∧ q % 2 = 1
    · simp only [hc, if_true]
      have h2r : (den : ℚ) ≤ 2 * r := by
        rcases hc with h | h
        · exact_mod_cast le_of_lt h
        · exact_mod_cast le_of_eq h.1.symm
      have hhalf : (1 : ℚ) / 2 ≤ (r : ℚ) / den := by
        rw [le_div_iff₀ hdenq]; linarith
      have ha : (q : ℚ) + 1 < (K : ℚ) + 1 := by linarith [hyK.2]
      have hb : (K : ℚ) - 1 < (q : ℚ) + 1 - 1 + 1 := by linarith [hyK.1]
      have ha1 : q + 1 < K + 1 := by exact_mod_cast ha
      have hb1 : (K : ℚ) < (q : ℚ) + 2 := by linarith
      have hb2 : K < q + 2 := by exact_mod_cast hb1
      omega
    · simp only [hc, if_false]
      have h2r : 2 * (r : ℚ) ≤ den := by
        have : 2 * r ≤ den := by omega
        exact_mod_cast this
      have hhalf : (r : ℚ) / den ≤ 1 / 2 := by
        rw [div_le_iff₀ hdenq]; linarith
      have ha : (q : ℚ) < (K : ℚ) + 1 / 2 := by linarith [hyK.2]
      have hb : (K : ℚ) - 1 < (q : ℚ) := by linarith [hyK.1]
      have ha1 : (q : ℚ) < (K : ℚ) + 1 := by linarith
      have ha2 : q < K + 1 := by exact_mod_cast ha1
      have hb1 : (K : ℚ) < (q : ℚ) + 1 := by linarith
      have hb2 : K < q + 1 := by exact_mod_cast hb1
      omega
  rw [hN]
  simp

/-! ## Rounding is monotone (claims C13 and C14) -/

theorem roundBin_struct (f : Format) (s : Bool) (n d : Nat) (hn : 0 < n) (hd : 0 < d) :
    ∃ (fl ex : Int) (q1 : Nat),
      (2 : ℚ) ^ fl ≤ (n : ℚ) / d ∧ (n : ℚ) / d < (2 : ℚ) ^ (fl + 1) ∧
      ex = max (fl - ((f.prec : Int) - 1)) f.emin ∧
      (q1 : ℚ) * (2 : ℚ) ^ ex < (n : ℚ) / d + (2 : ℚ) ^ ex ∧
      (n : ℚ) / d < ((q1 : ℚ) + 1) * (2 : ℚ) ^ ex ∧
      roundBin f s n d =
        (if q1 = 2 ^ f.prec then
          (if f.emax < ex + 1 then CFloat.inf s else CFloat.fin s (2 ^ (f.prec - 1)) (ex + 1))
        else if f.emax < ex then CFloat.inf s
        else CFloat.fin s q1 ex) := by
  have hdq : (0 : ℚ) < d := by exact_mod_cast hd
  obtain ⟨hfl1, hfl2⟩ := floorLog_spec n d hn hd _ rfl
  have hn0 : ¬ n = 0 := by omega
  unfold roundBin
  simp only [hn0, if_false]
  refine ⟨_, _, _, hfl1, hfl2, rfl, ?_, ?_, rfl⟩
  all_goals
    generalize max ((if d * 2 ^ ((bitLen n : Int) - (bitLen d : Int)).toNat ≤
            n * 2 ^ (-((bitLen n : Int) - (bitLen d : Int))).toNat
          then (bitLen n : Int) - (bitLen d : Int)
          else (bitLen n : Int) - (bitLen d : Int) - 1) - ((f.prec : Int) - 1)) f.emin = e
    have hden : 0 < d * 2 ^ e.toNat := by positivity
    have hdenq : (0 : ℚ) < ((d * 2 ^ e.toNat : Nat) : ℚ) := by exact_mod_cast hden
    have h2e : (0 : ℚ) < (2 : ℚ) ^ e := by positivity
    have hy : (n : ℚ) / d =
        ((n * 2 ^ (-e).toNat : Nat) : ℚ) / ((d * 2 ^ e.toNat : Nat) : ℚ) * (2 : ℚ) ^ e := by
      rw [zpow_two_split e]
      push_cast
      field_simp
      ring
    have hdm := Nat.div_add_mod (n * 2 ^ (-e).toNat) (d * 2 ^ e.toNat)
    have hr := Nat.mod_lt (n * 2 ^ (-e).toNat) hden
    generalize n * 2 ^ (-e).toNat = num at hy hdm hr ⊢
    generalize d * 2 ^ e.toNat = den at hy hdm hr hden hdenq ⊢
    generalize hq : num / den = q at hdm ⊢
    generalize hrr : num % den = r at hdm hr ⊢
    have hnum : (num : ℚ) = (den : ℚ) * q + r := by exact_mod_cast hdm.symm
    have hrq : (r : ℚ) < den := by exact_mod_cast hr
    have hr0 : (0 : ℚ) ≤ r := by positivity
    have hyy : (num : ℚ) / den = q + r / den := by
      rw [hnum]
      field_simp
      ring
    have hfrac0 : (0 : ℚ) ≤ r / den := div_nonneg hr0 (le_of_lt hdenq)
    have hfrac1 : (r : ℚ) / den < 1 := (div_lt_one hdenq).2 hrq
    rw [hy, hyy]
  · by_cases hc : den < 2 * r ∨ 2 * r = den ∧ q % 2 = 1
    · simp only [hc, if_true]
      have hrpos : (0 : ℚ) < r / den := by
        apply div_pos _ hdenq
        have : 0 < r := by omega
        exact_mod_cast this
      push_cast
      nlinarith
    · simp only [hc, if_false]
      nlinarith
  · by_cases hc : den < 2 * r ∨ 2 * r = den ∧ q % 2 = 1
    · simp only [hc, if_true]
      push_cast
      nlinarith
    · simp only [hc, if_false]
      nlinarith

theorem scaled_stored (M : Nat) (E ex : Int) (h : ex ≤ E) :
    ((M * 2 ^ (E - ex).toNat : Nat) : ℚ) * (2 : ℚ) ^ ex = M * (2 : ℚ) ^ E := by
  have h1 : ((2 ^ (E - ex).toNat : Nat) : ℚ) = (2 : ℚ) ^ (E - ex) := by
    push_cast
    rw [← zpow_natCast, Int.toNat_of_nonneg (by omega)]
  rw [Nat.cast_mul, h1, mul_assoc, ← zpow_add₀ (by norm_num : (2 : ℚ) ≠ 0)]
  congr 2
  omega

theorem carry_value (p : Nat) (hp : 1 ≤ p) (ex : Int) :
    ((2 ^ (p - 1) : Nat) : ℚ) * (2 : ℚ) ^ (ex + 1) = ((2 ^ p : Nat) : ℚ) * (2 : ℚ) ^ ex := by
  rw [zpow_add₀ (by norm_num), zpow_one]
  push_cast
  have : p = (p - 1) + 1 := by omega
  conv_rhs => rw [this, pow_succ]
  ring

theorem roundBin_le_of_le (f : Format) (hp : 1 ≤ f.prec) (s : Bool) (n d : Nat) (hn : 0 < n)
    (hd : 0 < d) (M : Nat) (E : Int) (hM : M < 2 ^ f.prec) (hE1 : f.emin ≤ E)
    (hE2 : E ≤ f.emax) (h : (n : ℚ) / d ≤ M * (2 : ℚ) ^ E) :
    ∃ m e, roundBin f s n d = CFloat.fin s m e ∧ (m : ℚ) * (2 : ℚ) ^ e ≤ M * (2 : ℚ) ^ E := by
  obtain ⟨fl, ex, q1, hfl1, hfl2, hex, hq1, hq2, hres⟩ := roundBin_struct f s n d hn hd
  have h2E : (0 : ℚ) < (2 : ℚ) ^ E := by positivity
  have h2ex : (0 : ℚ) < (2 : ℚ) ^ ex := by positivity
  have hMq : (M : ℚ) < (2 : ℚ) ^ (f.prec : Int) := by
    rw [zpow_natCast]
    exact_mod_cast hM
  have hfl : fl < (f.prec : Int) + E := by
    apply zpow_two_lt_of_le_of_lt fl _ _ hfl1
    rw [zpow_add₀ (by norm_num)]
    calc (n : ℚ) / d ≤ M * (2 : ℚ) ^ E := h
      _ < (2 : ℚ) ^ (f.prec : Int) * (2 : ℚ) ^ E := mul_lt_mul_of_pos_right hMq h2E
  have hexE : ex ≤ E := by
    rw [hex]
    exact max_le (by omega) hE1
  have hZ := scaled_stored M E ex hexE
  have hq1Z : q1 ≤ M * 2 ^ (E - ex).toNat := by
    have : (q1 : ℚ) < ((M * 2 ^ (E - ex).toNat : Nat) : ℚ) + 1 := by
      have h3 : (q1 : ℚ) * (2 : ℚ) ^ ex <
          (((M * 2 ^ (E - ex).toNat : Nat) : ℚ) + 1) * (2 : ℚ) ^ ex := by
        rw [add_mul, hZ, one_mul]
        linarith
      exact lt_of_mul_lt_mul_right h3 (le_of_lt h2ex)
    have : q1 < M * 2 ^ (E - ex).toNat + 1 := by exact_mod_cast this
    omega
  have hval : (q1 : ℚ) * (2 : ℚ) ^ ex ≤ M * (2 : ℚ) ^ E := by
    rw [← hZ]
    exact mul_le_mul_of_nonneg_right (by exact_mod_cast hq1Z) (le_of_lt h2ex)
  by_cases hc : q1 = 2 ^ f.prec
  · have h7 : ¬ (f.emax < ex + 1) := by
      intro h7
      have hEq : E = ex := by omega
      rw [hEq] at hq1Z
      simp only [sub_self, Int.toNat_zero, pow_zero, mul_one] at hq1Z
      omega
    rw [hres, if_pos hc, if_neg h7]
    refine ⟨_, _, rfl, ?_⟩
    rw [carry_value f.prec hp, ← hc]
    exact hval
  · have h7 : ¬ (f.emax < ex) := by omega
    rw [hres, if_neg hc, if_neg h7]
    exact ⟨_, _, rfl, hval⟩

theorem roundBin_ge_of_ge (f : Format) (hp : 1 ≤ f.prec) (s : Bool) (n d : Nat) (hn : 0 < n)
    (hd : 0 < d) (M : Nat) (E : Int) (hM : M < 2 ^ f.prec) (hE1 : f.emin ≤ E)
    (h : M * (2 : ℚ) ^ E ≤ (n : ℚ) / d) :
    roundBin f s n d = CFloat.inf s ∨
      ∃ m e, roundBin f s n d = CFloat.fin s m e ∧ M * (2 : ℚ) ^ E ≤ (m : ℚ) * (2 : ℚ) ^ e := by
  obtain ⟨fl, ex, q1, hfl1, hfl2, hex, hq1, hq2, hres⟩ := roundBin_struct f s n d hn hd
  have h2E : (0 : ℚ) < (2 : ℚ) ^ E := by positivity
  have h2ex : (0 : ℚ) < (2 : ℚ) ^ ex := by positivity
  have hMq : (M : ℚ) < (2 : ℚ) ^ (f.prec : Int) := by
    rw [zpow_natCast]
    exact_mod_cast hM
  have hval : M * (2 : ℚ) ^ E ≤ (q1 : ℚ) * (2 : ℚ) ^ ex := by
    by_cases hexE : ex ≤ E
    · have hZ := scaled_stored M E ex hexE
      have hq1Z : M * 2 ^ (E - ex).toNat ≤ q1 := by
        have : ((M * 2 ^ (E - ex).toNat : Nat) : ℚ) < (q1 : ℚ) + 1 := by
          have h3 : ((M * 2 ^ (E - ex).toNat : Nat) : ℚ) * (2 : ℚ) ^ ex <
              ((q1 : ℚ) + 1) * (2 : ℚ) ^ ex := by
            rw [hZ]
            linarith
          exact lt_of_mul_lt_mul_right h3 (le_of_lt h2ex)
        have : M * 2 ^ (E - ex).toNat < q1 + 1 := by exact_mod_cast this
        omega
      rw [← hZ]
      exact mul_le_mul_of_nonneg_right (by exact_mod_cast hq1Z) (le_of_lt h2ex)
    · have hexfl : ex = fl - ((f.prec : Int) - 1) := by
        rw [hex]
        rw [hex] at hexE
        rcases le_total (fl - ((f.prec : Int) - 1)) f.emin with h1 | h1
        · rw [max_eq_right h1] at hexE
          omega
        · exact max_eq_left h1
      have hflx : fl = ((f.prec - 1 : Nat) : Int) + ex := by omega
      have hq1p : 2 ^ (f.prec - 1) ≤ q1 := by
        have h3 : ((2 ^ (f.prec - 1) : Nat) : ℚ) * (2 : ℚ) ^ ex < ((q1 : ℚ) + 1) * (2 : ℚ) ^ ex := by
          calc ((2 ^ (f.prec - 1) : Nat) : ℚ) * (2 : ℚ) ^ ex = (2 : ℚ) ^ fl := by
                rw [hflx, zpow_add₀ (by norm_num), zpow_natCast]
                push_cast
                rfl
            _ ≤ (n : ℚ) / d := hfl1
            _ < ((q1 : ℚ) + 1) * (2 : ℚ) ^ ex := hq2
        have h4 := lt_of_mul_lt_mul_right h3 (le_of_lt h2ex)
        have : 2 ^ (f.prec - 1) < q1 + 1 := by exact_mod_cast h4
        omega
      have h5 : (2 : ℚ) ^ ((f.prec : Int) + E) ≤
          (2 : ℚ) ^ (((f.prec - 1 : Nat) : Int) + ex) :=
        zpow_le_zpow_right₀ (by norm_num) (by omega)
      rw [zpow_add₀ (by norm_num), zpow_add₀ (by norm_num), zpow_natCast _ (f.prec - 1)] at h5
      calc M * (2 : ℚ) ^ E ≤ (2 : ℚ) ^ (f.prec : Int) * (2 : ℚ) ^ E :=
            mul_le_mul_of_nonneg_right (le_of_lt hMq) (le_of_lt h2E)
        _ ≤ (2 : ℚ) ^ (f.prec - 1) * (2 : ℚ) ^ ex := h5
        _ ≤ (q1 : ℚ) * (2 : ℚ) ^ ex :=
            mul_le_mul_of_nonneg_right (by exact_mod_cast hq1p) (le_of_lt h2ex)
  by_cases hc : q1 = 2 ^ f.prec
  · by_cases h7 : f.emax < ex + 1
    · left
      rw [hres, if_pos hc, if_pos h7]
    · right
      rw [hres, if_pos hc, if_neg h7]
      refine ⟨_, _, rfl, ?_⟩
      rw [carry_value f.prec hp, ← hc]
      exact hval
  · by_cases h7 : f.emax < ex
    · left
      rw [hres, if_neg hc, if_pos h7]
    · right
      rw [hres, if_neg hc, if_neg h7]
      exact ⟨_, _, rfl, hval⟩

theorem finValue_false (m : Nat) (e : Int) : finValue false m e = (m : ℚ) * (2 : ℚ) ^ e := by
  simp [finValue, signed]

theorem finValue_true (m : Nat) (e : Int) : finValue true m e = -((m : ℚ) * (2 : ℚ) ^ e) := by
  simp [finValue, signed]

theorem signed_scaled (s : Bool) (m : Nat) (e c : Int) (hc : c ≤ e) :
    ((signed s (m * 2 ^ (e - c).toNat) : Int) : ℚ) * (2 : ℚ) ^ c = finValue s m e := by
  have h := scaled_stored m e c hc
  cases s
  · rw [finValue_false, ← h]
    simp [signed]
  · rw [finValue_true, ← h]
    simp [signed]

theorem CFloat.lt_fin_iff (s : Bool) (m : Nat) (e : Int) (t : Bool) (n : Nat) (g : Int) :
    CFloat.lt (CFloat.fin s m e) (CFloat.fin t n g) = true ↔
      finValue s m e < finValue t n g := by
  have h2c : (0 : ℚ) < (2 : ℚ) ^ (min e g) := by positivity
  rw [← signed_scaled s m e (min e g) (min_le_left _ _),
    ← signed_scaled t n g (min e g) (min_le_right _ _)]
  simp only [CFloat.lt, decide_eq_true_eq]
  rw [mul_lt_mul_right h2c]
  exact Int.cast_lt.symm

theorem CFloat.le_fin_iff (s : Bool) (m : Nat) (e : Int) (t : Bool) (n : Nat) (g : Int) :
    CFloat.le (CFloat.fin s m e) (CFloat.fin t n g) = true ↔
      finValue s m e ≤ finValue t n g := by
  have h1 := CFloat.lt_fin_iff s m e t n g
  have h2 := CFloat.lt_fin_iff t n g s m e
  simp only [CFloat.le, CFloat.eq, Bool.or_eq_true, Bool.and_eq_true, Bool.not_eq_true',
    ← Bool.not_eq_true, h1, h2]
  constructor
  · rintro (h | h)
    · exact le_of_lt h
    · exact le_of_not_lt h.2
  · intro h
    rcases lt_or_eq_of_le h with h | h
    · exact Or.inl h
    · exact Or.inr ⟨by rw [h]; exact lt_irrefl _, by rw [h]; exact lt_irrefl _⟩

theorem roundBin_cases (f : Format) (s : Bool) (n d : Nat) :
    roundBin f s n d = CFloat.inf s ∨ ∃ m e, roundBin f s n d = CFloat.fin s m e ∧
      (n = 0 → m = 0) := by
  unfold roundBin
  by_cases hn : n = 0
  · right
    exact ⟨0, f.emin, by simp [hn], fun _ => rfl⟩
  · simp only [hn, if_false]
    split_ifs <;>
      first
      | exact Or.inl rfl
      | exact Or.inr ⟨_, _, rfl, fun h => h.elim⟩

theorem CFloat.add_fin_spec (f : Format) (s : Bool) (m : Nat) (e : Int) (t : Bool) (n : Nat)
    (g : Int) :
    (finValue s m e + finValue t n g = 0 →
      CFloat.add f (CFloat.fin s m e) (CFloat.fin t n g) = CFloat.fin (s && t) 0 f.emin) ∧
    (finValue s m e + finValue t n g ≠ 0 →
      ∃ N D : Nat, 0 < N ∧ 0 < D ∧ (N : ℚ) / D = |finValue s m e + finValue t n g| ∧
        CFloat.add f (CFloat.fin s m e) (CFloat.fin t n g) =
          roundBin f (decide (finValue s m e + finValue t n g < 0)) N D) := by
  have h2c : (0 : ℚ) < (2 : ℚ) ^ (min e g) := by positivity
  have hsum : ((signed s (m * 2 ^ (e - min e g).toNat) +
      signed t (n * 2 ^ (g - min e g).toNat) : Int) : ℚ) * (2 : ℚ) ^ (min e g) =
      finValue s m e + finValue t n g := by
    rw [Int.cast_add, add_mul, signed_scaled s m e _ (min_le_left _ _),
      signed_scaled t n g _ (min_le_right _ _)]
  simp only [CFloat.add]
  generalize signed s (m * 2 ^ (e - min e g).toNat) +
    signed t (n * 2 ^ (g - min e g).toNat) = sum at hsum ⊢
  rw [← hsum]
  constructor
  · intro h0
    have : sum = 0 := by
      rcases mul_eq_zero.1 h0 with h | h
      · exact_mod_cast h
      · exact absurd h (ne_of_gt h2c)
    rw [if_pos this]
  · intro h0
    have hs : sum ≠ 0 := by
      rintro rfl
      exact h0 (by simp)
    rw [if_neg hs]
    refine ⟨sum.natAbs * 2 ^ (min e g).toNat, 2 ^ (-(min e g)).toNat, ?_, by positivity, ?_, ?_⟩
    · have : 0 < sum.natAbs := Int.natAbs_pos.2 hs
      positivity
    · rw [abs_mul, abs_of_pos h2c, zpow_two_split (min e g)]
      push_cast
      rw [Nat.cast_natAbs, Int.cast_abs]
      ring
    · have : ((sum : ℚ) * (2 : ℚ) ^ (min e g) < 0) ↔ sum < 0 := by
        rw [mul_neg_iff]
        constructor
        · rintro (⟨_, h⟩ | ⟨h, _⟩)
          · exact absurd h (not_lt.2 (le_of_lt h2c))
          · exact_mod_cast h
        · intro h
          exact Or.inr ⟨by exact_mod_cast h, h2c⟩
      rw [decide_eq_decide.2 this]

theorem roundBin_zero (f : Format) (s : Bool) (d : Nat) :
    roundBin f s 0 d = CFloat.fin s 0 f.emin := by
  simp [roundBin]

theorem finValue_zero (s : Bool) (e : Int) : finValue s 0 e = 0 := by
  cases s <;> simp [finValue, signed]

theorem finValue_neg_sign (s : Bool) (m : Nat) (e : Int) (h : finValue s m e < 0) : s = true := by
  cases s
  · rw [finValue_false] at h
    have : (0 : ℚ) ≤ (m : ℚ) * (2 : ℚ) ^ e := by positivity
    linarith
  · rfl

theorem finValue_pos_sign (s : Bool) (m : Nat) (e : Int) (h : 0 < finValue s m e) :
    s = false := by
  cases s
  · rfl
  · rw [finValue_true] at h
    have : (0 : ℚ) ≤ (m : ℚ) * (2 : ℚ) ^ e := by positivity
    linarith

theorem stores_spec (m : Nat) (e : Int) (h : binary32.stores m e = true) :
    m < 2 ^ binary32.prec ∧ binary32.emin ≤ e ∧ e ≤ binary32.emax := by
  simp only [Format.stores, Bool.and_eq_true, Bool.or_eq_true, decide_eq_true_eq] at h
  exact ⟨h.1.1.1, h.1.1.2, h.1.2⟩

theorem CFloat.le_fin_inf (s : Bool) (m : Nat) (e : Int) :
    CFloat.le (CFloat.fin s m e) (CFloat.inf false) = true := rfl

theorem CFloat.le_inf_fin (s : Bool) (m : Nat) (e : Int) :
    CFloat.le (CFloat.inf true) (CFloat.fin s m e) = true := rfl

theorem CFloat.add_ge_left (s : Bool) (m : Nat) (e : Int) (hst : binary32.stores m e = true)
    (t : Bool) (n : Nat) (g : Int) (hy : 0 ≤ finValue t n g) :
    CFloat.le (CFloat.fin s m e)
      (CFloat.add binary32 (CFloat.fin s m e) (CFloat.fin t n g)) = true := by
  obtain ⟨hM, hE1, hE2⟩ := stores_spec m e hst
  obtain ⟨h0, h1⟩ := CFloat.add_fin_spec binary32 s m e t n g
  by_cases hv : finValue s m e + finValue t n g = 0
  · rw [h0 hv, CFloat.le_fin_iff, finValue_zero]
    linarith
  · obtain ⟨N, D, hN, hD, hND, hadd⟩ := h1 hv
    rw [hadd]
    by_cases hneg : finValue s m e + finValue t n g < 0
    · have hs : s = true := finValue_neg_sign s m e (by linarith)
      subst hs
      rw [abs_of_neg hneg, finValue_true] at hND
      obtain ⟨m1, e1, hr, hle⟩ := roundBin_le_of_le binary32 (by decide) (decide
        (finValue true m e + finValue t n g < 0)) N D hN hD m e hM hE1 hE2 (by
          rw [hND]
          linarith)
      rw [hr, decide_eq_true hneg, CFloat.le_fin_iff, finValue_true, finValue_true]
      linarith
    · have hpos : 0 < finValue s m e + finValue t n g :=
        lt_of_le_of_ne (not_lt.1 hneg) (Ne.symm hv)
      rw [abs_of_pos hpos] at hND
      rw [decide_eq_false hneg]
      by_cases hx : finValue s m e ≤ 0
      · rcases roundBin_cases binary32 false N D with hr | ⟨m1, e1, hr, _⟩
        · rw [hr]
          rfl
        · rw [hr, CFloat.le_fin_iff, finValue_false]
          have : (0 : ℚ) ≤ (m1 : ℚ) * (2 : ℚ) ^ e1 := by positivity
          linarith
      · have hs : s = false := finValue_pos_sign s m e (not_le.1 hx)
        subst hs
        rw [finValue_false] at hND
        rcases roundBin_ge_of_ge binary32 (by decide) false N D hN hD m e hM hE1 (by
            rw [hND]
            linarith) with hr | ⟨m1, e1, hr, hle⟩
        · rw [hr]
          rfl
        · rw [hr, CFloat.le_fin_iff, finValue_false, finValue_false]
          exact hle

theorem CFloat.add_le_left (s : Bool) (m : Nat) (e : Int) (hst : binary32.stores m e = true)
    (t : Bool) (n : Nat) (g : Int) (hy : finValue t n g ≤ 0) :
    CFloat.le (CFloat.add binary32 (CFloat.fin s m e) (CFloat.fin t n g))
      (CFloat.fin s m e) = true := by
  obtain ⟨hM, hE1, hE2⟩ := stores_spec m e hst
  obtain ⟨h0, h1⟩ := CFloat.add_fin_spec binary32 s m e t n g
  by_cases hv : finValue s m e + finValue t n g = 0
  · rw [h0 hv, CFloat.le_fin_iff, finValue_zero]
    linarith
  · obtain ⟨N, D, hN, hD, hND, hadd⟩ := h1 hv
    rw [hadd]
    by_cases hneg : finValue s m e + finValue t n g < 0
    · rw [abs_of_neg hneg] at hND
      rw [decide_eq_true hneg]
      by_cases hx : 0 ≤ finValue s m e
      · rcases roundBin_cases binary32 true N D with hr | ⟨m1, e1, hr, _⟩
        · rw [hr]
          rfl
        · rw [hr, CFloat.le_fin_iff, finValue_true]
          have : (0 : ℚ) ≤ (m1 : ℚ) * (2 : ℚ) ^ e1 := by positivity
          linarith
      · have hs : s = true := finValue_neg_sign s m e (not_le.1 hx)
        subst hs
        rw [finValue_true] at hND
        rcases roundBin_ge_of_ge binary32 (by decide) true N D hN hD m e hM hE1 (by
            rw [hND]
            linarith) with hr | ⟨m1, e1, hr, hle⟩
        · rw [hr]
          rfl
        · rw [hr, CFloat.le_fin_iff, finValue_true, finValue_true]
          linarith
    · have hpos : 0 < finValue s m e + finValue t n g :=
        lt_of_le_of_ne (not_lt.1 hneg) (Ne.symm hv)
      have hs : s = false := finValue_pos_sign s m e (by linarith)
      subst hs
      rw [abs_of_pos hpos, finValue_false] at hND
      obtain ⟨m1, e1, hr, hle⟩ := roundBin_le_of_le binary32 (by decide) (decide
        (finValue false m e + finValue t n g < 0)) N D hN hD m e hM hE1 hE2 (by
          rw [hND]
          linarith)
      rw [hr, decide_eq_false hneg, CFloat.le_fin_iff, finValue_false, finValue_false]
      exact hle

theorem stores_iff (f : Format) (m : Nat) (e : Int) :
    f.stores m e = true ↔
      m < 2 ^ f.prec ∧ f.emin ≤ e ∧ e ≤ f.emax ∧ (2 ^ (f.prec - 1) ≤ m ∨ e = f.emin) := by
  simp only [Format.stores, Bool.and_eq_true, Bool.or_eq_true, decide_eq_true_eq, and_assoc]

theorem roundBin_stores (f : Format) (hp : 1 ≤ f.prec) (hf : f.emin ≤ f.emax) (s : Bool)
    (n d : Nat) (hd : 0 < d) :
    roundBin f s n d = CFloat.inf s ∨
      ∃ m e, roundBin f s n d = CFloat.fin s m e ∧ f.stores m e = true := by
  by_cases hn0 : n = 0
  · right
    refine ⟨0, f.emin, by rw [hn0, roundBin_zero], ?_⟩
    exact (stores_iff f 0 f.emin).2 ⟨by positivity, le_refl _, hf, Or.inr rfl⟩
  have hn : 0 < n := by omega
  obtain ⟨fl, ex, q1, hfl1, hfl2, hex, hq1, hq2, hres⟩ := roundBin_struct f s n d hn hd
  have h2ex : (0 : ℚ) < (2 : ℚ) ^ ex := by positivity
  have hemin : f.emin ≤ ex := by
    rw [hex]
    exact le_max_right _ _
  have hpp : 2 ^ (f.prec - 1) < 2 ^ f.prec :=
    Nat.pow_lt_pow_right (by norm_num) (by omega)
  by_cases hc : q1 = 2 ^ f.prec
  · by_cases h7 : f.emax < ex + 1
    · left
      rw [hres, if_pos hc, if_pos h7]
    · right
      rw [hres, if_pos hc, if_neg h7]
      refine ⟨_, _, rfl, ?_⟩
      exact (stores_iff f _ _).2 ⟨hpp, by omega, by omega, Or.inl (le_refl _)⟩
  · by_cases h7 : f.emax < ex
    · left
      rw [hres, if_neg hc, if_pos h7]
    · right
      rw [hres, if_neg hc, if_neg h7]
      refine ⟨_, _, rfl, ?_⟩
      have hle : q1 ≤ 2 ^ f.prec := by
        have h1 : (2 : ℚ) ^ (fl + 1) ≤ (2 : ℚ) ^ ((f.prec : Int) + ex) :=
          zpow_le_zpow_right₀ (by norm_num) (by
            have : fl - ((f.prec : Int) - 1) ≤ ex := by
              rw [hex]
              exact le_max_left _ _
            omega)
        have e1 : (2 : ℚ) ^ ((f.prec : Int) + ex) = (2 : ℚ) ^ f.prec * (2 : ℚ) ^ ex := by
          rw [zpow_add₀ (by norm_num), zpow_natCast]
        rw [e1] at h1
        have h3 : (q1 : ℚ) * (2 : ℚ) ^ ex < (((2 ^ f.prec : Nat) : ℚ) + 1) * (2 : ℚ) ^ ex := by
          push_cast
          rw [add_mul, one_mul]
          linarith
        have h4 := lt_of_mul_lt_mul_right h3 (le_of_lt h2ex)
        have : q1 < 2 ^ f.prec + 1 := by exact_mod_cast h4
        omega
      have hnorm : 2 ^ (f.prec - 1) ≤ q1 ∨ ex = f.emin := by
        by_cases hee : ex = f.emin
        · exact Or.inr hee
        · left
          have hexfl : ex = fl - ((f.prec : Int) - 1) := by
            rcases le_total (fl - ((f.prec : Int) - 1)) f.emin with h1 | h1
            · rw [max_eq_right h1] at hex
              exact absurd hex hee
            · rw [max_eq_left h1] at hex
              exact hex
          have hflx : fl = ((f.prec - 1 : Nat) : Int) + ex := by omega
          have h3 : ((2 ^ (f.prec - 1) : Nat) : ℚ) * (2 : ℚ) ^ ex <
              ((q1 : ℚ) + 1) * (2 : ℚ) ^ ex := by
            calc ((2 ^ (f.prec - 1) : Nat) : ℚ) * (2 : ℚ) ^ ex = (2 : ℚ) ^ fl := by
                  rw [hflx, zpow_add₀ (by norm_num), zpow_natCast]
                  push_cast
                  rfl
              _ ≤ (n : ℚ) / d := hfl1
              _ < ((q1 : ℚ) + 1) * (2 : ℚ) ^ ex := hq2
          have h4 := lt_of_mul_lt_mul_right h3 (le_of_lt h2ex)
          have : 2 ^ (f.prec - 1) < q1 + 1 := by exact_mod_cast h4
          omega
      exact (stores_iff f _ _).2 ⟨by omega, hemin, by omega, hnorm⟩

theorem roundBin_isFloat (s : Bool) (n d : Nat) (hd : 0 < d) :
    (roundBin binary32 s n d).isFloat = true := by
  rcases roundBin_stores binary32 (by decide) (by decide) s n d hd with h | ⟨m, e, h, hst⟩
  · rw [h]
    rfl
  · rw [h]
    exact hst

theorem toFloat_isFloat (x : CFloat) : (toFloat x).isFloat = true := by
  cases x with
  | nan s => rfl
  | inf s => rfl
  | fin s m e => exact roundBin_isFloat s _ _ (by positivity)

theorem add_isFloat (x y : CFloat) : (CFloat.add binary32 x y).isFloat = true := by
  cases x with
  | nan s => cases y <;> rfl
  | inf s =>
    cases y with
    | nan t => rfl
    | inf t =>
      simp only [CFloat.add]
      split <;> rfl
    | fin t n g => rfl
  | fin s m e =>
    cases y with
    | nan t => rfl
    | inf t => rfl
    | fin t n g =>
      simp only [CFloat.add]
      split
      · rfl
      · exact roundBin_isFloat _ _ _ (by positivity)

theorem sub_isFloat (x y : CFloat) : (CFloat.sub binary32 x y).isFloat = true := by
  cases x with
  | nan s => cases y <;> rfl
  | inf s =>
    cases y with
    | nan t => rfl
    | inf t => exact add_isFloat (CFloat.inf s) (CFloat.inf t).negate
    | fin t n g => exact add_isFloat (CFloat.inf s) (CFloat.fin t n g).negate
  | fin s m e =>
    cases y with
    | nan t => rfl
    | inf t => exact add_isFloat (CFloat.fin s m e) (CFloat.inf t).negate
    | fin t n g => exact add_isFloat (CFloat.fin s m e) (CFloat.fin t n g).negate

/-! ## Rounding of values close to a number of the format -/

theorem roundBin_nearest (f : Format) (s : Bool) (n d : Nat) (hn : 0 < n) (hd : 0 < d) :
    ∃ (fl ex : Int) (q1 : Nat),
      (2 : ℚ) ^ fl ≤ (n : ℚ) / d ∧ (n : ℚ) / d < (2 : ℚ) ^ (fl + 1) ∧
      ex = max (fl - ((f.prec : Int) - 1)) f.emin ∧
      (q1 : ℚ) * (2 : ℚ) ^ ex ≤ (n : ℚ) / d + (2 : ℚ) ^ ex / 2 ∧
      (n : ℚ) / d ≤ (q1 : ℚ) * (2 : ℚ) ^ ex + (2 : ℚ) ^ ex / 2 ∧
      roundBin f s n d =
        (if q1 = 2 ^ f.prec then
          (if f.emax < ex + 1 then CFloat.inf s else CFloat.fin s (2 ^ (f.prec - 1)) (ex + 1))
        else if f.emax < ex then CFloat.inf s
        else CFloat.fin s q1 ex) := by
  have hdq : (0 : ℚ) < d := by exact_mod_cast hd
  obtain ⟨hfl1, hfl2⟩ := floorLog_spec n d hn hd _ rfl
  have hn0 : ¬ n = 0 := by omega
  unfold roundBin
  simp only [hn0, if_false]
  refine ⟨_, _, _, hfl1, hfl2, rfl, ?_, ?_, rfl⟩
  all_goals
    generalize max ((if d * 2 ^ ((bitLen n : Int) - (bitLen d : Int)).toNat ≤
            n * 2 ^ (-((bitLen n : Int) - (bitLen d : Int))).toNat
          then (bitLen n : Int) - (bitLen d : Int)
          else (bitLen n : Int) - (bitLen d : Int) - 1) - ((f.prec : Int) - 1)) f.emin = e
    have hden : 0 < d * 2 ^ e.toNat := by positivity
    have hdenq : (0 : ℚ) < ((d * 2 ^ e.toNat : Nat) : ℚ) := by exact_mod_cast hden
    have h2e : (0 : ℚ) < (2 : ℚ) ^ e := by positivity
    have hy : (n : ℚ) / d =
        ((n * 2 ^ (-e).toNat : Nat) : ℚ) / ((d * 2 ^ e.toNat : Nat) : ℚ) * (2 : ℚ) ^ e := by
      rw [zpow_two_split e]
      push_cast
      field_simp
      ring
    have hdm := Nat.div_add_mod (n * 2 ^ (-e).toNat) (d * 2 ^ e.toNat)
    have hr := Nat.mod_lt (n * 2 ^ (-e).toNat) hden
    generalize n * 2 ^ (-e).toNat = num at hy hdm hr ⊢
    generalize d * 2 ^ e.toNat = den at hy hdm hr hden hdenq ⊢
    generalize hq : num / den = q at hdm ⊢
    generalize hrr : num % den = r at hdm hr ⊢
    have hnum : (num : ℚ) = (den : ℚ) * q + r := by exact_mod_cast hdm.symm
    have hrq : (r : ℚ) < den := by exact_mod_cast hr
    have hr0 : (0 : ℚ) ≤ r := by positivity
    have hyy : (num : ℚ) / den = q + r / den := by
      rw [hnum]
      field_simp
      ring
    have hfrac0 : (0 : ℚ) ≤ r / den := div_nonneg hr0 (le_of_lt hdenq)
    have hfrac1 : (r : ℚ) / den < 1 := (div_lt_one hdenq).2 hrq
    rw [hy, hyy]
    by_cases hc : den < 2 * r ∨ 2 * r = den ∧ q % 2 = 1
    · simp only [hc, if_true]
      have h2r : (den : ℚ) ≤ 2 * r := by
        rcases hc with h | h
        · exact_mod_cast le_of_lt h
        · exact_mod_cast le_of_eq h.1.symm
      have hhalf : (1 : ℚ) / 2 ≤ (r : ℚ) / den := by
        rw [le_div_iff₀ hdenq]
        linarith
      push_cast
      nlinarith
    · simp only [hc, if_false]
      have h2r : 2 * (r : ℚ) ≤ den := by
        have : 2 * r ≤ den := by omega
        exact_mod_cast this
      have hhalf : (r : ℚ) / den ≤ 1 / 2 := by
        rw [div_le_iff₀ hdenq]
        linarith
      nlinarith

theorem roundBin_of_close (f : Format) (hp : 1 ≤ f.prec) (s : Bool) (n d : Nat) (hn : 0 < n)
    (hd : 0 < d) (m : Nat) (e : Int) (hst : f.stores m e = true)
    (hclose : |(n : ℚ) / d - m * (2 : ℚ) ^ e| < (2 : ℚ) ^ e / 4) :
    roundBin f s n d = CFloat.fin s m e := by
  obtain ⟨hM, hE1, hE2, hN⟩ := (stores_iff f m e).1 hst
  obtain ⟨fl, ex, q1, hfl1, hfl2, hex, h1, h2, hres⟩ := roundBin_nearest f s n d hn hd
  obtain ⟨hlo, hhi⟩ := abs_lt.1 hclose
  have hu : (0 : ℚ) < (2 : ℚ) ^ e := by positivity
  have hw : (0 : ℚ) < (2 : ℚ) ^ ex := by positivity
  generalize (n : ℚ) / d = y at hfl1 hfl2 h1 h2 hlo hhi
  have hMq : (m : ℚ) + 1 ≤ ((2 ^ f.prec : Nat) : ℚ) := by exact_mod_cast hM
  have hpe : (2 : ℚ) ^ ((f.prec : Int) + e) = ((2 ^ f.prec : Nat) : ℚ) * (2 : ℚ) ^ e := by
    rw [zpow_add₀ (by norm_num), zpow_natCast]
    push_cast
    rfl
  have hylt : y < (2 : ℚ) ^ ((f.prec : Int) + e) := by
    rw [hpe]
    have := mul_le_mul_of_nonneg_right hMq (le_of_lt hu)
    linarith
  have hfl : fl < (f.prec : Int) + e := zpow_two_lt_of_le_of_lt fl _ y hfl1 hylt
  have hexle : ex ≤ e := by
    rw [hex]
    exact max_le (by omega) hE1
  by_cases hcase : ex = e
  · rw [hcase] at h1 h2 hres
    have ha : (q1 : ℚ) < (m : ℚ) + 1 := by
      by_contra hc
      have hc2 : (m : ℚ) + 1 ≤ q1 := not_lt.1 hc
      have := mul_le_mul_of_nonneg_right hc2 (le_of_lt hu)
      linarith
    have hb : (m : ℚ) < (q1 : ℚ) + 1 := by
      by_contra hc
      have hc2 : (q1 : ℚ) + 1 ≤ m := not_lt.1 hc
      have := mul_le_mul_of_nonneg_right hc2 (le_of_lt hu)
      linarith
    have ha1 : q1 < m + 1 := by exact_mod_cast ha
    have hb1 : m < q1 + 1 := by exact_mod_cast hb
    have hq : q1 = m := by omega
    rw [hres, hq, if_neg (by omega), if_neg (by omega)]
  · have hexlt : ex < e := lt_of_le_of_ne hexle hcase
    have hemin : f.emin ≤ ex := by
      rw [hex]
      exact le_max_right _ _
    have hflex : fl - ((f.prec : Int) - 1) ≤ ex := by
      rw [hex]
      exact le_max_left _ _
    have hnorm : 2 ^ (f.prec - 1) ≤ m := by
      rcases hN with h | h
      · exact h
      · omega
    have hnormq : ((2 ^ (f.prec - 1) : Nat) : ℚ) ≤ m := by exact_mod_cast hnorm
    have hhalfp : (1 : ℚ) ≤ ((2 ^ (f.prec - 1) : Nat) : ℚ) := by
      have : 1 ≤ 2 ^ (f.prec - 1) := Nat.one_le_two_pow
      exact_mod_cast this
    have hp1e : (2 : ℚ) ^ (((f.prec - 1 : Nat) : Int) + e) =
        ((2 ^ (f.prec - 1) : Nat) : ℚ) * (2 : ℚ) ^ e := by
      rw [zpow_add₀ (by norm_num), zpow_natCast]
      push_cast
      rfl
    have hyup : y < ((2 ^ (f.prec - 1) : Nat) : ℚ) * (2 : ℚ) ^ e := by
      rw [← hp1e]
      exact lt_of_lt_of_le hfl2 (zpow_le_zpow_right₀ (by norm_num) (by omega))
    have hmle : (m : ℚ) < ((2 ^ (f.prec - 1) : Nat) : ℚ) + 1 := by
      by_contra hc
      have hc2 : ((2 ^ (f.prec - 1) : Nat) : ℚ) + 1 ≤ m := not_lt.1 hc
      have := mul_le_mul_of_nonneg_right hc2 (le_of_lt hu)
      linarith
    have hm : m = 2 ^ (f.prec - 1) := by
      have : m < 2 ^ (f.prec - 1) + 1 := by exact_mod_cast hmle
      omega
    have hmq : (m : ℚ) = ((2 ^ (f.prec - 1) : Nat) : ℚ) := by rw [hm]
    have hp2e : (2 : ℚ) ^ (((f.prec - 1 : Nat) : Int) + e - 1) =
        ((2 ^ (f.prec - 1) : Nat) : ℚ) * (2 : ℚ) ^ e / 2 := by
      rw [zpow_sub₀ (by norm_num), zpow_one, hp1e]
    have hylow : (2 : ℚ) ^ (((f.prec - 1 : Nat) : Int) + e - 1) ≤ y := by
      rw [hp2e]
      have h3 := mul_le_mul_of_nonneg_right hnormq (le_of_lt hu)
      have h4 := mul_le_mul_of_nonneg_right hhalfp (le_of_lt hu)
      linarith
    have hfl3 : ((f.prec - 1 : Nat) : Int) + e - 1 < fl + 1 :=
      zpow_two_lt_of_le_of_lt _ _ y hylow hfl2
    have hexeq : ex = e - 1 := by omega
    have hwu : (2 : ℚ) ^ ex = (2 : ℚ) ^ e / 2 := by
      rw [hexeq, zpow_sub₀ (by norm_num), zpow_one]
    rw [hwu] at h1 h2
    have hpow : ((2 ^ f.prec : Nat) : ℚ) = 2 * ((2 ^ (f.prec - 1) : Nat) : ℚ) := by
      have : f.prec = (f.prec - 1) + 1 := by omega
      conv_lhs => rw [this, pow_succ]
      push_cast
      ring
    have ha : (q1 : ℚ) < ((2 ^ f.prec : Nat) : ℚ) + 1 := by
      by_contra hc
      have hc2 : ((2 ^ f.prec : Nat) : ℚ) + 1 ≤ q1 := not_lt.1 hc
      rw [hpow] at hc2
      have := mul_le_mul_of_nonneg_right hc2 (le_of_lt hu)
      linarith
    have hb : ((2 ^ f.prec : Nat) : ℚ) < (q1 : ℚ) + 1 := by
      by_contra hc
      have hc2 : (q1 : ℚ) + 1 ≤ ((2 ^ f.prec : Nat) : ℚ) := not_lt.1 hc
      rw [hpow] at hc2
      rw [hmq] at hlo
      have := mul_le_mul_of_nonneg_right hc2 (le_of_lt hu)
      linarith
    have ha1 : q1 < 2 ^ f.prec + 1 := by exact_mod_cast ha
    have hb1 : 2 ^ f.prec < q1 + 1 := by exact_mod_cast hb
    have hq : q1 = 2 ^ f.prec := by omega
    rw [hres, if_pos hq, if_neg (by omega), hm]
    congr 1
    omega

theorem roundBin_of_half (f : Format) (s : Bool) (n d : Nat) (hn : 0 < n)
    (hd : 0 < d) (m : Nat) (e : Int) (hst : f.stores m e = true)
    (hm : 2 ^ (f.prec - 1) < m ∨ e = f.emin)
    (hclose : |(n : ℚ) / d - m * (2 : ℚ) ^ e| < (2 : ℚ) ^ e / 2) :
    roundBin f s n d = CFloat.fin s m e := by
  obtain ⟨hM, hE1, hE2, hN⟩ := (stores_iff f m e).1 hst
  obtain ⟨fl, ex, q1, hfl1, hfl2, hex, h1, h2, hres⟩ := roundBin_nearest f s n d hn hd
  obtain ⟨hlo, hhi⟩ := abs_lt.1 hclose
  have hu : (0 : ℚ) < (2 : ℚ) ^ e := by positivity
  generalize (n : ℚ) / d = y at hfl1 hfl2 h1 h2 hlo hhi
  have hMq : (m : ℚ) + 1 ≤ ((2 ^ f.prec : Nat) : ℚ) := by exact_mod_cast hM
  have hpe : (2 : ℚ) ^ ((f.prec : Int) + e) = ((2 ^ f.prec : Nat) : ℚ) * (2 : ℚ) ^ e := by
    rw [zpow_add₀ (by norm_num), zpow_natCast]
    push_cast
    rfl
  have hylt : y < (2 : ℚ) ^ ((f.prec : Int) + e) := by
    rw [hpe]
    have := mul_le_mul_of_nonneg_right hMq (le_of_lt hu)
    linarith
  have hfl : fl < (f.prec : Int) + e := zpow_two_lt_of_le_of_lt fl _ y hfl1 hylt
  have hcase : ex = e := by
    rcases hm with hm | hm
    · have hmq : ((2 ^ (f.prec - 1) : Nat) : ℚ) + 1 ≤ m := by exact_mod_cast hm
      have hp1e : (2 : ℚ) ^ (((f.prec - 1 : Nat) : Int) + e) =
          ((2 ^ (f.prec - 1) : Nat) : ℚ) * (2 : ℚ) ^ e := by
        rw [zpow_add₀ (by norm_num), zpow_natCast]
        push_cast
        rfl
      have hylow : (2 : ℚ) ^ (((f.prec - 1 : Nat) : Int) + e) ≤ y := by
        rw [hp1e]
        have := mul_le_mul_of_nonneg_right hmq (le_of_lt hu)
        linarith
      have hfl3 : ((f.prec - 1 : Nat) : Int) + e < fl + 1 :=
        zpow_two_lt_of_le_of_lt _ _ y hylow hfl2
      rw [hex]
      have : fl - ((f.prec : Int) - 1) = e := by
        have hp : 1 ≤ f.prec := by
          by_contra hc
          have h0 : f.prec = 0 := by omega
          rw [h0] at hM hm
          simp at hM hm
          omega
        omega
      rw [this]
      exact max_eq_left hE1
    · rw [hex, hm]
      apply max_eq_right
      omega
  rw [hcase] at h1 h2 hres
  have ha : (q1 : ℚ) < (m : ℚ) + 1 := by
    by_contra hc
    have hc2 : (m : ℚ) + 1 ≤ q1 := not_lt.1 hc
    have := mul_le_mul_of_nonneg_right hc2 (le_of_lt hu)
    linarith
  have hb : (m : ℚ) < (q1 : ℚ) + 1 := by
    by_contra hc
    have hc2 : (q1 : ℚ) + 1 ≤ m := not_lt.1 hc
    have := mul_le_mul_of_nonneg_right hc2 (le_of_lt hu)
    linarith
  have ha1 : q1 < m + 1 := by exact_mod_cast ha
  have hb1 : m < q1 + 1 := by exact_mod_cast hb
  have hq : q1 = m := by omega
  rw [hres, hq, if_neg (by omega), if_neg (by omega)]

/-! ## The text of a balance -/

theorem fmtFixed_rounds (s : Bool) (m : Nat) (e : Int) :
    ∃ N : Nat, fmtFixed 2 (CFloat.fin s m e) =
        (if s then ['-'] else []) ++ decDigits (N / 10 ^ 2) ++
          '.' :: fracDigits 2 (N % 10 ^ 2) ∧
      |(N : ℚ) / 100 - (m : ℚ) * (2 : ℚ) ^ e| ≤ 1 / 200 := by
  have hden : 0 < 2 ^ (-e).toNat := by positivity
  have hdenq : (0 : ℚ) < ((2 ^ (-e).toNat : Nat) : ℚ) := by exact_mod_cast hden
  have hy : ((m * 10 ^ 2 * 2 ^ e.toNat : Nat) : ℚ) / ((2 ^ (-e).toNat : Nat) : ℚ) =
      100 * ((m : ℚ) * (2 : ℚ) ^ e) := by
    rw [zpow_two_split e]
    push_cast
    ring
  have hdm := Nat.div_add_mod (m * 10 ^ 2 * 2 ^ e.toNat) (2 ^ (-e).toNat)
  have hr := Nat.mod_lt (m * 10 ^ 2 * 2 ^ e.toNat) hden
  unfold fmtFixed
  simp only []
  generalize m * 10 ^ 2 * 2 ^ e.toNat = num at hy hdm hr ⊢
  generalize 2 ^ (-e).toNat = den at hy hdm hr hden hdenq ⊢
  generalize num / den = q at hdm ⊢
  generalize num % den = r at hdm hr ⊢
  have hnum : (num : ℚ) = (den : ℚ) * q + r := by exact_mod_cast hdm.symm
  have hrq : (r : ℚ) < den := by exact_mod_cast hr
  have hr0 : (0 : ℚ) ≤ r := by positivity
  have hq1 : (q : ℚ) + (r : ℚ) / den = 100 * ((m : ℚ) * (2 : ℚ) ^ e) := by
    rw [← hy, hnum]
    field_simp
    ring
  have hfrac0 : (0 : ℚ) ≤ (r : ℚ) / den := div_nonneg hr0 (le_of_lt hdenq)
  refine ⟨if den < 2 * r ∨ 2 * r = den ∧ q % 2 = 1 then q + 1 else q, by simp, ?_⟩
  rw [abs_le]
  by_cases hc : den < 2 * r ∨ 2 * r = den ∧ q % 2 = 1
  · simp only [hc, if_true]
    have h2r : (den : ℚ) ≤ 2 * r := by
      rcases hc with h | h
      · exact_mod_cast le_of_lt h
      · exact_mod_cast le_of_eq h.1.symm
    have hhalf : (1 : ℚ) / 2 ≤ (r : ℚ) / den := by
      rw [le_div_iff₀ hdenq]
      linarith
    have hfrac1 : (r : ℚ) / den < 1 := by
      rw [div_lt_one hdenq]
      exact hrq
    push_cast
    constructor <;> linarith
  · simp only [hc, if_false]
    have h2r : 2 * (r : ℚ) ≤ den := by
      have : 2 * r ≤ den := by omega
      exact_mod_cast this
    have hhalf : (r : ℚ) / den ≤ 1 / 2 := by
      rw [div_le_iff₀ hdenq]
      linarith
    constructor <;> linarith

theorem cents_text (s : Bool) (N k : Nat) (hk : N / 10 ^ 2 < 10 ^ (k + 1)) :
    toFloat (atof ((if s then ['-'] else []) ++ decDigits (N / 10 ^ 2) ++
      '.' :: fracDigits 2 (N % 10 ^ 2))) = floatOfCents s N ∧
    (if s then ['-'] else []) ++ decDigits (N / 10 ^ 2) ++
      '.' :: fracDigits 2 (N % 10 ^ 2) ≠ [] ∧
    (∀ c ∈ (if s then ['-'] else []) ++ decDigits (N / 10 ^ 2) ++
      '.' :: fracDigits 2 (N % 10 ^ 2), isdigit c = true ∨ c = '-' ∨ c = '.') ∧
    ((if s then ['-'] else []) ++ decDigits (N / 10 ^ 2) ++
      '.' :: fracDigits 2 (N % 10 ^ 2)).length ≤ k + 5 := by
  obtain ⟨d1, d2, d3, d4⟩ := decDigits_spec (N / 10 ^ 2)
  obtain ⟨f1, f2, f3⟩ := fracDigits_spec 2 (N % 10 ^ 2)
  have hl := d4 k hk
  refine ⟨?_, by simp [d1], ?_, ?_⟩
  · unfold atof
    rw [strtod_fraction s _ _ d1 d2 f2, decValue_append, d3 0, f3, f1]
    have hq : (0 * 10 ^ (decDigits (N / 10 ^ 2)).length + N / 10 ^ 2) * 10 ^ 2 +
        N % 10 ^ 2 % 10 ^ 2 = N := by
      rw [Nat.mod_mod, Nat.zero_mul, Nat.zero_add]
      exact Nat.div_add_mod' N (10 ^ 2)
    rw [hq]
    rfl
  · intro c hc
    simp only [List.mem_append, List.mem_cons] at hc
    rcases hc with (hc | hc) | hc | hc
    · cases s
      · simp at hc
      · simp only [if_true, List.mem_singleton] at hc
        exact Or.inr (Or.inl hc)
    · exact Or.inl (d2 c hc)
    · exact Or.inr (Or.inr hc)
    · exact Or.inl (f2 c hc)
  · simp only [List.length_append, List.length_cons, f1]
    have hs : (if s = true then ['-'] else []).length ≤ 1 := by cases s <;> simp
    omega

theorem convert_value (M : Nat) (E : Int) :
    ((M * 2 ^ E.toNat : Nat) : ℚ) / ((2 ^ (-E).toNat : Nat) : ℚ) = (M : ℚ) * (2 : ℚ) ^ E := by
  rw [zpow_two_split E]
  push_cast
  ring

theorem floatOfCents_of_close (s : Bool) (N m : Nat) (e : Int)
    (hst : binary32.stores m e = true) (hm : 2 ^ 23 < m) (he : -6 ≤ e)
    (hclose : |(N : ℚ) / 100 - (m : ℚ) * (2 : ℚ) ^ e| ≤ 1 / 200) :
    floatOfCents s N = CFloat.fin s m e := by
  obtain ⟨hM, hE1, hE2, _⟩ := (stores_iff binary32 m e).1 hst
  simp only [binary32] at hM hE1 hE2
  have hu : (0 : ℚ) < (2 : ℚ) ^ e := by positivity
  have h64 : (1 : ℚ) / 64 ≤ (2 : ℚ) ^ e := by
    have : (2 : ℚ) ^ (-6 : Int) ≤ (2 : ℚ) ^ e := zpow_le_zpow_right₀ (by norm_num) he
    have h6 : (2 : ℚ) ^ (-6 : Int) = 1 / 64 := by norm_num [zpow_neg]
    rw [h6] at this
    exact this
  obtain ⟨hlo, hhi⟩ := abs_le.1 hclose
  have hmq : ((2 ^ 23 : Nat) : ℚ) + 1 ≤ m := by exact_mod_cast hm
  have hMq : (m : ℚ) + 1 ≤ ((2 ^ 24 : Nat) : ℚ) := by exact_mod_cast hM
  have hmu := mul_le_mul_of_nonneg_right hmq (le_of_lt hu)
  have hMu := mul_le_mul_of_nonneg_right hMq (le_of_lt hu)
  have hNpos : (0 : ℚ) < (N : ℚ) / 100 := by
    push_cast at hmu
    linarith
  have hN0 : 0 < N := by
    rcases Nat.eq_zero_or_pos N with h | h
    · rw [h] at hNpos
      simp at hNpos
    · exact h
  have hB : ((N : Nat) : ℚ) / ((100 : Nat) : ℚ) < (2 : ℚ) ^ (25 + e) := by
    rw [zpow_add₀ (by norm_num)]
    push_cast at hMu ⊢
    norm_num
    linarith
  obtain ⟨M, E, hd, hde⟩ := roundBin_near binary64 (by decide) s N 100 hN0 (by norm_num)
    (25 + e) hB (by simp only [binary64]; omega) (by simp only [binary64]; omega)
  have hde2 : |(M : ℚ) * (2 : ℚ) ^ E - (N : ℚ) / 100| ≤ (2 : ℚ) ^ e / 536870912 := by
    have h1 : (25 + e) - (binary64.prec : Int) - 1 = e + (-29) := by
      simp only [binary64]
      omega
    rw [h1, zpow_add₀ (by norm_num)] at hde
    have h29 : (2 : ℚ) ^ (-29 : Int) = 1 / 536870912 := by norm_num [zpow_neg]
    rw [h29] at hde
    have : ((N : Nat) : ℚ) / ((100 : Nat) : ℚ) = (N : ℚ) / 100 := by norm_num
    rw [this] at hde
    linarith
  obtain ⟨hlo2, hhi2⟩ := abs_le.1 hde2
  have hMpos : (0 : ℚ) < (M : ℚ) * (2 : ℚ) ^ E := by
    push_cast at hmu
    linarith
  have hM0 : 0 < M := by
    rcases Nat.eq_zero_or_pos M with h | h
    · subst h
      simp at hMpos
    · exact h
  unfold floatOfCents
  rw [hd]
  show roundBin binary32 s (M * 2 ^ E.toNat) (2 ^ (-E).toNat) = CFloat.fin s m e
  apply roundBin_of_half binary32 s _ _ (by positivity) (by positivity) m e hst
    (Or.inl (by simpa [binary32] using hm))
  rw [convert_value, abs_lt]
  constructor <;> linarith

theorem big_amount_text (s : Bool) (m : Nat) (e : Int) (hst : binary32.stores m e = true)
    (he : -6 ≤ e) :
    toFloat (atof (fmtFixed 2 (CFloat.fin s m e))) = CFloat.fin s m e ∧
    cleanField (fmtFixed 2 (CFloat.fin s m e)) = true ∧
    (fmtFixed 2 (CFloat.fin s m e)).length ≤ 43 := by
  by_cases hdiv : m * 10 ^ 2 * 2 ^ e.toNat % 2 ^ (-e).toNat = 0
  · have hd : (CFloat.fin s m e).hasDecimals 2 = true := by
      simp only [CFloat.hasDecimals, hst, hdiv, decide_True, Bool.and_self]
    obtain ⟨t1, t2, t3⟩ := fmtFixed_text 2 _ hd
    exact ⟨fmtFixed_roundtrip 2 _ hd, cleanField_of_numeral _ t1 t2, t3⟩
  · obtain ⟨hM, hE1, hE2, hN⟩ := (stores_iff binary32 m e).1 hst
    simp only [binary32] at hM hE1 hE2 hN
    have he0 : e < 0 := by
      by_contra hc
      apply hdiv
      have : (-e).toNat = 0 := by omega
      rw [this, pow_zero, Nat.mod_one]
    have hm : 2 ^ 23 < m := by
      have h1 : 2 ^ 23 ≤ m := by
        rcases hN with h | h
        · exact h
        · omega
      rcases Nat.lt_or_eq_of_le h1 with h | h
      · exact h
      · exfalso
        apply hdiv
        apply Nat.mod_eq_zero_of_dvd
        rw [← h]
        have h2 : 2 ^ (-e).toNat ∣ 2 ^ 23 := Nat.pow_dvd_pow 2 (by omega)
        exact Dvd.dvd.mul_right (Dvd.dvd.mul_right h2 _) _
    obtain ⟨N, htext, hNclose⟩ := fmtFixed_rounds s m e
    have hfl := floatOfCents_of_close s N m e hst hm he hNclose
    have hu : (2 : ℚ) ^ e ≤ 1 / 2 := by
      have : (2 : ℚ) ^ e ≤ (2 : ℚ) ^ (-1 : Int) := zpow_le_zpow_right₀ (by norm_num) (by omega)
      have h1 : (2 : ℚ) ^ (-1 : Int) = 1 / 2 := by norm_num [zpow_neg]
      rw [h1] at this
      exact this
    have hNle : N ≤ 838860800 := by
      have hMq : (m : ℚ) ≤ 16777216 := by
        have : m ≤ 16777216 := by omega
        exact_mod_cast this
      have h3 : (m : ℚ) * (2 : ℚ) ^ e ≤ 16777216 * (1 / 2) :=
        mul_le_mul hMq hu (by positivity) (by norm_num)
      obtain ⟨_, hhi⟩ := abs_le.1 hNclose
      have h4 : (N : ℚ) < 838860801 := by linarith
      have : N < 838860801 := by exact_mod_cast h4
      omega
    obtain ⟨c1, c2, c3, c4⟩ := cents_text s N 6 (by
      have : N / 10 ^ 2 ≤ 8388608 := by omega
      omega)
    rw [htext, c1, hfl]
    exact ⟨rfl, cleanField_of_numeral _ c2 c3, by omega⟩

theorem floatOfCents_big (s : Bool) (K : Nat) (hK : 13107200 ≤ K) :
    floatOfCents s K = CFloat.inf s ∨
      ∃ m e, floatOfCents s K = CFloat.fin s m e ∧ binary32.stores m e = true ∧ -6 ≤ e := by
  have hKq : (1 : ℚ) * (2 : ℚ) ^ (17 : Int) ≤ ((K : Nat) : ℚ) / ((100 : Nat) : ℚ) := by
    have : (13107200 : ℚ) ≤ K := by exact_mod_cast hK
    rw [le_div_iff₀ (by norm_num)]
    norm_num
    linarith
  unfold floatOfCents
  rcases roundBin_ge_of_ge binary64 (by decide) s K 100 (by omega) (by norm_num) 1 17
    (by decide) (by decide) (by exact_mod_cast hKq) with h | ⟨M, E, h, hge⟩
  · left
    rw [h]
    rfl
  · rw [h]
    have hMpos : (0 : ℚ) < (M : ℚ) * (2 : ℚ) ^ E := by
      have : (0 : ℚ) < ((1 : Nat) : ℚ) * (2 : ℚ) ^ (17 : Int) := by positivity
      linarith
    have hM0 : 0 < M := by
      rcases Nat.eq_zero_or_pos M with h | h
      · subst h
        simp at hMpos
      · exact h
    show roundBin binary32 s (M * 2 ^ E.toNat) (2 ^ (-E).toNat) = CFloat.inf s ∨ _
    rcases roundBin_ge_of_ge binary32 (by decide) s (M * 2 ^ E.toNat) (2 ^ (-E).toNat)
      (by positivity) (by positivity) 1 17 (by decide) (by decide)
      (by rw [convert_value]; exact hge) with h2 | ⟨m, e, h2, hge2⟩
    · exact Or.inl h2
    · right
      rcases roundBin_stores binary32 (by decide) (by decide) s (M * 2 ^ E.toNat)
        (2 ^ (-E).toNat) (by positivity) with h3 | ⟨m1, e1, h3, hst⟩
      · rw [h3] at h2
        exact CFloat.noConfusion h2
      · rw [h3] at h2
        injection h2 with _ hm he
        subst hm he
        refine ⟨m1, e1, h3, hst, ?_⟩
        obtain ⟨hM1, _, _, _⟩ := (stores_iff binary32 m1 e1).1 hst
        simp only [binary32] at hM1
        have hm1q : (m1 : ℚ) < ((2 ^ 24 : Nat) : ℚ) := by exact_mod_cast hM1
        have hu : (0 : ℚ) < (2 : ℚ) ^ e1 := by positivity
        have h5 : (2 : ℚ) ^ (17 : Int) < (2 : ℚ) ^ ((24 : Int) + e1) := by
          rw [zpow_add₀ (by norm_num)]
          have := mul_lt_mul_of_pos_right hm1q hu
          push_cast at this hge2 ⊢
          have h17 : ((2 : ℚ) ^ (24 : Int)) = 2 ^ 24 := by norm_num
          rw [h17]
          linarith
        have := (zpow_lt_zpow_iff_right₀ (by norm_num : (1 : ℚ) < 2)).1 h5
        omega

/-! ## Round trip of the file format (claim C1) -/

theorem floatOfCents_text (s : Bool) (K : Nat) :
    toFloat (atof (fmtFixed 2 (floatOfCents s K))) = floatOfCents s K ∧
    cleanField (fmtFixed 2 (floatOfCents s K)) = true ∧
    (fmtFixed 2 (floatOfCents s K)).length ≤ 43 := by
  rcases Nat.eq_zero_or_pos K with h0 | h0
  · subst h0
    have hz : (floatOfCents s 0).hasDecimals 2 = true := by cases s <;> decide
    obtain ⟨t1, t2, t3⟩ := fmtFixed_text 2 _ hz
    exact ⟨fmtFixed_roundtrip 2 _ hz, cleanField_of_numeral _ t1 t2, t3⟩
  · by_cases hK : K < 13107200
    · obtain ⟨m, e, hf, hnear⟩ := floatOfCents_near s K h0 hK
      have htext := fmtFixed_near s m e K hnear
      obtain ⟨c1, c2, c3, c4⟩ := cents_text s K 5 (by
        have : K / 10 ^ 2 ≤ 131071 := by omega
        omega)
      rw [hf, htext, c1, hf]
      exact ⟨rfl, cleanField_of_numeral _ c2 c3, by omega⟩
    · rcases floatOfCents_big s K (by omega) with h | ⟨m, e, h, hst, he⟩
      · rw [h]
        cases s <;> decide
      · rw [h]
        exact big_amount_text s m e hst he

theorem amount_text (x : CFloat) (h : IsCentAmount x) :
    toFloat (atof (fmtFixed 2 x)) = x ∧ cleanField (fmtFixed 2 x) = true ∧
    (fmtFixed 2 x).length ≤ 43 := by
  rcases h with h | ⟨s, K, rfl⟩
  · obtain ⟨t1, t2, t3⟩ := fmtFixed_text 2 x h
    exact ⟨fmtFixed_roundtrip 2 x h, cleanField_of_numeral _ t1 t2, t3⟩
  · exact floatOfCents_text s K

theorem formatLine_eq (b : Boat) :
    formatLine b = b.name ++ ',' :: (fmtFixed 0 b.length ++ ',' ::
      (getBoatTypeString b.type ++ ',' :: (extraString b ++ ',' :: fmtFixed 2 b.amountOwed))) := by
  simp [formatLine, List.append_assoc]

theorem getBoatTypeString_text (t : BoatType) :
    cleanField (getBoatTypeString t) = true ∧ (getBoatTypeString t).length ≤ 7 ∧
      getBoatType (getBoatTypeString t) = t := by
  cases t <;> decide

theorem extraString_text (b : Boat) (h : cleanInfo b.info = true) :
    cleanField (extraString b) = true ∧ (extraString b).length ≤ 19 ∧
      (newBoatCSV b.name b.length b.type (extraString b) b.amountOwed).info = b.info := by
  unfold extraString newBoatCSV Boat.type
  cases hi : b.info with
  | slip_number n =>
    rw [hi] at h
    obtain ⟨t1, t2, t3⟩ := fmtInt_text n h
    exact ⟨cleanField_of_numeral _ t1 t2, by simp only []; omega,
      by simp only [atoi_fmtInt n h]⟩
  | bay_letter c =>
    rw [hi] at h
    simp only [cleanInfo] at h
    have hc : c ≠ '\x00' := (((cleanField_iff [c]).1 h).2.1 c (List.mem_singleton_self c)).2.2
    have hs : cstr [c] = [c] := cstr_clean [c] (fun x hx => by
      rw [List.mem_singleton.1 hx]; exact hc)
    simp only [hs]
    exact ⟨h, by simp, rfl⟩
  | trailer_license s =>
    rw [hi] at h
    simp only [cleanInfo, Bool.and_eq_true, decide_eq_true_eq] at h
    exact ⟨h.2, h.1, by simp only [strncpy_clean s 19 h.2 h.1]⟩
  | storage_number n =>
    rw [hi] at h
    obtain ⟨t1, t2, t3⟩ := fmtInt_text n h
    exact ⟨cleanField_of_numeral _ t1 t2, by simp only []; omega,
      by simp only [atoi_fmtInt n h]⟩

theorem boatOfTokens_format (b : Boat) (h : CleanBoat b) :
    cleanField b.name = true ∧ cleanField (fmtFixed 0 b.length) = true ∧
    cleanField (getBoatTypeString b.type) = true ∧ cleanField (extraString b) = true ∧
    cleanField (fmtFixed 2 b.amountOwed) = true ∧
    (formatLine b).length ≤ 241 ∧
    boatOfTokens b.name (fmtFixed 0 b.length) (getBoatTypeString b.type) (extraString b)
      (fmtFixed 2 b.amountOwed) = b := by
  obtain ⟨hlen, hname, hL, hinfo, hA⟩ := h
  obtain ⟨l1, l2, l3⟩ := fmtFixed_text 0 b.length hL
  obtain ⟨hA0, cA, a3⟩ := amount_text b.amountOwed hA
  obtain ⟨t1, t2, t3⟩ := getBoatTypeString_text b.type
  obtain ⟨x1, x2, x3⟩ := extraString_text b hinfo
  have cL := cleanField_of_numeral _ l1 l2
  refine ⟨hname, cL, t1, x1, cA, ?_, ?_⟩
  · rw [formatLine_eq]
    simp only [List.length_append, List.length_cons]
    omega
  · unfold boatOfTokens
    rw [trimWhitespace_clean _ hname, trimWhitespace_clean _ cL, trimWhitespace_clean _ t1,
      trimWhitespace_clean _ x1, trimWhitespace_clean _ cA, strncpy_clean _ 127 hname hlen,
      strncpy_clean _ 19 t1 (by omega), strncpy_clean _ 49 x1 (by omega), t3,
      fmtFixed_roundtrip 0 _ hL, hA0]
    have hn : (newBoatCSV b.name b.length b.type (extraString b) b.amountOwed).name = b.name :=
      strncpy_clean _ 127 hname hlen
    have hl : (newBoatCSV b.name b.length b.type (extraString b) b.amountOwed).length =
        b.length := rfl
    have ha : (newBoatCSV b.name b.length b.type (extraString b) b.amountOwed).amountOwed =
        b.amountOwed := rfl
    generalize newBoatCSV b.name b.length b.type (extraString b) b.amountOwed = b1
      at hn hl ha x3
    cases b
    cases b1
    simp only [Boat.mk.injEq] at *
    exact ⟨hn, hl, x3, ha⟩

theorem formatLine_plain (b : Boat) (h : CleanBoat b) :
    ∀ c ∈ formatLine b, c ≠ '\n' ∧ c ≠ '\x00' := by
  obtain ⟨h1, h2, h3, h4, h5, _, _⟩ := boatOfTokens_format b h
  rw [cleanField_iff] at h1 h2 h3 h4 h5
  intro c hc
  rw [formatLine_eq] at hc
  simp only [List.mem_append, List.mem_cons] at hc
  have hcomma : c = ',' → c ≠ '\n' ∧ c ≠ '\x00' := fun hc => by subst hc; decide
  rcases hc with hc | hc | hc | hc | hc | hc | hc | hc | hc
  · exact (h1.2.1 c hc).2
  · exact hcomma hc
  · exact (h2.2.1 c hc).2
  · exact hcomma hc
  · exact (h3.2.1 c hc).2
  · exact hcomma hc
  · exact (h4.2.1 c hc).2
  · exact hcomma hc
  · exact (h5.2.1 c hc).2

theorem cleanBoat_valid (b : Boat) (h : CleanBoat b) : ValidBoat b := by
  obtain ⟨hlen, hname, hL, hinfo, hA⟩ := h
  have hn := (cleanField_iff b.name).1 hname
  have h1 : 1 ≤ b.name.length := by
    cases hb : b.name with
    | nil => exact absurd hb hn.1
    | cons a l => simp
  have h3 : validInfo b.info = true := by
    cases hi : b.info with
    | slip_number n => rw [hi] at hinfo; exact hinfo
    | bay_letter c =>
      rw [hi] at hinfo
      simp only [cleanInfo] at hinfo
      have hc := ((cleanField_iff [c]).1 hinfo).2.1 c (List.mem_singleton_self c)
      simp only [validInfo, Bool.and_eq_true, bne_iff_ne, ne_eq]
      exact ⟨hc.1, hc.2.1⟩
    | trailer_license s =>
      rw [hi] at hinfo
      simp only [cleanInfo, Bool.and_eq_true, decide_eq_true_eq] at hinfo
      have hs := (cleanField_iff s).1 hinfo.2
      simp only [validInfo, Bool.and_eq_true, decide_eq_true_eq, List.all_eq_true, bne_iff_ne,
        ne_eq]
      exact ⟨hinfo.1, fun c hc => ⟨⟨(hs.2.1 c hc).1, (hs.2.1 c hc).2.1⟩, (hs.2.1 c hc).2.2⟩⟩
    | storage_number n => rw [hi] at hinfo; exact hinfo
  exact ⟨h1, hlen, fun c hc => hn.2.1 c hc, hL, h3, hA⟩

theorem fgetsAll_line (l cur : List Char) (room : Nat) (hl : l.length < room)
    (hnl : ∀ c ∈ l, c ≠ '\n') :
    fgetsAll room cur (l ++ ['\n']) = [cur.reverse ++ l ++ ['\n']] := by
  induction l generalizing room cur with
  | nil => simp [fgetsAll]
  | cons c cs ih =>
    have hc : c ≠ '\n' := hnl c (List.mem_cons_self _ _)
    have hr : ¬ (c = '\n' ∨ room ≤ 1) := by
      simp only [List.length_cons] at hl
      intro h
      rcases h with h | h
      · exact hc h
      · omega
    have h := ih (c :: cur) (room - 1) (by simp only [List.length_cons] at hl; omega)
      (fun x hx => hnl x (List.mem_cons_of_mem _ hx))
    simp only [List.cons_append, fgetsAll, hr, if_false]
    simpa using h

theorem Qsort.sort_singleton (q : Qsort) (b : Boat) : q.sort [b] = [b] :=
  List.perm_singleton.1 (q.perm [b])

/-- C1, as stated, fails: the line `P,5,trailor, ,1` is accepted and gives a
valid boat of the claim, a trailer boat whose licence is the empty string; the
line written for this boat, `P,5,trailor,,1.00`, has four non-empty fields
only and is rejected by both readers. In the same way the boat of the line
`P,5,land, ,1` has the bay letter NUL and is written as `P,5,land,,1.00`, and
the boat of the line `P,5,trailor,ABCDEFGHIJKLMNOPQR ST,1` has a licence that
ends with a space, which is trimmed away when its line is read back. -/
theorem roundtrip_counterexample :
    parseCSV "P,5,trailor, ,1".toList = some noLicence ∧
    addBoatFromCSV insertionQsort [] "P,5,trailor, ,1".toList = [noLicence] ∧
    ValidBoat noLicence ∧
    formatLine noLicence = "P,5,trailor,,1.00".toList ∧
    parseCSV (formatLine noLicence) = none ∧
    parseLoad (formatLine noLicence ++ ['\n']) = none ∧
    parseCSV "P,5,land, ,1".toList = some noBay ∧
    ValidBoat noBay ∧
    formatLine noBay = "P,5,land,,1.00".toList ∧
    parseCSV (formatLine noBay) = none ∧
    parseCSV "P,5,trailor,ABCDEFGHIJKLMNOPQR ST,1".toList = some cutLicence ∧
    ValidBoat cutLicence ∧
    formatLine cutLicence = "P,5,trailor,ABCDEFGHIJKLMNOPQR ,1.00".toList ∧
    parseCSV (formatLine cutLicence) ≠ some cutLicence :=
  ⟨by decide, by decide,
    ⟨by decide, by decide, by decide, by decide, by decide, Or.inl (by decide)⟩,
    by decide, by decide, by decide, by decide,
    ⟨by decide, by decide, by decide, by decide, by decide, Or.inl (by decide)⟩,
    by decide, by decide, by decide,
    ⟨by decide, by decide, by decide, by decide, by decide, Or.inl (by decide)⟩,
    by decide, by decide⟩

/-- C1, amended: for every valid boat whose name, and whose bay letter or
licence, is a non-empty text without white space at its ends (a valid boat has a name of 1
to 127 bytes, an integer-valued length, a slip or storage number in the range
of `int`, a licence of at most 19 bytes, a balance with at most two decimals:
a `float` whose value has at most two decimals, or the `float` that C makes of
a decimal amount with two decimals, of any size; and its texts hold no comma,
newline or NUL, which the file format cannot carry), the line that
`saveBoatsToFile` writes for it is read back by the reader of `addBoatFromCSV`
and by the reader of `loadBoatsFromFile` (with or without the final newline)
as exactly that boat; so adding that line to the empty registry, or loading
the file saved from the registry that holds just this boat, gives the registry
that holds just this boat. -/
theorem roundtrip_clean (q : Qsort) (b : Boat) (h : CleanBoat b) :
    ValidBoat b ∧
    parseCSV (formatLine b) = some b ∧
    parseLoad (formatLine b ++ ['\n']) = some b ∧
    parseLoad (formatLine b) = some b ∧
    saveBoatsToFile [b] = formatLine b ++ ['\n'] ∧
    addBoatFromCSV q [] (formatLine b) = [b] ∧
    loadBoatsFromFile q [] (some (saveBoatsToFile [b])) = [b] := by
  obtain ⟨h1, h2, h3, h4, h5, hlen, hb⟩ := boatOfTokens_format b h
  have hplain := formatLine_plain b h
  have htok := tokens_join _ _ _ _ _ h1 h2 h3 h4 h5
  rw [← formatLine_eq] at htok
  have hcopy : strncpy (formatLine b) (MAX_LINE_LENGTH - 1) = formatLine b := by
    unfold strncpy
    rw [cstr_clean _ (fun c hc => (hplain c hc).2)]
    exact List.take_of_length_le (by simp only [MAX_LINE_LENGTH]; omega)
  have hnl : ∀ c ∈ formatLine b, (fun c => c != '\n') c = true := fun c hc => by
    simpa using (hplain c hc).1
  have hline : ∀ suffix, suffix = [] ∨ suffix = ['\n'] →
      (cstr (formatLine b ++ suffix)).takeWhile (fun c => c != '\n') = formatLine b := by
    intro suffix hs
    have hc : cstr (formatLine b ++ suffix) = formatLine b ++ suffix := by
      apply cstr_clean
      intro c hc
      rcases List.mem_append.1 hc with hc | hc
      · exact (hplain c hc).2
      · rcases hs with rfl | rfl
        · simp at hc
        · rw [List.mem_singleton.1 hc]; decide
    rw [hc]
    rcases hs with rfl | rfl
    · rw [List.append_nil]
      exact List.takeWhile_eq_self_iff.2 hnl
    · rw [takeWhile_append_stop _ _ _ (by decide)]
      exact List.takeWhile_eq_self_iff.2 hnl
  have hcsv : parseCSV (formatLine b) = some b := by
    rw [parseCSV_eq, hcopy, htok]
    simp only [hb]
  have hload : parseLoad (formatLine b ++ ['\n']) = some b := by
    rw [parseLoad_eq, hline _ (Or.inr rfl), htok]
    simp only [hb]
  have hsave : saveBoatsToFile [b] = formatLine b ++ ['\n'] := by
    simp [saveBoatsToFile]
  refine ⟨cleanBoat_valid b h, hcsv, hload, ?_, hsave, ?_, ?_⟩
  · have h0 := hline [] (Or.inl rfl)
    rw [List.append_nil] at h0
    rw [parseLoad_eq, h0, htok]
    simp only [hb]
  · simp only [addBoatFromCSV, hcsv]
    simp only [List.length_nil, MAX_BOATS, ge_iff_le, Nat.le_zero_eq, OfNat.ofNat_ne_zero,
      if_false, List.nil_append]
    exact q.sort_singleton b
  · have hf : fgetsAll (MAX_LINE_LENGTH - 1) [] (formatLine b ++ ['\n']) =
        [formatLine b ++ ['\n']] := by
      have := fgetsAll_line (formatLine b) [] (MAX_LINE_LENGTH - 1)
        (by simp only [MAX_LINE_LENGTH]; omega) (fun c hc => (hplain c hc).1)
      simpa using this
    simp only [loadBoatsFromFile, hsave, hf, loadLoop, hload]
    simp only [List.length_nil, MAX_BOATS, ge_iff_le, Nat.le_zero_eq, OfNat.ofNat_ne_zero,
      if_false, List.nil_append]
    exact q.sort_singleton b

/-- C1, amended, at the trailer boat `Jon Boat`, whose line is
`Jon Boat,14,trailor,TX1234,0.00`, at the storage boat `Osprey`, whose line is
`Osprey,25,storage,7,1200.10`, and at `Osprey` with the balance 123456.78. -/
theorem roundtrip_clean_witness :
    formatLine jonBoat = "Jon Boat,14,trailor,TX1234,0.00".toList ∧
    parseCSV (formatLine jonBoat) = some jonBoat ∧
    parseLoad (formatLine jonBoat ++ ['\n']) = some jonBoat ∧
    formatLine osprey = "Osprey,25,storage,7,1200.10".toList ∧
    parseCSV (formatLine osprey) = some osprey ∧
    loadBoatsFromFile insertionQsort [] (some (saveBoatsToFile [osprey])) = [osprey] ∧
    parseCSV (formatLine { osprey with amountOwed := floatLit "123456.78" }) =
      some { osprey with amountOwed := floatLit "123456.78" } :=
  ⟨by decide,
    (roundtrip_clean insertionQsort jonBoat
      ⟨by decide, by decide, by decide, by decide, Or.inl (by decide)⟩).2.1,
    (roundtrip_clean insertionQsort jonBoat
      ⟨by decide, by decide, by decide, by decide, Or.inl (by decide)⟩).2.2.1,
    by decide,
    (roundtrip_clean insertionQsort osprey
      ⟨by decide, by decide, by decide, by decide,
        Or.inr ⟨false, 120010, by decide⟩⟩).2.1,
    (roundtrip_clean insertionQsort osprey
      ⟨by decide, by decide, by decide, by decide,
        Or.inr ⟨false, 120010, by decide⟩⟩).2.2.2.2.2.2,
    (roundtrip_clean insertionQsort { osprey with amountOwed := floatLit "123456.78" }
      ⟨by decide, by decide, by decide, by decide,
        Or.inr ⟨false, 12345678, by decide⟩⟩).2.1⟩

/-! ## The fields of an accepted line (claim C16) -/

theorem cstr_no_nul (s : CString) : ∀ c ∈ cstr s, c ≠ '\x00' := by
  intro c hc
  have := List.mem_takeWhile_imp hc
  simpa using this

theorem strncpy_no_nul (s : CString) (n : Nat) : ∀ c ∈ strncpy s n, c ≠ '\x00' :=
  fun c hc => cstr_no_nul s c (List.mem_of_mem_take hc)

theorem strncpy_length (s : CString) (n : Nat) : (strncpy s n).length ≤ n := by
  unfold strncpy
  simp [List.length_take]

theorem strncpy_strncpy (s : CString) (n : Nat) : strncpy (strncpy s n) n = strncpy s n := by
  have h : cstr (strncpy s n) = strncpy s n := cstr_clean _ (strncpy_no_nul s n)
  rw [strncpy, h]
  exact List.take_of_length_le (strncpy_length s n)

theorem boatOfTokens_fields (t1 t2 t3 t4 t5 : CString) :
    fieldsFrom (boatOfTokens t1 t2 t3 t4 t5) t1 t2 t3 t4 t5 := by
  unfold fieldsFrom boatOfTokens newBoatCSV Boat.type
  refine ⟨strncpy_strncpy _ _, rfl, ?_, rfl, rfl⟩
  cases getBoatType (strncpy (trimWhitespace t3) 19) <;> rfl

theorem parse_tokens_iff (l : CString) (b : Boat) :
    (match tokens l with
      | t1 :: t2 :: t3 :: t4 :: t5 :: _ => some (boatOfTokens t1 t2 t3 t4 t5)
      | _ => none) = some b ↔
    ∃ t1 t2 t3 t4 t5 rest, tokens l = t1 :: t2 :: t3 :: t4 :: t5 :: rest ∧
      b = boatOfTokens t1 t2 t3 t4 t5 := by
  constructor
  · intro h
    match hl : tokens l, h with
    | t1 :: t2 :: t3 :: t4 :: t5 :: rest, h =>
      simp only [Option.some.injEq] at h
      exact ⟨t1, t2, t3, t4, t5, rest, rfl, h.symm⟩
  · rintro ⟨t1, t2, t3, t4, t5, rest, hl, rfl⟩
    rw [hl]

/-- C16, as stated, fails: the line `Ark,30,slip,1,0.00,extra` splits into 6
fields and is accepted; the line `Ark,,30,slip,1,0.00` splits into 6 fields,
the second one empty, and is accepted with the length taken from the third
field, the kind from the fourth, and so on. -/
theorem five_fields_counterexample :
    (splitComma "Ark,30,slip,1,0.00,extra".toList).length = 6 ∧
    parseCSV "Ark,30,slip,1,0.00,extra".toList = some ark ∧
    parseLoad "Ark,30,slip,1,0.00,extra\n".toList = some ark ∧
    splitComma "Ark,,30,slip,1,0.00".toList =
      ["Ark".toList, [], "30".toList, "slip".toList, "1".toList, "0.00".toList] ∧
    parseCSV "Ark,,30,slip,1,0.00".toList = some ark := by
  decide

/-- C16, amended: both readers accept a line exactly when it has at least 5
non-empty fields (of `addBoatFromCSV`: within the first 255 bytes of the
string; of `loadBoatsFromFile`: before the newline), and the boat's name,
length, kind, extra datum and balance are taken from the first five non-empty
fields, in this order; empty fields are skipped and further fields ignored. -/
theorem first_five_tokens (line : CString) :
    (parseCSV line ≠ none ↔ 5 ≤ (tokens (strncpy line (MAX_LINE_LENGTH - 1))).length) ∧
    (∀ b, parseCSV line = some b ↔
      ∃ t1 t2 t3 t4 t5 rest,
        tokens (strncpy line (MAX_LINE_LENGTH - 1)) = t1 :: t2 :: t3 :: t4 :: t5 :: rest ∧
        b = boatOfTokens t1 t2 t3 t4 t5) ∧
    (parseLoad line ≠ none ↔
      5 ≤ (tokens ((cstr line).takeWhile (fun c => c != '\n'))).length) ∧
    (∀ b, parseLoad line = some b ↔
      ∃ t1 t2 t3 t4 t5 rest,
        tokens ((cstr line).takeWhile (fun c => c != '\n')) =
          t1 :: t2 :: t3 :: t4 :: t5 :: rest ∧
        b = boatOfTokens t1 t2 t3 t4 t5) ∧
    (∀ t1 t2 t3 t4 t5, fieldsFrom (boatOfTokens t1 t2 t3 t4 t5) t1 t2 t3 t4 t5) := by
  have key : ∀ l : CString,
      ((match tokens l with
        | t1 :: t2 :: t3 :: t4 :: t5 :: _ => some (boatOfTokens t1 t2 t3 t4 t5)
        | _ => none) ≠ none ↔ 5 ≤ (tokens l).length) := by
    intro l
    constructor
    · intro h
      by_contra hc
      exact h (parse_none_of_short l (by omega))
    · intro h
      obtain ⟨b, hb⟩ := parse_some_of_five l h
      intro hn
      exact Option.noConfusion (hn.symm.trans hb)
  refine ⟨?_, ?_, ?_, ?_, boatOfTokens_fields⟩
  · rw [parseCSV_eq]; exact key _
  · intro b; rw [parseCSV_eq]; exact parse_tokens_iff _ b
  · rw [parseLoad_eq]; exact key _
  · intro b; rw [parseLoad_eq]; exact parse_tokens_iff _ b

/-- C16, amended, at the lines `Ark,30,slip,1,0.00` and `Ark,,30,slip,1,0.00`. -/
theorem first_five_tokens_witness :
    parseCSV "Ark,30,slip,1,0.00".toList ≠ none ∧
    parseCSV "Ark,,30,slip,1,0.00".toList ≠ none ∧
    fieldsFrom ark "Ark".toList "30".toList "slip".toList "1".toList "0.00".toList :=
  ⟨(first_five_tokens "Ark,30,slip,1,0.00".toList).1.2 (by decide),
    (first_five_tokens "Ark,,30,slip,1,0.00".toList).1.2 (by decide),
    (first_five_tokens []).2.2.2.2 "Ark".toList "30".toList "slip".toList "1".toList
      "0.00".toList⟩

/-! ## Reading a file line by line (claims C20 and C12) -/

theorem fgetsAll_terminated (l : List Char) (hnl : ∀ c ∈ l, c ≠ '\n') (rest : List Char) :
    ∀ (room : Nat) (cur : List Char), l.length ≤ room → 1 ≤ room →
    fgetsAll room cur (l ++ '\n' :: rest) =
      (if l.length < room then [cur.reverse ++ l ++ ['\n']] else [cur.reverse ++ l, ['\n']]) ++
        fgetsAll (MAX_LINE_LENGTH - 1) [] rest := by
  induction l with
  | nil =>
    intro room cur _ h1
    have h0 : 0 < room := h1
    simp [fgetsAll, h0]
  | cons c cs ih =>
    intro room cur hl h1
    have hc : c ≠ '\n' := hnl c (List.mem_cons_self _ _)
    simp only [List.length_cons] at hl
    by_cases hr : room ≤ 1
    · have hcs : cs = [] := List.length_eq_zero.1 (by omega)
      subst hcs
      have hroom : room = 1 := by omega
      subst hroom
      simp [fgetsAll, hc]
    · have h := ih (fun x hx => hnl x (List.mem_cons_of_mem _ hx)) (room - 1) (c :: cur)
        (by omega) (by omega)
      have hr2 : ¬ (c = '\n' ∨ room ≤ 1) := by
        intro h
        rcases h with h | h
        · exact hc h
        · exact hr h
      have e1 : fgetsAll room cur ((c :: cs) ++ '\n' :: rest) =
          fgetsAll (room - 1) (c :: cur) (cs ++ '\n' :: rest) := by
        show fgetsAll room cur (c :: (cs ++ '\n' :: rest)) = _
        simp only [fgetsAll, hr2, if_false]
      rw [e1, h]
      by_cases hlt : cs.length < room - 1
      · have hlt2 : (c :: cs).length < room := by simp only [List.length_cons]; omega
        rw [if_pos hlt, if_pos hlt2]
        simp
      · have hlt2 : ¬ (c :: cs).length < room := by simp only [List.length_cons]; omega
        rw [if_neg hlt, if_neg hlt2]
        simp

theorem fgetsAll_unterminated (l : List Char) (hnl : ∀ c ∈ l, c ≠ '\n') :
    ∀ (room : Nat) (cur : List Char), l.length ≤ room → 1 ≤ room →
    fgetsAll room cur l = if cur.reverse ++ l = [] then [] else [cur.reverse ++ l] := by
  induction l with
  | nil =>
    intro room cur _ _
    simp [fgetsAll]
  | cons c cs ih =>
    intro room cur hl h1
    have hc : c ≠ '\n' := hnl c (List.mem_cons_self _ _)
    simp only [List.length_cons] at hl
    by_cases hr : room ≤ 1
    · have hcs : cs = [] := List.length_eq_zero.1 (by omega)
      subst hcs
      have hroom : room = 1 := by omega
      subst hroom
      simp [fgetsAll, hc]
    · have h := ih (fun x hx => hnl x (List.mem_cons_of_mem _ hx)) (room - 1) (c :: cur)
        (by omega) (by omega)
      have hr2 : ¬ (c = '\n' ∨ room ≤ 1) := by
        intro h
        rcases h with h | h
        · exact hc h
        · exact hr h
      simp only [fgetsAll, hr2, if_false]
      rw [h]
      simp

theorem loadLoop_eq (bufs : List (List Char)) : ∀ boats : List Boat,
    loadLoop boats bufs =
      boats ++ (bufs.filterMap parseLoad).take (MAX_BOATS - boats.length) := by
  induction bufs with
  | nil => intro boats; simp [loadLoop]
  | cons buf rest ih =>
    intro boats
    simp only [loadLoop]
    cases hp : parseLoad buf with
    | none =>
      simp only [List.filterMap_cons, hp]
      exact ih boats
    | some b =>
      simp only [List.filterMap_cons, hp]
      by_cases hc : boats.length ≥ MAX_BOATS
      · have h0 : MAX_BOATS - boats.length = 0 := by omega
        simp [hc, h0]
      · rw [if_neg hc, ih]
        have h1 : MAX_BOATS - boats.length = (MAX_BOATS - (boats ++ [b]).length) + 1 := by
          simp only [List.length_append, List.length_singleton]
          omega
        rw [h1, List.take_succ_cons]
        simp

theorem load_line_newline (line : CString) (hnl : ∀ c ∈ line, c ≠ '\n') :
    (cstr (line ++ ['\n'])).takeWhile (fun c => c != '\n') = cstr line ∧
    (cstr line).takeWhile (fun c => c != '\n') = cstr line := by
  have h2 : (cstr line).takeWhile (fun c => c != '\n') = cstr line := by
    rw [List.takeWhile_eq_self_iff]
    intro c hc
    have := hnl c ((cstr_initial line).subset hc)
    simpa using this
  refine ⟨?_, h2⟩
  unfold cstr
  rw [List.takeWhile_takeWhile, takeWhile_append_stop _ _ _ (by decide),
    ← List.takeWhile_takeWhile]
  exact h2

theorem parseLoad_newline (line : CString) (hnl : ∀ c ∈ line, c ≠ '\n') :
    parseLoad (line ++ ['\n']) = parseLoad line := by
  rw [parseLoad_eq, parseLoad_eq, (load_line_newline line hnl).1, (load_line_newline line hnl).2]

theorem parseLoad_eq_parseCSV (line : CString) (hlen : line.length ≤ 255)
    (hnl : ∀ c ∈ line, c ≠ '\n') : parseLoad line = parseCSV line := by
  rw [parseLoad_eq, parseCSV_eq, (load_line_newline line hnl).2]
  have h : strncpy line (MAX_LINE_LENGTH - 1) = cstr line := by
    unfold strncpy
    apply List.take_of_length_le
    have := (cstr_initial line).length_le
    simp only [MAX_LINE_LENGTH]
    omega
  rw [h]

theorem parseLoad_only_newline : parseLoad ['\n'] = none := by decide

theorem Qsort.sort_nil (q : Qsort) : q.sort [] = [] := List.perm_nil.1 (q.perm [])

theorem load_chunks (line : CString) (hlen : line.length ≤ 255) (hnl : ∀ c ∈ line, c ≠ '\n')
    (rest : List Char) :
    (fgetsAll (MAX_LINE_LENGTH - 1) [] (line ++ '\n' :: rest)).filterMap parseLoad =
      (parseLoad line).toList ++
        (fgetsAll (MAX_LINE_LENGTH - 1) [] rest).filterMap parseLoad := by
  rw [fgetsAll_terminated line hnl rest _ _ (by simpa [MAX_LINE_LENGTH] using hlen)
    (by decide)]
  rw [List.filterMap_append]
  congr 1
  split
  · simp only [List.reverse_nil, List.nil_append, List.filterMap_cons, List.filterMap_nil,
      parseLoad_newline line hnl]
    cases parseLoad line <;> rfl
  · simp only [List.reverse_nil, List.nil_append, List.filterMap_cons, List.filterMap_nil,
      parseLoad_only_newline]
    cases parseLoad line <;> rfl

theorem load_unlines (lines : List CString) (h : ∀ l ∈ lines, l.length ≤ 255 ∧ '\n' ∉ l) :
    (fgetsAll (MAX_LINE_LENGTH - 1) [] (unlines lines)).filterMap parseLoad =
      lines.filterMap parseLoad := by
  induction lines with
  | nil => rfl
  | cons l ls ih =>
    have hl := h l (List.mem_cons_self _ _)
    simp only [unlines]
    rw [load_chunks l hl.1 (fun c hc hn => hl.2 (hn ▸ hc)),
      ih (fun x hx => h x (List.mem_cons_of_mem _ hx))]
    simp only [List.filterMap_cons]
    cases parseLoad l <;> rfl

/-- C20: for every line of at most 255 characters without a newline, the
reader of `loadBoatsFromFile` and the reader of `addBoatFromCSV` build the same
boat or both reject the line, and loading into the empty registry a file that
consists of that line (ended by a newline or not) gives the registry that
adding the line to the empty registry gives. -/
theorem load_agrees_with_add (q : Qsort) (line : CString) (hlen : line.length ≤ 255)
    (hnl : '\n' ∉ line) :
    parseLoad (line ++ ['\n']) = parseCSV line ∧
    parseLoad line = parseCSV line ∧
    loadBoatsFromFile q [] (some (line ++ ['\n'])) = addBoatFromCSV q [] line ∧
    loadBoatsFromFile q [] (some line) = addBoatFromCSV q [] line := by
  have hnl2 : ∀ c ∈ line, c ≠ '\n' := fun c hc hn => hnl (hn ▸ hc)
  have hp := parseLoad_eq_parseCSV line hlen hnl2
  have hadd : addBoatFromCSV q [] line = q.sort (parseCSV line).toList := by
    unfold addBoatFromCSV
    cases parseCSV line with
    | none => exact (Qsort.sort_nil q).symm
    | some b => simp [MAX_BOATS]
  refine ⟨(parseLoad_newline line hnl2).trans hp, hp, ?_, ?_⟩
  · have h := load_chunks line hlen hnl2 []
    rw [hadd]
    unfold loadBoatsFromFile
    simp only []
    rw [loadLoop_eq, h, hp]
    cases parseCSV line <;> simp [fgetsAll, MAX_BOATS]
  · rw [hadd]
    unfold loadBoatsFromFile
    simp only []
    rw [loadLoop_eq, fgetsAll_unterminated line hnl2 _ _ (by simpa [MAX_LINE_LENGTH] using hlen)
      (by decide)]
    by_cases hl : line = []
    · subst hl
      simp [show parseCSV [] = none from by decide]
    · simp only [List.reverse_nil, List.nil_append, hl, if_false, List.filterMap_cons,
        List.filterMap_nil, hp]
      cases parseCSV line <;> simp [MAX_BOATS]

/-- C20 at the line `Sea Lion,21,slip,21,100.50`. -/
theorem load_agrees_with_add_witness :
    parseLoad "Sea Lion,21,slip,21,100.50\n".toList =
      parseCSV "Sea Lion,21,slip,21,100.50".toList ∧
    parseLoad "Sea Lion,21,slip,21,100.50".toList =
      parseCSV "Sea Lion,21,slip,21,100.50".toList ∧
    loadBoatsFromFile insertionQsort [] (some "Sea Lion,21,slip,21,100.50\n".toList) =
      addBoatFromCSV insertionQsort [] "Sea Lion,21,slip,21,100.50".toList ∧
    loadBoatsFromFile insertionQsort [] (some "Sea Lion,21,slip,21,100.50".toList) =
      addBoatFromCSV insertionQsort [] "Sea Lion,21,slip,21,100.50".toList :=
  load_agrees_with_add insertionQsort "Sea Lion,21,slip,21,100.50".toList (by decide)
    (by decide)

/-- C12: loading into the empty registry a file whose lines are all shorter
than 256 characters yields the parses of the first `min 120 k` well-formed
lines, where `k` is the number of well-formed lines, sorted by `qsort`: a
permutation of these boats, ordered by name, never more than 120. Blank lines
and lines with fewer than 5 non-empty fields are skipped, the well-formed lines
after the first 120 are discarded. -/
theorem loadBoatsFromFile_spec (q : Qsort) (lines : List CString)
    (h : ∀ l ∈ lines, l.length < 256 ∧ '\n' ∉ l) :
    loadBoatsFromFile q [] (some (unlines lines)) =
      q.sort ((lines.filterMap parseLoad).take (min 120 (lines.filterMap parseLoad).length)) ∧
    List.Perm (loadBoatsFromFile q [] (some (unlines lines)))
      ((lines.filterMap parseLoad).take (min 120 (lines.filterMap parseLoad).length)) ∧
    SortedByName (loadBoatsFromFile q [] (some (unlines lines))) ∧
    (loadBoatsFromFile q [] (some (unlines lines))).length =
      min 120 (lines.filterMap parseLoad).length ∧
    (loadBoatsFromFile q [] (some (unlines lines))).length ≤ 120 ∧
    (∀ l ∈ lines, parseLoad l ≠ none ↔ 5 ≤ (tokens (cstr l)).length) := by
  have h2 : ∀ l ∈ lines, l.length ≤ 255 ∧ '\n' ∉ l := fun l hl => ⟨by
    have := (h l hl).1
    omega, (h l hl).2⟩
  have hmin : ∀ (l : List Boat), l.take (min 120 l.length) = l.take 120 := by
    intro l
    rcases Nat.le_total 120 l.length with h | h
    · rw [Nat.min_eq_left h]
    · rw [Nat.min_eq_right h, List.take_of_length_le h, List.take_of_length_le (le_refl _)]
  have e : loadBoatsFromFile q [] (some (unlines lines)) =
      q.sort ((lines.filterMap parseLoad).take (min 120 (lines.filterMap parseLoad).length)) := by
    unfold loadBoatsFromFile
    simp only []
    rw [loadLoop_eq, load_unlines lines h2, hmin]
    simp [MAX_BOATS]
  have hlen : (loadBoatsFromFile q [] (some (unlines lines))).length =
      min 120 (lines.filterMap parseLoad).length := by
    rw [e, (q.perm _).length_eq, List.length_take]
    omega
  refine ⟨e, ?_, ?_, hlen, ?_, ?_⟩
  · rw [e]
    exact q.perm _
  · rw [e]
    exact sortedByName_sort q _
  · rw [hlen]
    omega
  · intro l hl
    have hnl : ∀ c ∈ l, c ≠ '\n' := fun c hc hn => (h l hl).2 (hn ▸ hc)
    rw [parseLoad_eq, (load_line_newline l hnl).2]
    constructor
    · intro hne
      by_contra hc
      exact hne (parse_none_of_short _ (by omega))
    · intro h5
      obtain ⟨b, hb⟩ := parse_some_of_five _ h5
      intro hn
      exact Option.noConfusion (hn.symm.trans hb)

/-- C12 at a file of four lines: two boats, a blank line, a line of two
fields. -/
theorem loadBoatsFromFile_spec_witness :
    loadBoatsFromFile insertionQsort []
        (some "Sea Lion,21,slip,21,100.50\n\nJon Boat,14\nArk,30,slip,1,0.00\n".toList) =
      [ark, seaLion] :=
  (loadBoatsFromFile_spec insertionQsort
    ["Sea Lion,21,slip,21,100.50".toList, [], "Jon Boat,14".toList,
      "Ark,30,slip,1,0.00".toList] (by decide)).1.trans (by decide)

/-! ## Bounds of the text fields (claim C15) -/

theorem parseCSV_some (line : CString) (b : Boat) (h : parseCSV line = some b) :
    ∃ t1 t2 t3 t4 t5, b = boatOfTokens t1 t2 t3 t4 t5 := by
  rw [parseCSV_eq] at h
  obtain ⟨t1, t2, t3, t4, t5, _, _, hb⟩ := (parse_tokens_iff _ b).1 h
  exact ⟨t1, t2, t3, t4, t5, hb⟩

theorem parseLoad_some (buf : List Char) (b : Boat) (h : parseLoad buf = some b) :
    ∃ t1 t2 t3 t4 t5, b = boatOfTokens t1 t2 t3 t4 t5 := by
  rw [parseLoad_eq] at h
  obtain ⟨t1, t2, t3, t4, t5, _, _, hb⟩ := (parse_tokens_iff _ b).1 h
  exact ⟨t1, t2, t3, t4, t5, hb⟩

theorem reachable_forall (P : Boat → Prop)
    (hparse : ∀ t1 t2 t3 t4 t5, P (boatOfTokens t1 t2 t3 t4 t5))
    (hcharge : ∀ b : Boat, P b →
      P { b with amountOwed := CFloat.add binary32 b.amountOwed (monthlyCharge b) })
    (hpay : ∀ (b : Boat) (a : CFloat), P b →
      P { b with amountOwed := CFloat.sub binary32 b.amountOwed a })
    (q : Qsort) (boats : List Boat) (h : Reachable q boats) : ∀ b ∈ boats, P b := by
  induction h with
  | empty => intro b hb; cases hb
  | load boats file _ ih =>
    cases file with
    | none => exact ih
    | some content =>
      intro b hb
      have hb2 := (q.perm _).subset hb
      rw [loadLoop_eq] at hb2
      rcases List.mem_append.1 hb2 with h1 | h1
      · exact ih b h1
      · have h2 := List.mem_of_mem_take h1
        obtain ⟨buf, _, hbuf⟩ := List.mem_filterMap.1 h2
        obtain ⟨t1, t2, t3, t4, t5, rfl⟩ := parseLoad_some buf b hbuf
        exact hparse _ _ _ _ _
  | add boats csvLine _ ih =>
    unfold addBoatFromCSV
    cases hp : parseCSV csvLine with
    | none => exact ih
    | some nb =>
      simp only []
      split
      · exact ih
      · intro b hb
        have hb2 := (q.perm _).subset hb
        rcases List.mem_append.1 hb2 with h1 | h1
        · exact ih b h1
        · have h2 : b = nb := by simpa using h1
          subst h2
          obtain ⟨t1, t2, t3, t4, t5, rfl⟩ := parseCSV_some csvLine b hp
          exact hparse _ _ _ _ _
  | remove boats name _ ih =>
    intro b hb
    exact ih b ((removeBoatByName_sublist boats name).subset hb)
  | charges boats _ ih =>
    intro b hb
    rw [updateMonthlyCharges_eq_map] at hb
    obtain ⟨b0, hb0, rfl⟩ := List.mem_map.1 hb
    exact hcharge b0 (ih b0 hb0)
  | payment boats name amount _ ih =>
    unfold paymentEntry
    cases findBoatByName boats name with
    | none => exact ih
    | some i =>
      simp only []
      cases hb : boats[i]? with
      | none => exact ih
      | some b0 =>
        intro b hbm
        simp only [] at hbm
        rcases List.mem_or_eq_of_mem_set hbm with h1 | h1
        · exact ih b h1
        · subst h1
          have h0 : P b0 := ih b0 (List.getElem?_mem hb)
          unfold applyPayment
          split
          · exact h0
          · exact hpay b0 _ h0

/-- C15, as stated, fails: the line ` ,1,slip,1,0` (its first field a single
space) is accepted by `addBoatFromCSV` and by `loadBoatsFromFile`, and the
boat created has the empty name, of 0 characters. -/
theorem field_bounds_counterexample :
    (addBoatFromCSV insertionQsort [] " ,1,slip,1,0".toList).map (fun b => b.name.length) =
      [0] ∧
    (loadBoatsFromFile insertionQsort [] (some " ,1,slip,1,0\n".toList)).map
      (fun b => b.name.length) = [0] := by
  decide

/-- C15, amended: every boat of a registry reachable from the empty one (so
every boat created by `addBoatFromCSV` or `loadBoatsFromFile`) has a name of
at most 127 characters, which may be empty, and, if it is a trailer boat, a
licence of at most 19 characters. -/
theorem field_bounds (q : Qsort) (boats : List Boat) (h : Reachable q boats) (b : Boat)
    (hb : b ∈ boats) : b.name.length ≤ 127 ∧ licenseLength b.info ≤ 19 := by
  refine reachable_forall (fun b => b.name.length ≤ 127 ∧ licenseLength b.info ≤ 19)
    ?_ (fun _ hp => hp) (fun _ _ hp => hp) q boats h b hb
  intro t1 t2 t3 t4 t5
  constructor
  · exact strncpy_length _ _
  · unfold boatOfTokens newBoatCSV
    cases getBoatType (strncpy (trimWhitespace t3) 19)
    · exact Nat.zero_le _
    · exact Nat.zero_le _
    · exact strncpy_length _ _
    · exact Nat.zero_le _

/-- C15, amended, at the registry made of the line
`Jon Boat,14,trailor,TX1234,0.00`. -/
theorem field_bounds_witness :
    jonBoat.name.length ≤ 127 ∧ licenseLength jonBoat.info ≤ 19 :=
  field_bounds insertionQsort
    (addBoatFromCSV insertionQsort [] "Jon Boat,14,trailor,TX1234,0.00".toList)
    (Reachable.add [] _ Reachable.empty)
    jonBoat (by decide)

/-! ## Uniqueness of names (claim C11) -/

theorem uniqueNames_perm (l1 l2 : List Boat) (h : List.Perm l1 l2) :
    UniqueNames l1 ↔ UniqueNames l2 := by
  unfold UniqueNames
  exact List.Perm.pairwise_iff (fun {a b} hab hba => hab hba.symm) (h.map Boat.name)

theorem uniqueNames_append (l1 l2 : List Boat) :
    UniqueNames (l1 ++ l2) ↔
      UniqueNames l1 ∧ UniqueNames l2 ∧
        ∀ x ∈ l1, ∀ y ∈ l2, ¬ eqIgnoreCase x.name y.name := by
  unfold UniqueNames
  rw [List.map_append, List.pairwise_append]
  simp only [List.mem_map, forall_exists_index, and_imp, forall_apply_eq_imp_iff₂]

/-- C11, as stated, fails: after `addBoatFromCSV` is called twice with the
line `Sea Lion,21,slip,21,100.50`, or with that line and then with
`SEA LION,30,land,B,0.00`, the registry holds two boats whose names are equal
case-insensitively. -/
theorem unique_names_counterexample :
    (addBoatFromCSV insertionQsort
        (addBoatFromCSV insertionQsort [] "Sea Lion,21,slip,21,100.50".toList)
        "Sea Lion,21,slip,21,100.50".toList).map Boat.name =
      ["Sea Lion".toList, "Sea Lion".toList] ∧
    (addBoatFromCSV insertionQsort
        (addBoatFromCSV insertionQsort [] "Sea Lion,21,slip,21,100.50".toList)
        "SEA LION,30,land,B,0.00".toList).map Boat.name =
      ["Sea Lion".toList, "SEA LION".toList] ∧
    strcasecmp "Sea Lion".toList "SEA LION".toList = 0 ∧
    ¬ UniqueNames (addBoatFromCSV insertionQsort
        (addBoatFromCSV insertionQsort [] "Sea Lion,21,slip,21,100.50".toList)
        "SEA LION,30,land,B,0.00".toList) := by
  unfold UniqueNames
  decide

/-- C11, amended: names stay unique only as far as the lines read introduce no
name that is present already. `removeBoatByName` keeps the names unique;
`addBoatFromCSV` and `loadBoatsFromFile` make no check: a line that
`addBoatFromCSV` appends leaves the names unique exactly when the name of its
boat differs, case-insensitively, from every name in the registry, and
`loadBoatsFromFile` leaves them unique exactly when the boats it appends have
names that differ from those in the registry and from each other. -/
theorem unique_names_preserved (q : Qsort) (boats : List Boat) (hu : UniqueNames boats) :
    (∀ name, UniqueNames (removeBoatByName boats name).1) ∧
    (∀ line, parseCSV line = none ∨ MAX_BOATS ≤ boats.length →
      addBoatFromCSV q boats line = boats) ∧
    (∀ line b, parseCSV line = some b → boats.length < MAX_BOATS →
      (UniqueNames (addBoatFromCSV q boats line) ↔
        ∀ x ∈ boats, ¬ eqIgnoreCase x.name b.name)) ∧
    (∀ content,
      (UniqueNames (loadBoatsFromFile q boats (some content)) ↔
        UniqueNames (((fgetsAll (MAX_LINE_LENGTH - 1) [] content).filterMap parseLoad).take
          (MAX_BOATS - boats.length)) ∧
        ∀ x ∈ boats, ∀ y ∈ ((fgetsAll (MAX_LINE_LENGTH - 1) [] content).filterMap
          parseLoad).take (MAX_BOATS - boats.length), ¬ eqIgnoreCase x.name y.name)) := by
  refine ⟨?_, ?_, ?_, ?_⟩
  · intro name
    exact List.Pairwise.sublist ((removeBoatByName_sublist boats name).map Boat.name) hu
  · intro line h
    unfold addBoatFromCSV
    rcases h with h | h
    · rw [h]
    · cases parseCSV line with
      | none => rfl
      | some b => simp only []; rw [if_pos h]
  · intro line b hp hlen
    unfold addBoatFromCSV
    rw [hp]
    simp only []
    rw [if_neg (by omega), uniqueNames_perm _ _ (q.perm _), uniqueNames_append]
    constructor
    · intro h x hx
      exact h.2.2 x hx b (List.mem_singleton_self b)
    · intro h
      refine ⟨hu, ?_, ?_⟩
      · unfold UniqueNames
        simp
      · intro x hx y hy
        rw [List.mem_singleton.1 hy]
        exact h x hx
  · intro content
    unfold loadBoatsFromFile
    simp only []
    rw [uniqueNames_perm _ _ (q.perm _), loadLoop_eq, uniqueNames_append]
    constructor
    · intro h
      exact ⟨h.2.1, h.2.2⟩
    · intro h
      exact ⟨hu, h.1, h.2⟩

/-- C11, amended, at the registry that holds `Sea Lion`: adding `Ark` keeps
the names unique. -/
theorem unique_names_preserved_witness :
    UniqueNames (addBoatFromCSV insertionQsort [seaLion] "Ark,30,slip,1,0.00".toList) :=
  ((unique_names_preserved insertionQsort [seaLion]
    (by unfold UniqueNames; decide)).2.2.1 "Ark,30,slip,1,0.00".toList ark (by decide)
    (by decide)).2 (by decide)

/-! ## Boats of equal names (claim C17) -/

theorem hasName_compare (name : CString) (a b : Boat) (ha : hasName name a = true)
    (hb : hasName name b = true) : compareBoats a b ≤ 0 := by
  unfold hasName at ha hb
  have ha2 := (strcasecmp_eq_zero_iff _ _).1 (of_decide_eq_true ha)
  have hb2 := (strcasecmp_eq_zero_iff _ _).1 (of_decide_eq_true hb)
  have : strcasecmp a.name b.name = 0 := (strcasecmp_eq_zero_iff _ _).2 (ha2.trans hb2.symm)
  unfold compareBoats
  omega

theorem filter_orderedInsert (name : CString) (a : Boat) (l : List Boat) :
    (List.orderedInsert (fun a b => compareBoats a b ≤ 0) a l).filter (hasName name) =
      (a :: l).filter (hasName name) := by
  induction l with
  | nil => rfl
  | cons b l ih =>
    by_cases hr : compareBoats a b ≤ 0
    · simp only [List.orderedInsert, hr, if_true]
    · simp only [List.orderedInsert, hr, if_false]
      cases hb : hasName name b with
      | true =>
        have ha : hasName name a = false := by
          cases ha : hasName name a with
          | false => rfl
          | true => exact absurd (hasName_compare name a b ha hb) hr
        rw [List.filter_cons_of_pos hb, ih, List.filter_cons_of_neg (by simp [ha]),
          List.filter_cons_of_neg (by simp [ha]), List.filter_cons_of_pos hb]
      | false =>
        rw [List.filter_cons_of_neg (by simp [hb]), ih]
        cases ha : hasName name a with
        | true =>
          rw [List.filter_cons_of_pos ha, List.filter_cons_of_pos ha,
            List.filter_cons_of_neg (by simp [hb])]
        | false =>
          rw [List.filter_cons_of_neg (by simp [ha]), List.filter_cons_of_neg (by simp [ha]),
            List.filter_cons_of_neg (by simp [hb])]

theorem insertionQsort_stable : insertionQsort.Stable := by
  intro l name
  show (List.insertionSort (fun a b => compareBoats a b ≤ 0) l).filter (hasName name) = _
  induction l with
  | nil => rfl
  | cons a l ih =>
    show (List.orderedInsert (fun a b => compareBoats a b ≤ 0) a
      (List.insertionSort (fun a b => compareBoats a b ≤ 0) l)).filter (hasName name) = _
    rw [filter_orderedInsert]
    cases ha : hasName name a with
    | true => rw [List.filter_cons_of_pos ha, List.filter_cons_of_pos ha, ih]
    | false =>
      rw [List.filter_cons_of_neg (by simp [ha]), List.filter_cons_of_neg (by simp [ha]), ih]

theorem addAll_cons (q : Qsort) (boats : List Boat) (l : CString) (ls : List CString) :
    addAll q boats (l :: ls) = addAll q (addBoatFromCSV q boats l) ls := rfl

theorem addAll_perm (q : Qsort) (lines : List CString) : ∀ boats : List Boat,
    boats.length + (lines.filterMap parseCSV).length ≤ MAX_BOATS →
    List.Perm (addAll q boats lines) (boats ++ lines.filterMap parseCSV) := by
  induction lines with
  | nil => intro boats _; simp [addAll]
  | cons l ls ih =>
    intro boats hcap
    rw [addAll_cons]
    unfold addBoatFromCSV
    cases hp : parseCSV l with
    | none =>
      simp only [List.filterMap_cons, hp] at hcap ⊢
      exact ih boats hcap
    | some b =>
      simp only [List.filterMap_cons, hp, List.length_cons] at hcap ⊢
      rw [if_neg (by omega)]
      have hlen : (q.sort (boats ++ [b])).length = boats.length + 1 := by
        rw [(q.perm _).length_eq]
        simp
      refine (ih _ (by rw [hlen]; omega)).trans ?_
      have := (q.perm (boats ++ [b])).append_right (List.filterMap parseCSV ls)
      simpa using this

theorem addAll_stable (q : Qsort) (hq : q.Stable) (name : CString) (lines : List CString) :
    ∀ boats : List Boat, boats.length + (lines.filterMap parseCSV).length ≤ MAX_BOATS →
    (addAll q boats lines).filter (hasName name) =
      (boats ++ lines.filterMap parseCSV).filter (hasName name) := by
  induction lines with
  | nil => intro boats _; simp [addAll]
  | cons l ls ih =>
    intro boats hcap
    rw [addAll_cons]
    unfold addBoatFromCSV
    cases hp : parseCSV l with
    | none =>
      simp only [List.filterMap_cons, hp] at hcap ⊢
      exact ih boats hcap
    | some b =>
      simp only [List.filterMap_cons, hp, List.length_cons] at hcap ⊢
      rw [if_neg (by omega)]
      have hlen : (q.sort (boats ++ [b])).length = boats.length + 1 := by
        rw [(q.perm _).length_eq]
        simp
      rw [ih _ (by rw [hlen]; omega), List.filter_append, hq,
        ← List.filter_append, List.append_assoc]
      rfl

/-! ## The merge sort of the C library -/

theorem mergeRuns_perm (fuel : Nat) : ∀ xs ys : List Boat,
    List.Perm (mergeRuns fuel xs ys) (xs ++ ys) := by
  induction fuel with
  | zero => intro xs ys; exact List.Perm.refl _
  | succ f ih =>
    intro xs ys
    cases xs with
    | nil => simp [mergeRuns]
    | cons x xs =>
      cases ys with
      | nil => simp [mergeRuns]
      | cons y ys =>
        simp only [mergeRuns]
        split
        · exact (ih xs (y :: ys)).cons x
        · refine ((ih (x :: xs) ys).cons y).trans ?_
          exact (@List.perm_middle Boat y (x :: xs) ys).symm

theorem mergeRuns_sorted (fuel : Nat) : ∀ xs ys : List Boat,
    xs.length + ys.length ≤ fuel →
    xs.Pairwise (fun a b => compareBoats a b ≤ 0) →
    ys.Pairwise (fun a b => compareBoats a b ≤ 0) →
    (mergeRuns fuel xs ys).Pairwise (fun a b => compareBoats a b ≤ 0) := by
  induction fuel with
  | zero =>
    intro xs ys hlen hx hy
    have h1 : xs = [] := List.length_eq_zero.1 (by omega)
    have h2 : ys = [] := List.length_eq_zero.1 (by omega)
    subst h1 h2
    exact List.Pairwise.nil
  | succ f ih =>
    intro xs ys hlen hx hy
    cases xs with
    | nil => simpa [mergeRuns] using hy
    | cons x xs =>
      cases ys with
      | nil => simpa [mergeRuns] using hx
      | cons y ys =>
        simp only [List.length_cons] at hlen
        rw [List.pairwise_cons] at hx hy
        simp only [mergeRuns]
        split
        · rename_i hxy
          rw [List.pairwise_cons]
          refine ⟨?_, ih xs (y :: ys) (by simp only [List.length_cons]; omega) hx.2
            (List.pairwise_cons.2 hy)⟩
          intro b hb
          have hb2 := (mergeRuns_perm f xs (y :: ys)).subset hb
          rcases List.mem_append.1 hb2 with h | h
          · exact hx.1 b h
          · rcases List.mem_cons.1 h with h | h
            · rw [h]
              exact hxy
            · exact strcasecmp_trans _ _ _ hxy (hy.1 b h)
        · rename_i hxy
          have hyx : compareBoats y x ≤ 0 := by
            rcases strcasecmp_total x.name y.name with h | h
            · exact absurd h hxy
            · exact h
          rw [List.pairwise_cons]
          refine ⟨?_, ih (x :: xs) ys (by simp only [List.length_cons]; omega)
            (List.pairwise_cons.2 hx) hy.2⟩
          intro b hb
          have hb2 := (mergeRuns_perm f (x :: xs) ys).subset hb
          rcases List.mem_append.1 hb2 with h | h
          · rcases List.mem_cons.1 h with h | h
            · rw [h]
              exact hyx
            · exact strcasecmp_trans _ _ _ hyx (hx.1 b h)
          · exact hy.1 b h

theorem mergeRuns_filter (name : CString) (fuel : Nat) : ∀ xs ys : List Boat,
    xs.Pairwise (fun a b => compareBoats a b ≤ 0) →
    (mergeRuns fuel xs ys).filter (hasName name) =
      xs.filter (hasName name) ++ ys.filter (hasName name) := by
  induction fuel with
  | zero => intro xs ys _; exact List.filter_append _ _
  | succ f ih =>
    intro xs ys hx
    cases xs with
    | nil => simp [mergeRuns]
    | cons x xs =>
      cases ys with
      | nil => simp [mergeRuns]
      | cons y ys =>
        simp only [mergeRuns]
        split
        · have h := ih xs (y :: ys) (List.pairwise_cons.1 hx).2
          cases hpx : hasName name x with
          | true =>
            rw [List.filter_cons_of_pos hpx, List.filter_cons_of_pos hpx, h]
            rfl
          | false =>
            rw [List.filter_cons_of_neg (by simp [hpx]), List.filter_cons_of_neg (by simp [hpx]),
              h]
        · rename_i hxy
          rw [List.filter_cons, ih (x :: xs) ys hx]
          cases hy : hasName name y with
          | false => simp [hy]
          | true =>
            have hnone : (x :: xs).filter (hasName name) = [] := by
              rw [List.filter_eq_nil_iff]
              intro b hb hpb
              have hby := hasName_compare name b y hpb hy
              rcases List.mem_cons.1 hb with h | h
              · rw [h] at hby
                exact hxy hby
              · exact hxy (strcasecmp_trans _ _ _ ((List.pairwise_cons.1 hx).1 b h) hby)
            simp [hy, hnone]

theorem msort_halves (l : List Boat) (fuel : Nat) (h1 : ¬ l.length ≤ 1)
    (h2 : l.length ≤ fuel + 1) :
    (l.take (l.length / 2)).length ≤ fuel ∧ (l.drop (l.length / 2)).length ≤ fuel ∧
      (l.take (l.length / 2)).length + (l.drop (l.length / 2)).length = l.length := by
  simp only [List.length_take, List.length_drop]
  omega

theorem msort_perm (fuel : Nat) : ∀ l : List Boat, List.Perm (msort fuel l) l := by
  induction fuel with
  | zero => intro l; exact List.Perm.refl _
  | succ f ih =>
    intro l
    simp only [msort]
    split
    · exact List.Perm.refl _
    · refine (mergeRuns_perm _ _ _).trans ?_
      refine ((ih _).append (ih _)).trans ?_
      rw [List.take_append_drop]

theorem msort_sorted (fuel : Nat) : ∀ l : List Boat, l.length ≤ fuel →
    (msort fuel l).Pairwise (fun a b => compareBoats a b ≤ 0) := by
  induction fuel with
  | zero =>
    intro l hl
    have : l = [] := List.length_eq_zero.1 (by omega)
    subst this
    exact List.Pairwise.nil
  | succ f ih =>
    intro l hl
    simp only [msort]
    split
    · rename_i h1
      match l, h1 with
      | [], _ => exact List.Pairwise.nil
      | [a], _ => exact List.pairwise_singleton _ _
      | a :: b :: r, h1 => simp at h1
    · rename_i h1
      obtain ⟨ha, hb, hab⟩ := msort_halves l f h1 hl
      apply mergeRuns_sorted
      · rw [(msort_perm f _).length_eq, (msort_perm f _).length_eq]
        omega
      · exact ih _ ha
      · exact ih _ hb

theorem msort_filter (name : CString) (fuel : Nat) : ∀ l : List Boat, l.length ≤ fuel →
    (msort fuel l).filter (hasName name) = l.filter (hasName name) := by
  induction fuel with
  | zero => intro l _; rfl
  | succ f ih =>
    intro l hl
    simp only [msort]
    split
    · rfl
    · rename_i h1
      obtain ⟨ha, hb, _⟩ := msort_halves l f h1 hl
      rw [mergeRuns_filter name _ _ _ (msort_sorted f _ ha), ih _ ha, ih _ hb,
        ← List.filter_append, List.take_append_drop]

/-- The function `qsort` of the GNU C library on the array `boats`: for an
array below 1024 bytes (the registry has at most 120 pointers) it is the
merge sort `msort_with_tmp`, run with a buffer on the stack. -/
def libraryQsort : Qsort where
  sort := fun l => msort l.length l
  perm := fun l => msort_perm l.length l
  sorted := fun l => msort_sorted l.length l (le_refl _)

theorem libraryQsort_stable : libraryQsort.Stable :=
  fun l name => msort_filter name l.length l (le_refl _)

theorem addAll_sorted (q : Qsort) (lines : List CString) : SortedByName (addAll q [] lines) := by
  induction lines using List.reverseRecOn with
  | nil => exact List.Pairwise.nil
  | append_singleton ls l ih =>
    unfold addAll at ih ⊢
    rw [List.foldl_append]
    simp only [List.foldl_cons, List.foldl_nil]
    unfold addBoatFromCSV
    cases parseCSV l with
    | none => exact ih
    | some b =>
      simp only []
      split
      · exact ih
      · exact sortedByName_sort q _

/-- C17: with the `qsort` of the C library, which for the registry (at most
120 pointers) is a merge sort, after every sequence of `addBoatFromCSV` calls
that stays within the capacity the registry is a permutation of the boats
added, sorted by name, and the boats of any one name (up to letter case)
appear in it in the order in which they were added. -/
theorem stable_order (lines : List CString)
    (hcap : (lines.filterMap parseCSV).length ≤ MAX_BOATS) (name : CString) :
    List.Perm (addAll libraryQsort [] lines) (lines.filterMap parseCSV) ∧
    SortedByName (addAll libraryQsort [] lines) ∧
    (addAll libraryQsort [] lines).filter (hasName name) =
      (lines.filterMap parseCSV).filter (hasName name) := by
  refine ⟨?_, addAll_sorted libraryQsort lines, ?_⟩
  · simpa using addAll_perm libraryQsort lines [] (by simpa using hcap)
  · simpa using addAll_stable libraryQsort libraryQsort_stable name lines []
      (by simpa using hcap)

/-- C17 at the lines `Sea Lion,21,slip,21,100.50`, `Ark,30,slip,1,0.00` and
`SEA LION,30,land,B,0.00`: `Sea Lion`, added first, stays in front of
`SEA LION`. -/
theorem stable_order_witness :
    (addAll libraryQsort [] ["Sea Lion,21,slip,21,100.50".toList,
      "Ark,30,slip,1,0.00".toList, "SEA LION,30,land,B,0.00".toList]).map Boat.name =
      ["Ark".toList, "Sea Lion".toList, "SEA LION".toList] ∧
    (addAll libraryQsort [] ["Sea Lion,21,slip,21,100.50".toList,
      "Ark,30,slip,1,0.00".toList, "SEA LION,30,land,B,0.00".toList]).filter
        (hasName "sea lion".toList) =
      (["Sea Lion,21,slip,21,100.50".toList, "Ark,30,slip,1,0.00".toList,
        "SEA LION,30,land,B,0.00".toList].filterMap parseCSV).filter
        (hasName "sea lion".toList) :=
  ⟨by decide,
    (stable_order ["Sea Lion,21,slip,21,100.50".toList, "Ark,30,slip,1,0.00".toList,
      "SEA LION,30,land,B,0.00".toList] (by decide) "sea lion".toList).2.2⟩

/-! ## White space around the fields (claim C18) -/

theorem trimWhitespace_eq (s : CString) :
    trimWhitespace s = ((s.dropWhile isspace).reverse.dropWhile isspace).reverse := by
  unfold trimWhitespace
  simp only []
  split
  · rename_i h
    rw [h]
    rfl
  · rfl

theorem trimWhitespace_pad (a f b : CString) (ha : isPadding a = true) (hb : isPadding b = true) :
    trimWhitespace (a ++ f ++ b) = trimWhitespace f := by
  have ha2 : ∀ c ∈ a, isspace c = true := by simpa [isPadding] using ha
  have hb2 : ∀ c ∈ b, isspace c = true := by simpa [isPadding] using hb
  rw [trimWhitespace_eq, trimWhitespace_eq, List.append_assoc,
    List.dropWhile_append_of_pos ha2, List.dropWhile_append]
  split
  · rename_i h
    have h1 : f.dropWhile isspace = [] := List.isEmpty_iff.1 h
    rw [h1, List.dropWhile_eq_nil_iff.2 hb2]
  · rw [List.reverse_append, List.dropWhile_append_of_pos]
    intro c hc
    exact hb2 c (List.mem_reverse.1 hc)

theorem trimWhitespace_decomp (s : CString) :
    ∃ w1 w2, isPadding w1 = true ∧ isPadding w2 = true ∧ s = w1 ++ trimWhitespace s ++ w2 := by
  refine ⟨s.takeWhile isspace, ((s.dropWhile isspace).reverse.takeWhile isspace).reverse,
    ?_, ?_, ?_⟩
  · simp only [isPadding, List.all_eq_true]
    intro c hc
    exact List.mem_takeWhile_imp hc
  · simp only [isPadding, List.all_eq_true]
    intro c hc
    exact List.mem_takeWhile_imp (List.mem_reverse.1 hc)
  · rw [trimWhitespace_eq, List.append_assoc, ← List.reverse_append,
      List.takeWhile_append_dropWhile, List.reverse_reverse, List.takeWhile_append_dropWhile]

theorem trimWhitespace_last (s : CString) (c : Char)
    (h : (trimWhitespace s).getLast? = some c) : isspace c = false := by
  rw [trimWhitespace_eq, List.getLast?_reverse] at h
  have := List.head?_dropWhile_not isspace (s.dropWhile isspace).reverse
  rw [h] at this
  exact this

theorem trimWhitespace_head (s : CString) (c : Char)
    (h : (trimWhitespace s).head? = some c) : isspace c = false := by
  obtain ⟨w1, w2, _, _, hs⟩ := trimWhitespace_decomp s
  have hd : s.dropWhile isspace = trimWhitespace s ++
      ((s.dropWhile isspace).reverse.takeWhile isspace).reverse := by
    rw [trimWhitespace_eq, ← List.reverse_append, List.takeWhile_append_dropWhile,
      List.reverse_reverse]
  have h2 : (s.dropWhile isspace).head? = some c := by
    rw [hd, List.head?_append, h]
    rfl
  have := List.head?_dropWhile_not isspace s
  rw [h2] at this
  exact this

theorem trimWhitespace_fixed (t : CString) (hh : ∀ c, t.head? = some c → isspace c = false)
    (hl : ∀ c, t.getLast? = some c → isspace c = false) : trimWhitespace t = t := by
  have h1 : t.dropWhile isspace = t := by
    cases t with
    | nil => rfl
    | cons a l =>
      have := hh a rfl
      simp [List.dropWhile_cons, this]
  rw [trimWhitespace_eq, h1]
  have h2 : t.reverse.dropWhile isspace = t.reverse := by
    cases hr : t.reverse with
    | nil => rfl
    | cons a l =>
      have : t.getLast? = some a := by
        rw [← List.head?_reverse, hr]
        rfl
      have := hl a this
      simp [List.dropWhile_cons, this]
  rw [h2, List.reverse_reverse]

theorem trimWhitespace_idem (s : CString) :
    trimWhitespace (trimWhitespace s) = trimWhitespace s :=
  trimWhitespace_fixed _ (trimWhitespace_head s) (trimWhitespace_last s)

theorem strtok_field (f rest : CString) (hne : f ≠ []) (hall : ∀ c ∈ f, c ≠ ',') :
    strtok (f ++ ',' :: rest) = some (f, rest) ∧ strtok f = some (f, []) := by
  have hp : ∀ c ∈ f, (fun c => c != ',') c = true := fun c hc => by simpa using hall c hc
  obtain ⟨a, l, rfl⟩ := List.exists_cons_of_ne_nil hne
  have ha : (a == ',') = false := by simpa using hall a (List.mem_cons_self _ _)
  have h1 : ∀ x : CString, ((a :: l) ++ x).dropWhile (fun c => c == ',') = (a :: l) ++ x := by
    intro x
    simp [List.dropWhile_cons, ha]
  have h2 : ((a :: l) ++ ',' :: rest).takeWhile (fun c => c != ',') = a :: l := by
    rw [List.takeWhile_append_of_pos hp]
    simp [List.takeWhile_cons]
  have h3 : ((a :: l) ++ ',' :: rest).dropWhile (fun c => c != ',') = ',' :: rest := by
    rw [List.dropWhile_append_of_pos hp]
    simp [List.dropWhile_cons]
  have h4 : (a :: l).takeWhile (fun c => c != ',') = a :: l :=
    List.takeWhile_eq_self_iff.2 hp
  have h5 : (a :: l).dropWhile (fun c => c != ',') = [] :=
    List.dropWhile_eq_nil_iff.2 hp
  constructor
  · unfold strtok
    simp only [h1, h2, h3]
    simp
  · have h6 := h1 []
    simp only [List.append_nil] at h6
    unfold strtok
    simp only [h6, h4, h5]
    simp

theorem tokens_joinFields (f1 f2 f3 f4 f5 : CString)
    (h : ∀ f ∈ [f1, f2, f3, f4, f5], f ≠ [] ∧ ∀ c ∈ f, c ≠ ',') :
    tokens (joinFields f1 f2 f3 f4 f5) = [f1, f2, f3, f4, f5] := by
  have h1 := h f1 (by simp)
  have h2 := h f2 (by simp)
  have h3 := h f3 (by simp)
  have h4 := h f4 (by simp)
  have h5 := h f5 (by simp)
  unfold joinFields
  rw [tokens_eq_strtok, (strtok_field f1 _ h1.1 h1.2).1]
  simp only []
  rw [tokens_eq_strtok, (strtok_field f2 _ h2.1 h2.2).1]
  simp only []
  rw [tokens_eq_strtok, (strtok_field f3 _ h3.1 h3.2).1]
  simp only []
  rw [tokens_eq_strtok, (strtok_field f4 _ h4.1 h4.2).1]
  simp only []
  rw [tokens_eq_strtok, (strtok_field f5 [] h5.1 h5.2).2]
  simp only []
  rfl

theorem isspace_plain (c : Char) (h : isspace c = true) : c ≠ ',' ∧ c ≠ '\x00' := by
  constructor
  · rintro rfl
    exact absurd h (by decide)
  · rintro rfl
    exact absurd h (by decide)

theorem isField_spec (f : CString) (h : isField f = true) :
    f ≠ [] ∧ (∀ c ∈ f, c ≠ ',') ∧ (∀ c ∈ f, c ≠ '\x00') := by
  simp only [isField, Bool.and_eq_true, List.all_eq_true, List.any_eq_true, bne_iff_ne,
    ne_eq] at h
  obtain ⟨h1, c, hc, _⟩ := h
  exact ⟨List.ne_nil_of_mem hc, fun c hc => (h1 c hc).1, fun c hc => (h1 c hc).2⟩

theorem padded_spec (a f b : CString) (hf : isField f = true) (ha : isPadding a = true)
    (hb : isPadding b = true) :
    a ++ f ++ b ≠ [] ∧ (∀ c ∈ a ++ f ++ b, c ≠ ',') ∧ (∀ c ∈ a ++ f ++ b, c ≠ '\x00') := by
  obtain ⟨hne, h1, h2⟩ := isField_spec f hf
  have ha2 : ∀ c ∈ a, isspace c = true := by simpa [isPadding] using ha
  have hb2 : ∀ c ∈ b, isspace c = true := by simpa [isPadding] using hb
  refine ⟨by simp [hne], ?_, ?_⟩
  · intro c hc
    simp only [List.mem_append] at hc
    rcases hc with (hc | hc) | hc
    · exact (isspace_plain c (ha2 c hc)).1
    · exact h1 c hc
    · exact (isspace_plain c (hb2 c hc)).1
  · intro c hc
    simp only [List.mem_append] at hc
    rcases hc with (hc | hc) | hc
    · exact (isspace_plain c (ha2 c hc)).2
    · exact h2 c hc
    · exact (isspace_plain c (hb2 c hc)).2

theorem parseCSV_joinFields (f1 f2 f3 f4 f5 : CString)
    (h : ∀ f ∈ [f1, f2, f3, f4, f5], f ≠ [] ∧ (∀ c ∈ f, c ≠ ',') ∧ (∀ c ∈ f, c ≠ '\x00'))
    (hlen : (joinFields f1 f2 f3 f4 f5).length ≤ 255) :
    parseCSV (joinFields f1 f2 f3 f4 f5) = some (boatOfTokens f1 f2 f3 f4 f5) := by
  have h0 : '\x00' ∉ joinFields f1 f2 f3 f4 f5 := by
    have h1 := (h f1 (by simp)).2.2
    have h2 := (h f2 (by simp)).2.2
    have h3 := (h f3 (by simp)).2.2
    have h4 := (h f4 (by simp)).2.2
    have h5 := (h f5 (by simp)).2.2
    unfold joinFields
    intro hm
    simp only [List.mem_append, List.mem_cons] at hm
    rcases hm with hm | hm | hm | hm | hm | hm | hm | hm | hm
    · exact h1 _ hm rfl
    · exact absurd hm (by decide)
    · exact h2 _ hm rfl
    · exact absurd hm (by decide)
    · exact h3 _ hm rfl
    · exact absurd hm (by decide)
    · exact h4 _ hm rfl
    · exact absurd hm (by decide)
    · exact h5 _ hm rfl
  rw [parseCSV_eq, show MAX_LINE_LENGTH - 1 = 255 from rfl, strncpy_eq_self _ _ hlen h0,
    tokens_joinFields f1 f2 f3 f4 f5 (fun f hf => ⟨(h f hf).1, (h f hf).2.1⟩)]

/-- C18, as stated, fails: the line `Ark,30,slip,1,0.00` fits the line buffer,
and with 250 spaces added behind `Ark` it no longer does: `addBoatFromCSV`
sees its first 255 bytes only, `loadBoatsFromFile` reads it in two pieces, and
both reject it, where the unpadded line yields the boat `Ark`. -/
theorem padding_counterexample :
    parseCSV "Ark,30,slip,1,0.00".toList = some ark ∧
    parseCSV ("Ark".toList ++ List.replicate 250 ' ' ++ ",30,slip,1,0.00".toList) = none ∧
    addBoatFromCSV insertionQsort []
      ("Ark".toList ++ List.replicate 250 ' ' ++ ",30,slip,1,0.00".toList) = [] ∧
    loadBoatsFromFile insertionQsort []
      (some ("Ark".toList ++ List.replicate 250 ' ' ++ ",30,slip,1,0.00\n".toList)) = [] := by
  decide

/-- C18, amended: `trimWhitespace` returns its argument without the white
space at its two ends (the result neither starts nor ends with white space)
and is idempotent; for every line of five non-blank fields, white space added
around any of the fields yields the same boat as the unpadded line, provided
that the padded line, too, fits the line buffer (for `loadBoatsFromFile`:
and has no newline in it). -/
theorem padding_ignored (f1 f2 f3 f4 f5 a1 a2 a3 a4 a5 b1 b2 b3 b4 b5 : CString)
    (hf : ∀ f ∈ [f1, f2, f3, f4, f5], isField f = true)
    (hw : ∀ w ∈ [a1, a2, a3, a4, a5, b1, b2, b3, b4, b5], isPadding w = true)
    (hfit : (joinFields (a1 ++ f1 ++ b1) (a2 ++ f2 ++ b2) (a3 ++ f3 ++ b3) (a4 ++ f4 ++ b4)
      (a5 ++ f5 ++ b5)).length ≤ 255) :
    (∀ s, ∃ w1 w2, isPadding w1 = true ∧ isPadding w2 = true ∧
      s = w1 ++ trimWhitespace s ++ w2) ∧
    (∀ s c, (trimWhitespace s).head? = some c ∨ (trimWhitespace s).getLast? = some c →
      isspace c = false) ∧
    (∀ s, trimWhitespace (trimWhitespace s) = trimWhitespace s) ∧
    parseCSV (joinFields (a1 ++ f1 ++ b1) (a2 ++ f2 ++ b2) (a3 ++ f3 ++ b3) (a4 ++ f4 ++ b4)
      (a5 ++ f5 ++ b5)) = parseCSV (joinFields f1 f2 f3 f4 f5) ∧
    parseCSV (joinFields f1 f2 f3 f4 f5) = some (boatOfTokens f1 f2 f3 f4 f5) ∧
    ('\n' ∉ joinFields (a1 ++ f1 ++ b1) (a2 ++ f2 ++ b2) (a3 ++ f3 ++ b3) (a4 ++ f4 ++ b4)
        (a5 ++ f5 ++ b5) →
      parseLoad (joinFields (a1 ++ f1 ++ b1) (a2 ++ f2 ++ b2) (a3 ++ f3 ++ b3)
        (a4 ++ f4 ++ b4) (a5 ++ f5 ++ b5) ++ ['\n']) =
        parseLoad (joinFields f1 f2 f3 f4 f5 ++ ['\n'])) := by
  have hlen : (joinFields f1 f2 f3 f4 f5).length ≤ 255 := by
    refine le_trans ?_ hfit
    simp only [joinFields, List.length_append, List.length_cons]
    omega
  have hA : ∀ w ∈ [a1, a2, a3, a4, a5, b1, b2, b3, b4, b5], isPadding w = true := hw
  have e1 : parseCSV (joinFields f1 f2 f3 f4 f5) = some (boatOfTokens f1 f2 f3 f4 f5) :=
    parseCSV_joinFields f1 f2 f3 f4 f5 (fun f h => isField_spec f (hf f h)) hlen
  have e2 : parseCSV (joinFields (a1 ++ f1 ++ b1) (a2 ++ f2 ++ b2) (a3 ++ f3 ++ b3)
      (a4 ++ f4 ++ b4) (a5 ++ f5 ++ b5)) = some (boatOfTokens f1 f2 f3 f4 f5) := by
    rw [parseCSV_joinFields _ _ _ _ _ ?_ hfit]
    · unfold boatOfTokens
      rw [trimWhitespace_pad a1 f1 b1 (hA _ (by simp)) (hA _ (by simp)),
        trimWhitespace_pad a2 f2 b2 (hA _ (by simp)) (hA _ (by simp)),
        trimWhitespace_pad a3 f3 b3 (hA _ (by simp)) (hA _ (by simp)),
        trimWhitespace_pad a4 f4 b4 (hA _ (by simp)) (hA _ (by simp)),
        trimWhitespace_pad a5 f5 b5 (hA _ (by simp)) (hA _ (by simp))]
    · intro f hm
      simp only [List.mem_cons, List.mem_singleton, List.not_mem_nil, or_false] at hm
      rcases hm with rfl | rfl | rfl | rfl | rfl
      · exact padded_spec a1 f1 b1 (hf _ (by simp)) (hA _ (by simp)) (hA _ (by simp))
      · exact padded_spec a2 f2 b2 (hf _ (by simp)) (hA _ (by simp)) (hA _ (by simp))
      · exact padded_spec a3 f3 b3 (hf _ (by simp)) (hA _ (by simp)) (hA _ (by simp))
      · exact padded_spec a4 f4 b4 (hf _ (by simp)) (hA _ (by simp)) (hA _ (by simp))
      · exact padded_spec a5 f5 b5 (hf _ (by simp)) (hA _ (by simp)) (hA _ (by simp))
  refine ⟨trimWhitespace_decomp, ?_, trimWhitespace_idem, e2.trans e1.symm, e1, ?_⟩
  · intro s c h
    rcases h with h | h
    · exact trimWhitespace_head s c h
    · exact trimWhitespace_last s c h
  · intro hnl
    have hnl1 : ∀ c ∈ joinFields (a1 ++ f1 ++ b1) (a2 ++ f2 ++ b2) (a3 ++ f3 ++ b3)
        (a4 ++ f4 ++ b4) (a5 ++ f5 ++ b5), c ≠ '\n' := fun c hc hn => hnl (hn ▸ hc)
    have hnl2 : ∀ c ∈ joinFields f1 f2 f3 f4 f5, c ≠ '\n' := by
      intro c hc
      apply hnl1 c
      simp only [joinFields, List.mem_append, List.mem_cons] at hc ⊢
      tauto
    rw [parseLoad_newline _ hnl1, parseLoad_newline _ hnl2,
      parseLoad_eq_parseCSV _ hfit hnl1, parseLoad_eq_parseCSV _ hlen hnl2, e2, e1]

/-- C18, amended, at the line ` Ark ,30 , slip,1,\t0.00`. -/
theorem padding_ignored_witness :
    parseCSV " Ark ,30 , slip,1,\t0.00".toList = parseCSV "Ark,30,slip,1,0.00".toList :=
  (padding_ignored "Ark".toList "30".toList "slip".toList "1".toList "0.00".toList
    " ".toList [] " ".toList [] "\t".toList " ".toList " ".toList [] [] []
    (by decide) (by decide) (by decide)).2.2.2.1

/-! ## Numbers followed by other text (claim C19) -/

theorem takeWhile_isdigit_rest (di rest : CString) (hdig : ∀ c ∈ di, isdigit c = true)
    (hr : isdigit (rest.headD ' ') = false) :
    (di ++ rest).takeWhile isdigit = di ∧ (di ++ rest).dropWhile isdigit = rest := by
  induction di with
  | nil =>
    cases rest with
    | nil => exact ⟨rfl, rfl⟩
    | cons c r =>
      simp only [List.headD_cons] at hr
      simp [List.takeWhile_cons, List.dropWhile_cons, hr]
  | cons c cs ih =>
    have hc := hdig c (List.mem_cons_self _ _)
    obtain ⟨h1, h2⟩ := ih (fun x hx => hdig x (List.mem_cons_of_mem _ hx))
    simp only [List.cons_append, List.takeWhile_cons, List.dropWhile_cons, hc, if_true, h1, h2,
      and_self]

theorem tolower_digit (c : Char) (d : Char) (hd : isdigit d = true) (h : tolower c = d) :
    c = d := by
  have h2 : lowerByte c = d.toNat := by
    unfold lowerByte
    rw [h]
  rw [lowerByte_eq] at h2
  simp only [isdigit, Bool.and_eq_true, decide_eq_true_eq] at hd
  split at h2
  · omega
  · exact char_eq_of_toNat_eq _ _ h2

theorem strtod_not_numeric (t : CString) (h : startsNumeric t = false) :
    strtod t = CFloat.fin false 0 binary64.emin := by
  unfold startsNumeric at h
  simp only [Bool.or_eq_false_iff, Bool.and_eq_false_iff] at h
  obtain ⟨⟨⟨h1, h2⟩, h3⟩, h4⟩ := h
  unfold strtod
  simp only []
  generalize (takeSign (t.dropWhile isspace)).2 = u at h1 h2 h3 h4 ⊢
  simp only [h3, h4, Bool.false_eq_true, if_false]
  have hx : startsWithCI u "0x".toList = false := by
    cases u with
    | nil => rfl
    | cons c r =>
      simp only [List.headD_cons] at h1
      have : (tolower c == '0') = false := by
        cases hc : tolower c == '0' with
        | false => rfl
        | true =>
          have := tolower_digit c '0' (by decide) (by simpa using hc)
          rw [this] at h1
          exact absurd h1 (by decide)
      show (tolower c == '0' && _) = false
      rw [this]
      rfl
  have hdi : u.takeWhile isdigit = [] ∧ u.dropWhile isdigit = u := by
    have := takeWhile_isdigit_rest [] u (fun _ hc => absurd hc (List.not_mem_nil _)) h1
    simpa using this
  simp only [hx, Bool.false_eq_true, false_and, if_false, hdi.1, hdi.2, true_and]
  split_ifs with hc
  · rfl
  · exfalso
    apply hc
    split
    · rename_i r
      simp only [List.headD_cons, List.drop_succ_cons, List.drop_zero] at h2
      rcases h2 with h2 | h2
      · exact absurd h2 (by decide)
      · have := takeWhile_isdigit_rest [] r (fun _ hc => absurd hc (List.not_mem_nil _)) h2
        simpa using this.1
    · rfl

theorem endsNumeral_spec (rest : CString) (h : endsNumeral rest = true) :
    isdigit (rest.headD ' ') = false ∧ (∀ r, rest ≠ '.' :: r) ∧
      exponentPart 'e' rest = 0 ∧ (∀ r, startsWithCI rest ('x' :: r) = false ∨ rest = []) := by
  cases rest with
  | nil =>
    exact ⟨by decide, fun r hr => List.noConfusion hr, rfl, fun r => Or.inr rfl⟩
  | cons c cs =>
    simp only [endsNumeral, Bool.and_eq_true, Bool.not_eq_true', bne_iff_ne, ne_eq] at h
    obtain ⟨⟨⟨h1, h2⟩, h3⟩, h4⟩ := h
    refine ⟨h1, ?_, ?_, ?_⟩
    · intro r hr
      injection hr with hr _
      exact h2 hr
    · have : (tolower c == 'e') = false := by simpa using h3
      simp only [exponentPart, this, Bool.false_eq_true, if_false]
    · intro r
      left
      have : (tolower c == 'x') = false := by simpa using h4
      simp only [startsWithCI, this, Bool.false_and]

theorem numeral_rest_head (s : Bool) (di tail rest : CString) (hdi : di ≠ [])
    (hdig : ∀ c ∈ di, isdigit c = true) (ht : tail = [] ∨ ∃ r, tail = '.' :: r)
    (hr : endsNumeral rest = true) :
    ((if s then ['-'] else []) ++ di ++ tail ++ rest).dropWhile isspace =
      (if s then ['-'] else []) ++ di ++ tail ++ rest ∧
    takeSign ((if s then ['-'] else []) ++ di ++ tail ++ rest) = (s, di ++ tail ++ rest) ∧
    startsWithCI (di ++ tail ++ rest) "inf".toList = false ∧
    startsWithCI (di ++ tail ++ rest) "nan".toList = false ∧
    startsWithCI (di ++ tail ++ rest) "0x".toList = false := by
  obtain ⟨c0, cs, rfl⟩ := List.exists_cons_of_ne_nil hdi
  have hc0 := isdigit_cases c0 (hdig c0 (List.mem_cons_self _ _))
  refine ⟨?_, ?_, ?_, ?_, ?_⟩
  · cases s
    · rcases hc0 with h | h | h | h | h | h | h | h | h | h <;> subst h <;> rfl
    · rfl
  · cases s
    · rcases hc0 with h | h | h | h | h | h | h | h | h | h <;> subst h <;> rfl
    · rfl
  · rcases hc0 with h | h | h | h | h | h | h | h | h | h <;> subst h <;> rfl
  · rcases hc0 with h | h | h | h | h | h | h | h | h | h <;> subst h <;> rfl
  · cases cs with
    | nil =>
      rcases ht with rfl | ⟨r, rfl⟩
      · rcases (endsNumeral_spec rest hr).2.2.2 [] with h | h
        · simp only [List.nil_append, List.cons_append, List.append_nil]
          show (tolower c0 == '0' && startsWithCI rest ['x']) = false
          rw [h, Bool.and_false]
        · subst h
          simp [startsWithCI]
      · have : tolower '.' ≠ 'x' := by decide
        simp [startsWithCI, this]
    | cons c1 cs1 =>
      have hc1 := isdigit_cases c1 (hdig c1 (List.mem_cons_of_mem _ (List.mem_cons_self _ _)))
      have : (tolower c1 == 'x') = false := by
        rcases hc1 with h | h | h | h | h | h | h | h | h | h <;> subst h <;> decide
      simp [startsWithCI, this]

theorem strtod_integer_rest (s : Bool) (di rest : CString) (hdi : di ≠ [])
    (hdig : ∀ c ∈ di, isdigit c = true) (hr : endsNumeral rest = true) :
    strtod ((if s then ['-'] else []) ++ di ++ rest) = roundBin binary64 s (decValue 0 di) 1 := by
  obtain ⟨hA, hB, hC, hD, hE⟩ := numeral_rest_head s di [] rest hdi hdig (Or.inl rfl) hr
  obtain ⟨h1, h2, h3, _⟩ := endsNumeral_spec rest hr
  obtain ⟨hF, hG⟩ := takeWhile_isdigit_rest di rest hdig h1
  simp only [List.append_nil] at hA hB hC hD hE
  unfold strtod
  simp only [hA, hB, hC, hD, hE, hF, hG, Bool.false_eq_true, if_false, false_and, hdi]
  rw [h3]
  simp

theorem strtod_fraction_rest (s : Bool) (di df rest : CString) (hdi : di ≠ [])
    (hdig : ∀ c ∈ di, isdigit c = true) (hdf : ∀ c ∈ df, isdigit c = true)
    (hr : endsNumeral rest = true) :
    strtod ((if s then ['-'] else []) ++ di ++ '.' :: df ++ rest) =
      roundBin binary64 s (decValue 0 (di ++ df)) (10 ^ df.length) := by
  obtain ⟨hA, hB, hC, hD, hE⟩ :=
    numeral_rest_head s di ('.' :: df) rest hdi hdig (Or.inr ⟨df, rfl⟩) hr
  obtain ⟨h1, h2, h3, _⟩ := endsNumeral_spec rest hr
  obtain ⟨hF, hG⟩ := takeWhile_isdigit_rest di ('.' :: df ++ rest) hdig (by rfl)
  obtain ⟨hH, hI⟩ := takeWhile_isdigit_rest df rest hdf h1
  rw [← List.append_assoc] at hF hG
  unfold strtod
  simp only [hA, hB, hC, hD, hE, hF, hG, Bool.false_eq_true, if_false, false_and, hdi]
  simp only [List.cons_append, hH, hI, h3]
  simp

/-- C19, as stated, fails: the fields `nancy` and `information` have no
numeric prefix, and `atof` reads them as a NaN and as infinity, not as 0: the
line `Ark,nancy,slip,1,information` yields a boat whose length is a NaN and
whose balance is infinite. -/
theorem lenient_counterexample :
    atof "nancy".toList = CFloat.nan false ∧
    atof "information".toList = CFloat.inf false ∧
    parseCSV "Ark,nancy,slip,1,information".toList =
      some { name := "Ark".toList, length := CFloat.nan false,
             info := ExtraInfo.slip_number 1, amountOwed := CFloat.inf false } := by
  decide

/-- C19, amended: a line of five non-empty fields that fits the buffer is
accepted whatever text its length and balance fields carry, and these two are
what `atof` makes of the trimmed fields, stored as `float`. A field that after
white space and a sign starts neither with a digit, nor with a point and a
digit, nor with the letters `inf` or `nan` in either case (for example `abc`)
is read as 0; a decimal numeral followed by text that does not continue it,
text that starts with none of a digit, a point, `e`, `E`, `x`, `X` (for
example `12.5ft`), is read as the value of the numeral (12.5). Text that
starts with `inf` or `nan` is read as infinity or as a NaN. -/
theorem lenient_numbers (f1 f2 f3 f4 f5 : CString)
    (hf : ∀ f ∈ [f1, f2, f3, f4, f5], f ≠ [] ∧ (∀ c ∈ f, c ≠ ',') ∧ (∀ c ∈ f, c ≠ '\x00'))
    (hfit : (joinFields f1 f2 f3 f4 f5).length ≤ 255) :
    (∃ b, parseCSV (joinFields f1 f2 f3 f4 f5) = some b ∧
      b.length = toFloat (atof (trimWhitespace f2)) ∧
      b.amountOwed = toFloat (atof (trimWhitespace f5))) ∧
    (∀ t, startsNumeric t = false →
      atof t = CFloat.fin false 0 (-1074) ∧ toFloat (atof t) = CFloat.fin false 0 (-149)) ∧
    (∀ (s : Bool) (di rest : CString), di ≠ [] → (∀ c ∈ di, isdigit c = true) →
      endsNumeral rest = true →
      atof ((if s then ['-'] else []) ++ di ++ rest) =
        atof ((if s then ['-'] else []) ++ di)) ∧
    (∀ (s : Bool) (di df rest : CString), di ≠ [] → (∀ c ∈ di, isdigit c = true) →
      (∀ c ∈ df, isdigit c = true) → endsNumeral rest = true →
      atof ((if s then ['-'] else []) ++ di ++ '.' :: df ++ rest) =
        atof ((if s then ['-'] else []) ++ di ++ '.' :: df)) ∧
    toFloat (atof "abc".toList) = floatLit "0" ∧
    toFloat (atof "12.5ft".toList) = floatLit "12.5" := by
  refine ⟨⟨boatOfTokens f1 f2 f3 f4 f5, parseCSV_joinFields f1 f2 f3 f4 f5 hf hfit, rfl, rfl⟩,
    ?_, ?_, ?_, by decide, by decide⟩
  · intro t ht
    have h := strtod_not_numeric t ht
    unfold atof
    rw [h]
    exact ⟨rfl, rfl⟩
  · intro s di rest hdi hdig hr
    unfold atof
    rw [strtod_integer_rest s di rest hdi hdig hr, strtod_integer s di hdi hdig]
  · intro s di df rest hdi hdig hdf hr
    unfold atof
    rw [strtod_fraction_rest s di df rest hdi hdig hdf hr, strtod_fraction s di df hdi hdig hdf]

/-- C19, amended, at the line `Ark,abc,slip,1,12.5ft`. -/
theorem lenient_numbers_witness :
    ∃ b, parseCSV "Ark,abc,slip,1,12.5ft".toList = some b ∧
      b.length = toFloat (atof (trimWhitespace "abc".toList)) ∧
      b.amountOwed = toFloat (atof (trimWhitespace "12.5ft".toList)) :=
  (lenient_numbers "Ark".toList "abc".toList "slip".toList "1".toList "12.5ft".toList
    (by decide) (by decide)).1

/-! ## Payments (claim C13) -/

theorem CFloat.le_zero_iff (s : Bool) (m : Nat) (e : Int) :
    CFloat.le zeroFloat (CFloat.fin s m e) = true ↔ 0 ≤ finValue s m e := by
  unfold zeroFloat
  rw [CFloat.le_fin_iff, finValue_zero]

theorem finValue_not (s : Bool) (m : Nat) (e : Int) :
    finValue (!s) m e = -finValue s m e := by
  cases s
  · rw [Bool.not_false, finValue_true, finValue_false]
  · rw [Bool.not_true, finValue_true, finValue_false, neg_neg]

theorem CFloat.add_nonneg (s : Bool) (m : Nat) (e : Int) (t : Bool) (n : Nat) (g : Int)
    (h : 0 ≤ finValue s m e + finValue t n g) :
    CFloat.le zeroFloat (CFloat.add binary32 (CFloat.fin s m e) (CFloat.fin t n g)) = true := by
  obtain ⟨h0, h1⟩ := CFloat.add_fin_spec binary32 s m e t n g
  by_cases hv : finValue s m e + finValue t n g = 0
  · rw [h0 hv, CFloat.le_zero_iff, finValue_zero]
  · obtain ⟨N, D, hN, hD, hND, hadd⟩ := h1 hv
    rw [hadd, decide_eq_false (not_lt.2 h)]
    rcases roundBin_cases binary32 false N D with hr | ⟨m1, e1, hr, _⟩
    · rw [hr]
      rfl
    · rw [hr, CFloat.le_zero_iff, finValue_false]
      positivity

/-- C13, as stated, fails: the payment `-50` offered for the boat `Sea Lion`,
which owes 100.50, is accepted and raises the balance to 150.50; the payment
`nan` is accepted as well and leaves a NaN as balance, which is neither less
than or equal to the balance before nor non-negative. -/
theorem payment_negative_counterexample :
    applyPayment seaLion (toFloat (atof "-50".toList)) =
      ({ seaLion with amountOwed := floatLit "150.50" }, PaymentOutcome.accepted) ∧
    CFloat.le (applyPayment seaLion (toFloat (atof "-50".toList))).1.amountOwed
      seaLion.amountOwed = false ∧
    paymentEntry [seaLion] "Sea Lion".toList "-50".toList =
      ([{ seaLion with amountOwed := floatLit "150.50" }], PaymentOutcome.accepted) ∧
    applyPayment seaLion (toFloat (atof "nan".toList)) =
      ({ seaLion with amountOwed := CFloat.nan false }, PaymentOutcome.accepted) ∧
    CFloat.le (CFloat.nan false) seaLion.amountOwed = false ∧
    CFloat.le zeroFloat (CFloat.nan false) = false := by
  decide

/-- C13, amended: for every boat whose balance is a `float` number (not a
NaN) and every finite payment amount: if the amount is not negative, the
balance after the payment operation is less than or equal to the balance
before it; if the amount is not positive, the balance after it is greater than
or equal to the balance before it; and if the balance was non-negative before,
it is non-negative after. -/
theorem payment_decreases (b : Boat) (a : CFloat) (hb : b.amountOwed.isFloat = true)
    (hn : b.amountOwed.isNaN = false) (ha : a.isFinite = true) :
    (CFloat.le zeroFloat a = true →
      CFloat.le (applyPayment b a).1.amountOwed b.amountOwed = true) ∧
    (CFloat.le a zeroFloat = true →
      CFloat.le b.amountOwed (applyPayment b a).1.amountOwed = true) ∧
    (CFloat.le zeroFloat b.amountOwed = true →
      CFloat.le zeroFloat (applyPayment b a).1.amountOwed = true) := by
  obtain ⟨name, length, info, owed⟩ := b
  simp only [] at hb hn ⊢
  cases a with
  | nan s => simp [CFloat.isFinite] at ha
  | inf s => simp [CFloat.isFinite] at ha
  | fin s m e =>
    cases owed with
    | nan t => simp [CFloat.isNaN] at hn
    | inf t =>
      cases t
      · exact ⟨fun _ => rfl, fun _ => rfl, fun _ => rfl⟩
      · exact ⟨fun _ => rfl, fun _ => rfl, fun h => h⟩
    | fin t n g =>
      have hst : binary32.stores n g = true := hb
      unfold applyPayment
      simp only []
      by_cases hgt : CFloat.gt (CFloat.fin s m e) (CFloat.fin t n g) = true
      · rw [if_pos hgt]
        simp only []
        exact ⟨fun _ => (CFloat.le_fin_iff _ _ _ _ _ _).2 (le_refl _),
          fun _ => (CFloat.le_fin_iff _ _ _ _ _ _).2 (le_refl _), fun h => h⟩
      · rw [if_neg hgt]
        simp only []
        have hsub : CFloat.sub binary32 (CFloat.fin t n g) (CFloat.fin s m e) =
            CFloat.add binary32 (CFloat.fin t n g) (CFloat.fin (!s) m e) := rfl
        rw [hsub]
        refine ⟨?_, ?_, ?_⟩
        · intro h0
          rw [CFloat.le_zero_iff] at h0
          exact CFloat.add_le_left t n g hst (!s) m e (by rw [finValue_not]; linarith)
        · intro h0
          unfold zeroFloat at h0
          rw [CFloat.le_fin_iff, finValue_zero] at h0
          exact CFloat.add_ge_left t n g hst (!s) m e (by rw [finValue_not]; linarith)
        · intro _
          have h1 : ¬ finValue t n g < finValue s m e := by
            intro h
            exact hgt ((CFloat.lt_fin_iff t n g s m e).2 h)
          exact CFloat.add_nonneg t n g (!s) m e (by rw [finValue_not]; linarith)

/-- C13, amended, at the boat `Sea Lion`: the payment 50 does not raise its
balance and leaves it at least zero, the payment -50 does not lower it. -/
theorem payment_decreases_witness :
    CFloat.le (applyPayment seaLion (floatLit "50")).1.amountOwed seaLion.amountOwed = true ∧
    CFloat.le seaLion.amountOwed (applyPayment seaLion (floatLit "-50")).1.amountOwed = true ∧
    CFloat.le zeroFloat (applyPayment seaLion (floatLit "50")).1.amountOwed = true :=
  ⟨(payment_decreases seaLion (floatLit "50") (by decide) (by decide) (by decide)).1
      (by decide),
    (payment_decreases seaLion (floatLit "-50") (by decide) (by decide) (by decide)).2.1
      (by decide),
    (payment_decreases seaLion (floatLit "50") (by decide) (by decide) (by decide)).2.2
      (by decide)⟩

/-! ## Monthly charges do not lower a balance (claim C14) -/

theorem CFloat.le_zero_cases (x : CFloat) (h : CFloat.le zeroFloat x = true) :
    x = CFloat.inf false ∨ (∃ m e, x = CFloat.fin false m e) ∨ ∃ s e, x = CFloat.fin s 0 e := by
  cases x with
  | nan s => exact (Bool.false_ne_true h).elim
  | inf s =>
    cases s
    · exact Or.inl rfl
    · exact (Bool.false_ne_true h).elim
  | fin s m e =>
    cases s
    · exact Or.inr (Or.inl ⟨m, e, rfl⟩)
    · right
      right
      rw [CFloat.le_zero_iff, finValue_true] at h
      have h2 : (0 : ℚ) < (2 : ℚ) ^ e := by positivity
      have hm : (m : ℚ) ≤ 0 := by
        by_contra hc
        have : 0 < (m : ℚ) * (2 : ℚ) ^ e := mul_pos (not_le.1 hc) h2
        linarith
      have : m = 0 := by
        have : m ≤ 0 := by exact_mod_cast hm
        omega
      exact ⟨true, e, by rw [this]⟩

theorem charge_nonneg (x r : CFloat) (hx : CFloat.le zeroFloat x = true)
    (hr : r.isPositive = true) :
    CFloat.le zeroFloat (toFloat (CFloat.mul binary64 (toDouble x) r)) = true := by
  cases r with
  | nan t => exact (Bool.false_ne_true hr).elim
  | inf t => exact (Bool.false_ne_true hr).elim
  | fin t R G =>
    cases t with
    | true => exact (Bool.false_ne_true hr).elim
    | false =>
      have hR : R ≠ 0 := by simpa [CFloat.isPositive] using hr
      have hfinal : ∀ y : CFloat, (y = CFloat.inf false ∨ ∃ m e, y = CFloat.fin false m e) →
          CFloat.le zeroFloat (toFloat (CFloat.mul binary64 y (CFloat.fin false R G))) = true := by
        intro y hy
        rcases hy with rfl | ⟨m, e, rfl⟩
        · simp only [CFloat.mul, hR, if_false]
          rfl
        · simp only [CFloat.mul]
          rcases roundBin_cases binary64 (false != false) (m * R * 2 ^ (e + G).toNat)
            (2 ^ (-(e + G)).toNat) with h | ⟨m1, e1, h, _⟩
          · rw [h]
            rfl
          · rw [h]
            simp only [toFloat, CFloat.convert]
            rcases roundBin_cases binary32 (false != false) (m1 * 2 ^ e1.toNat)
              (2 ^ (-e1).toNat) with h2 | ⟨m2, e2, h2, _⟩
            · rw [h2]
              rfl
            · rw [h2, CFloat.le_zero_iff]
              show 0 ≤ finValue false m2 e2
              rw [finValue_false]
              positivity
      rcases CFloat.le_zero_cases x hx with rfl | ⟨m, e, rfl⟩ | ⟨s, e, rfl⟩
      · exact hfinal _ (Or.inl rfl)
      · apply hfinal
        simp only [toDouble, CFloat.convert]
        rcases roundBin_cases binary64 false (m * 2 ^ e.toNat) (2 ^ (-e).toNat) with
          h | ⟨m1, e1, h, _⟩
        · exact Or.inl h
        · exact Or.inr ⟨m1, e1, h⟩
      · simp only [toDouble, toFloat, CFloat.convert, CFloat.mul, Nat.zero_mul, roundBin_zero]
        rw [CFloat.le_zero_iff, finValue_zero]

theorem monthlyCharge_nonneg (b : Boat) (h : CFloat.le zeroFloat b.length = true) :
    CFloat.le zeroFloat (monthlyCharge b) = true := by
  unfold monthlyCharge
  cases b.type
  · exact charge_nonneg _ _ h (by decide)
  · exact charge_nonneg _ _ h (by decide)
  · exact charge_nonneg _ _ h (by decide)
  · exact charge_nonneg _ _ h (by decide)

theorem charge_raises (b : Boat) (hlen : CFloat.le zeroFloat b.length = true)
    (hb : b.amountOwed.isFloat = true) (hfin : b.amountOwed.isFinite = true) :
    CFloat.le b.amountOwed (CFloat.add binary32 b.amountOwed (monthlyCharge b)) = true := by
  have hc := monthlyCharge_nonneg b hlen
  generalize monthlyCharge b = c at hc
  obtain ⟨name, length, info, owed⟩ := b
  simp only [] at hb hfin ⊢
  cases owed with
  | nan t => exact (Bool.false_ne_true hfin).elim
  | inf t => exact (Bool.false_ne_true hfin).elim
  | fin t n g =>
    have hst : binary32.stores n g = true := hb
    cases c with
    | nan s => exact (Bool.false_ne_true hc).elim
    | inf s =>
      cases s
      · rfl
      · exact (Bool.false_ne_true hc).elim
    | fin s m e =>
      rw [CFloat.le_zero_iff] at hc
      exact CFloat.add_ge_left t n g hst s m e hc

theorem reachable_isFloat (q : Qsort) (boats : List Boat) (h : Reachable q boats) :
    ∀ b ∈ boats, b.amountOwed.isFloat = true ∧ b.length.isFloat = true :=
  reachable_forall (fun b => b.amountOwed.isFloat = true ∧ b.length.isFloat = true)
    (fun _ _ _ _ _ => ⟨toFloat_isFloat _, toFloat_isFloat _⟩)
    (fun _ hp => ⟨add_isFloat _ _, hp.2⟩) (fun _ _ hp => ⟨sub_isFloat _ _, hp.2⟩) q boats h

/-- C14, as stated, fails: the parser creates boats of negative length (the
line `Ark,-30,slip,1,0.00` is accepted with the length -30), and
`updateMonthlyCharges` then lowers the balance of such a boat, here from 0.00
to -375.00. -/
theorem billing_counterexample :
    addBoatFromCSV insertionQsort [] "Ark,-30,slip,1,0.00".toList = [arkNegative] ∧
    loadBoatsFromFile insertionQsort [] (some "Ark,-30,slip,1,0.00\n".toList) = [arkNegative] ∧
    CFloat.lt arkNegative.length zeroFloat = true ∧
    updateMonthlyCharges [arkNegative] =
      [{ arkNegative with amountOwed := floatLit "-375.00" }] ∧
    CFloat.lt (floatLit "-375.00") arkNegative.amountOwed = true := by
  decide

/-- C14, amended: the parser stores the length as it reads it, negative
lengths and NaNs included; `updateMonthlyCharges` leaves every boat of a
reachable registry in its place, and a boat whose length is not negative and
whose balance is finite has afterwards a balance that is not smaller than
before the call. -/
theorem billing_raises (q : Qsort) (boats : List Boat) (hr : Reachable q boats) (i : Nat)
    (b : Boat) (hi : boats[i]? = some b) (hlen : CFloat.le zeroFloat b.length = true)
    (hfin : b.amountOwed.isFinite = true) :
    ∃ b1, (updateMonthlyCharges boats)[i]? = some b1 ∧ b1.name = b.name ∧
      b1.length = b.length ∧ b1.info = b.info ∧
      CFloat.le b.amountOwed b1.amountOwed = true := by
  have hb := (reachable_isFloat q boats hr b (List.getElem?_mem hi)).1
  refine ⟨{ b with amountOwed := CFloat.add binary32 b.amountOwed (monthlyCharge b) }, ?_,
    rfl, rfl, rfl, charge_raises b hlen hb hfin⟩
  rw [updateMonthlyCharges_eq_map, List.getElem?_map, hi]
  rfl

/-- C14, amended, at the registry made of the line `Sea Lion,21,slip,21,100.50`. -/
theorem billing_raises_witness :
    ∃ b1, (updateMonthlyCharges [seaLion])[0]? = some b1 ∧ b1.name = seaLion.name ∧
      b1.length = seaLion.length ∧ b1.info = seaLion.info ∧
      CFloat.le seaLion.amountOwed b1.amountOwed = true :=
  billing_raises insertionQsort
    (addBoatFromCSV insertionQsort [] "Sea Lion,21,slip,21,100.50".toList)
    (Reachable.add [] _ Reachable.empty) 0 seaLion (by decide) (by decide) (by decide)

/-! ## Monthly charges, exactly (claim C6) -/

theorem rate_literals :
    doubleLiteral "12.50" = CFloat.fin false 7036874417766400 (-49) ∧
    doubleLiteral "14.00" = CFloat.fin false 7881299347898368 (-49) ∧
    doubleLiteral "25.00" = CFloat.fin false 7036874417766400 (-48) ∧
    doubleLiteral "11.20" = CFloat.fin false 6305039478318694 (-49) := by
  decide

theorem charge_close (t : Bool) (n : Nat) (g : Int) (hn : 0 < n) (R : Nat) (G : Int) (ρ : ℚ)
    (hR32 : (R : ℚ) * (2 : ℚ) ^ G ≤ 32) (hρ8 : 8 ≤ ρ)
    (hRρ : |(R : ℚ) * (2 : ℚ) ^ G - ρ| ≤ 1 / 2 ^ 50)
    (k : Nat) (j : Int) (hst : binary32.stores k j = true)
    (hv : (k : ℚ) * (2 : ℚ) ^ j = (n : ℚ) * (2 : ℚ) ^ g * ρ) :
    toFloat (CFloat.mul binary64 (toDouble (CFloat.fin t n g)) (CFloat.fin false R G)) =
      CFloat.fin t k j := by
  obtain ⟨hK, hJ1, hJ2, _⟩ := (stores_iff binary32 k j).1 hst
  simp only [binary32] at hK hJ1 hJ2
  have hu : (0 : ℚ) < (2 : ℚ) ^ j := by positivity
  have hLpos : (0 : ℚ) < (n : ℚ) * (2 : ℚ) ^ g := by
    have : (0 : ℚ) < n := by exact_mod_cast hn
    positivity
  obtain ⟨hρlo, hρhi⟩ := abs_le.1 hRρ
  have hρ33 : ρ ≤ 33 := by
    have : (1 : ℚ) / 2 ^ 50 ≤ 1 := by norm_num
    linarith
  have hrpos : (0 : ℚ) < (R : ℚ) * (2 : ℚ) ^ G := by
    have : (1 : ℚ) / 2 ^ 50 ≤ 1 := by norm_num
    linarith
  have hkq : (k : ℚ) + 1 ≤ 16777216 := by
    have : k + 1 ≤ 16777216 := by omega
    exact_mod_cast this
  have hkpos : (0 : ℚ) < (k : ℚ) := by
    by_contra hc
    have hk0 : (k : ℚ) ≤ 0 := not_lt.1 hc
    have h1 : (k : ℚ) * (2 : ℚ) ^ j ≤ 0 := mul_nonpos_of_nonpos_of_nonneg hk0 (le_of_lt hu)
    have h2 : (0 : ℚ) < (n : ℚ) * (2 : ℚ) ^ g * ρ := by positivity
    linarith
  have hk1 : (1 : ℚ) ≤ k := by
    have : 0 < k := by exact_mod_cast hkpos
    exact_mod_cast this
  generalize hL : (n : ℚ) * (2 : ℚ) ^ g = L at hv hLpos
  generalize hr : (R : ℚ) * (2 : ℚ) ^ G = r at hR32 hρlo hρhi hrpos
  generalize hU : (2 : ℚ) ^ j = u at hv hu
  -- the length is below 2^21 u and above u / 33
  have hT1 := mul_le_mul_of_nonneg_right hkq (le_of_lt hu)
  have hT2 := mul_le_mul_of_nonneg_right hk1 (le_of_lt hu)
  have hL8 := mul_le_mul_of_nonneg_left hρ8 (le_of_lt hLpos)
  have hL33 := mul_le_mul_of_nonneg_left hρ33 (le_of_lt hLpos)
  have hLhi : L < 2097152 * u := by linarith
  have hLlo : u / 33 ≤ L := by linarith
  -- the conversion of the length to double
  have hB0 : ((n * 2 ^ g.toNat : Nat) : ℚ) / ((2 ^ (-g).toNat : Nat) : ℚ) <
      (2 : ℚ) ^ (j + 21) := by
    rw [convert_value, hL, zpow_add₀ (by norm_num), hU]
    norm_num
    linarith
  obtain ⟨M1, E1, hd1, he1⟩ := roundBin_near binary64 (by decide) t _ _
    (by positivity : 0 < n * 2 ^ g.toNat) (by positivity) (j + 21) hB0
    (by simp only [binary64]; omega) (by simp only [binary64]; omega)
  rw [convert_value, hL] at he1
  have he1b : |(M1 : ℚ) * (2 : ℚ) ^ E1 - L| ≤ u / 8589934592 := by
    have h1 : (j + 21) - (binary64.prec : Int) - 1 = j + (-33) := by
      simp only [binary64]
      omega
    rw [h1, zpow_add₀ (by norm_num), hU] at he1
    have h33 : (2 : ℚ) ^ (-33 : Int) = 1 / 8589934592 := by norm_num [zpow_neg]
    rw [h33] at he1
    linarith
  obtain ⟨ha1, ha2⟩ := abs_le.1 he1b
  have hD1pos : (0 : ℚ) < (M1 : ℚ) * (2 : ℚ) ^ E1 := by linarith
  have hM1 : 0 < M1 := by
    rcases Nat.eq_zero_or_pos M1 with h | h
    · subst h
      simp at hD1pos
    · exact h
  generalize hD1 : (M1 : ℚ) * (2 : ℚ) ^ E1 = D1 at ha1 ha2 hD1pos
  -- the product in double
  have hv2 : ((M1 * R * 2 ^ (E1 + G).toNat : Nat) : ℚ) /
      ((2 ^ (-(E1 + G)).toNat : Nat) : ℚ) = D1 * r := by
    rw [convert_value, zpow_add₀ (by norm_num), ← hD1, ← hr]
    push_cast
    ring
  have hR0 : 0 < R := by
    rcases Nat.eq_zero_or_pos R with h | h
    · subst h
      rw [← hr] at hrpos
      simp at hrpos
    · exact h
  have hp1 : D1 * r ≤ D1 * 32 := mul_le_mul_of_nonneg_left hR32 (le_of_lt hD1pos)
  have hB2 : ((M1 * R * 2 ^ (E1 + G).toNat : Nat) : ℚ) /
      ((2 ^ (-(E1 + G)).toNat : Nat) : ℚ) < (2 : ℚ) ^ (j + 27) := by
    rw [hv2, zpow_add₀ (by norm_num), hU]
    norm_num
    linarith
  obtain ⟨M2, E2, hd2, he2⟩ := roundBin_near binary64 (by decide) (t != false) _ _
    (by positivity : 0 < M1 * R * 2 ^ (E1 + G).toNat) (by positivity) (j + 27) hB2
    (by simp only [binary64]; omega) (by simp only [binary64]; omega)
  rw [hv2] at he2
  have he2b : |(M2 : ℚ) * (2 : ℚ) ^ E2 - D1 * r| ≤ u / 134217728 := by
    have h1 : (j + 27) - (binary64.prec : Int) - 1 = j + (-27) := by
      simp only [binary64]
      omega
    rw [h1, zpow_add₀ (by norm_num), hU] at he2
    have h27 : (2 : ℚ) ^ (-27 : Int) = 1 / 134217728 := by norm_num [zpow_neg]
    rw [h27] at he2
    linarith
  obtain ⟨hb1, hb2⟩ := abs_le.1 he2b
  -- the product against the exact charge
  have hq1 : (D1 - L) * r ≤ u / 8589934592 * 32 :=
    mul_le_mul (by linarith) hR32 (le_of_lt hrpos) (by positivity)
  have hq2 : -(u / 8589934592 * 32) ≤ (D1 - L) * r := by
    have : (L - D1) * r ≤ u / 8589934592 * 32 :=
      mul_le_mul (by linarith) hR32 (le_of_lt hrpos) (by positivity)
    linarith
  have hq3 : L * (r - ρ) ≤ 2097152 * u * (1 / 2 ^ 50) := by
    have h1 : L * (r - ρ) ≤ L * (1 / 2 ^ 50) := mul_le_mul_of_nonneg_left hρhi (le_of_lt hLpos)
    have h2 : L * (1 / 2 ^ 50) ≤ 2097152 * u * (1 / 2 ^ 50) :=
      mul_le_mul_of_nonneg_right (le_of_lt hLhi) (by positivity)
    linarith
  have hq4 : -(2097152 * u * (1 / 2 ^ 50)) ≤ L * (r - ρ) := by
    have h1 : L * -(1 / 2 ^ 50) ≤ L * (r - ρ) := mul_le_mul_of_nonneg_left hρlo (le_of_lt hLpos)
    have h2 : L * (1 / 2 ^ 50) ≤ 2097152 * u * (1 / 2 ^ 50) :=
      mul_le_mul_of_nonneg_right (le_of_lt hLhi) (by positivity)
    linarith
  have hsplit : D1 * r - L * ρ = (D1 - L) * r + L * (r - ρ) := by ring
  have hclose : |(M2 : ℚ) * (2 : ℚ) ^ E2 - (k : ℚ) * u| < u / 4 := by
    rw [hv, abs_lt]
    constructor <;> linarith
  have hD2pos : (0 : ℚ) < (M2 : ℚ) * (2 : ℚ) ^ E2 := by
    obtain ⟨h1, _⟩ := abs_lt.1 hclose
    linarith
  have hM2 : 0 < M2 := by
    rcases Nat.eq_zero_or_pos M2 with h | h
    · subst h
      simp at hD2pos
    · exact h
  have e1 : toDouble (CFloat.fin t n g) = CFloat.fin t M1 E1 := hd1
  have e2 : CFloat.mul binary64 (CFloat.fin t M1 E1) (CFloat.fin false R G) =
      CFloat.fin (t != false) M2 E2 := hd2
  have ht : (t != false) = t := by cases t <;> rfl
  rw [e1, e2, ht]
  show roundBin binary32 t (M2 * 2 ^ E2.toNat) (2 ^ (-E2).toNat) = CFloat.fin t k j
  apply roundBin_of_close binary32 (by decide) t _ _ (by positivity) (by positivity) k j hst
  rw [convert_value, hU]
  exact hclose

theorem charge_zero (t : Bool) (g : Int) (R : Nat) (G : Int) :
    toFloat (CFloat.mul binary64 (toDouble (CFloat.fin t 0 g)) (CFloat.fin false R G)) =
      CFloat.fin t 0 (-149) := by
  have ht : (t != false) = t := by cases t <;> rfl
  simp only [toDouble, toFloat, CFloat.convert, CFloat.mul, Nat.zero_mul, roundBin_zero, ht]
  rfl

theorem finValue_abs (s : Bool) (m : Nat) (e : Int) :
    |finValue s m e| = (m : ℚ) * (2 : ℚ) ^ e := by
  have h : (0 : ℚ) ≤ (m : ℚ) * (2 : ℚ) ^ e := by positivity
  cases s
  · rw [finValue_false, abs_of_nonneg h]
  · rw [finValue_true, abs_neg, abs_of_nonneg h]

theorem monthlyCharge_exact (b : Boat) (hLf : b.length.isFinite = true)
    (hc : IsFloatValue (b.length.toRat * rateOf b.type)) :
    (monthlyCharge b).isFloat = true ∧ (monthlyCharge b).isFinite = true ∧
      (monthlyCharge b).toRat = b.length.toRat * rateOf b.type := by
  obtain ⟨z, hz1, hz2, hz3⟩ := hc
  obtain ⟨l1, l2, l3, l4⟩ := rate_literals
  have key : ∀ (R : Nat) (G : Int) (ρ : ℚ), (R : ℚ) * (2 : ℚ) ^ G ≤ 32 → 8 ≤ ρ →
      |(R : ℚ) * (2 : ℚ) ^ G - ρ| ≤ 1 / 2 ^ 50 → z.toRat = b.length.toRat * ρ →
      (toFloat (CFloat.mul binary64 (toDouble b.length) (CFloat.fin false R G))).isFloat = true ∧
      (toFloat (CFloat.mul binary64 (toDouble b.length) (CFloat.fin false R G))).isFinite
        = true ∧
      (toFloat (CFloat.mul binary64 (toDouble b.length) (CFloat.fin false R G))).toRat =
        b.length.toRat * ρ := by
    intro R G ρ h1 h2 h3 h4
    cases hlen : b.length with
    | nan t => rw [hlen] at hLf; exact (Bool.false_ne_true hLf).elim
    | inf t => rw [hlen] at hLf; exact (Bool.false_ne_true hLf).elim
    | fin t n g =>
      rw [hlen] at h4
      rcases Nat.eq_zero_or_pos n with hn | hn
      · subst hn
        rw [charge_zero]
        refine ⟨by cases t <;> decide, rfl, ?_⟩
        simp only [CFloat.toRat, finValue_zero, zero_mul]
      · cases hzz : z with
        | nan u => rw [hzz] at hz2; exact (Bool.false_ne_true hz2).elim
        | inf u => rw [hzz] at hz2; exact (Bool.false_ne_true hz2).elim
        | fin u k j =>
          rw [hzz] at hz1 h4
          have hst : binary32.stores k j = true := hz1
          simp only [CFloat.toRat] at h4
          have hpos : (0 : ℚ) < (n : ℚ) * (2 : ℚ) ^ g * ρ := by
            have : (0 : ℚ) < n := by exact_mod_cast hn
            positivity
          have habs : (k : ℚ) * (2 : ℚ) ^ j = (n : ℚ) * (2 : ℚ) ^ g * ρ := by
            have := congrArg abs h4
            rw [finValue_abs, abs_mul, finValue_abs, abs_of_pos (by linarith : (0 : ℚ) < ρ)]
              at this
            exact this
          rw [charge_close t n g hn R G ρ h1 h2 h3 k j hst habs]
          refine ⟨hst, rfl, ?_⟩
          simp only [CFloat.toRat]
          rw [← h4]
          cases t
          · have hu : u = false := by
              apply finValue_pos_sign u k j
              rw [h4, finValue_false]
              exact hpos
            rw [hu]
          · have hu : u = true := by
              apply finValue_neg_sign u k j
              rw [h4, finValue_true]
              linarith
            rw [hu]
  unfold monthlyCharge
  cases hty : b.type with
  | SLIP =>
    rw [hty] at hz3
    rw [l1]
    exact key _ _ (25 / 2) (by norm_num [zpow_neg]) (by norm_num) (by norm_num [zpow_neg]) hz3
  | LAND =>
    rw [hty] at hz3
    rw [l2]
    exact key _ _ 14 (by norm_num [zpow_neg]) (by norm_num) (by norm_num [zpow_neg]) hz3
  | TRAILOR =>
    rw [hty] at hz3
    rw [l3]
    exact key _ _ 25 (by norm_num [zpow_neg]) (by norm_num) (by norm_num [zpow_neg]) hz3
  | STORAGE =>
    rw [hty] at hz3
    rw [l4]
    exact key _ _ (56 / 5) (by norm_num [zpow_neg]) (by norm_num) (by
      rw [abs_le]; constructor <;> norm_num [zpow_neg]) hz3

theorem add_exact (a c : CFloat) (ha : a.isFinite = true) (hc : c.isFinite = true)
    (hs : IsFloatValue (a.toRat + c.toRat)) :
    (CFloat.add binary32 a c).isFloat = true ∧ (CFloat.add binary32 a c).isFinite = true ∧
      (CFloat.add binary32 a c).toRat = a.toRat + c.toRat := by
  cases a with
  | nan s => exact (Bool.false_ne_true ha).elim
  | inf s => exact (Bool.false_ne_true ha).elim
  | fin s m e =>
    cases c with
    | nan t => exact (Bool.false_ne_true hc).elim
    | inf t => exact (Bool.false_ne_true hc).elim
    | fin t n g =>
      obtain ⟨h0, h1⟩ := CFloat.add_fin_spec binary32 s m e t n g
      simp only [CFloat.toRat] at hs ⊢
      by_cases hz : finValue s m e + finValue t n g = 0
      · rw [h0 hz, hz]
        refine ⟨by cases s <;> cases t <;> decide, rfl, ?_⟩
        simp only [CFloat.toRat, finValue_zero]
      · obtain ⟨N, D, hN, hD, hv, heq⟩ := h1 hz
        obtain ⟨z, hz1, hz2, hz3⟩ := hs
        cases z with
        | nan u => exact (Bool.false_ne_true hz2).elim
        | inf u => exact (Bool.false_ne_true hz2).elim
        | fin u K J =>
          have hst : binary32.stores K J = true := hz1
          simp only [CFloat.toRat] at hz3
          rw [← hz3] at hv hz heq ⊢
          have hr : roundBin binary32 (decide (finValue u K J < 0)) N D =
              CFloat.fin (decide (finValue u K J < 0)) K J := by
            apply roundBin_of_close binary32 (by decide) _ N D hN hD K J hst
            rw [hv, finValue_abs, sub_self, abs_zero]
            positivity
          rw [heq, hr]
          refine ⟨hst, rfl, ?_⟩
          simp only [CFloat.toRat]
          rcases lt_or_gt_of_ne hz with h | h
          · have hu := finValue_neg_sign u K J h
            subst hu
            rw [decide_eq_true h]
          · have hu := finValue_pos_sign u K J h
            subst hu
            rw [decide_eq_false (not_lt.2 (le_of_lt h))]

theorem gains_of_exact (boats : List Boat) (i : Nat) (b : Boat) (hb : boats[i]? = some b)
    (hlen : b.length.isFinite = true) (hbal : b.amountOwed.isFinite = true)
    (hc : IsFloatValue (b.length.toRat * rateOf b.type))
    (hs : IsFloatValue (b.amountOwed.toRat + b.length.toRat * rateOf b.type)) :
    GainsExactly boats i b (b.length.toRat * rateOf b.type) := by
  obtain ⟨c1, c2, c3⟩ := monthlyCharge_exact b hlen hc
  rw [← c3] at hs
  obtain ⟨a1, a2, a3⟩ := add_exact b.amountOwed (monthlyCharge b) hbal c2 hs
  rw [c3] at a3
  refine ⟨{ b with amountOwed := CFloat.add binary32 b.amountOwed (monthlyCharge b) },
    ?_, a1, a2, a3⟩
  rw [updateMonthlyCharges_eq_map, List.getElem?_map, hb]
  rfl

theorem literal_values :
    (floatLit "375").toRat = 375 ∧ (floatLit "280").toRat = 280 ∧
    (floatLit "400").toRat = 400 ∧ (floatLit "112").toRat = 112 := by
  have h1 : floatLit "375" = CFloat.fin false 12288000 (-15) := by decide
  have h2 : floatLit "280" = CFloat.fin false 9175040 (-15) := by decide
  have h3 : floatLit "400" = CFloat.fin false 13107200 (-15) := by decide
  have h4 : floatLit "112" = CFloat.fin false 14680064 (-17) := by decide
  rw [h1, h2, h3, h4]
  simp only [CFloat.toRat, finValue_false]
  norm_num [zpow_neg]

theorem gains_sample (boats : List Boat) (i : Nat) (b : Boat) (hb : boats[i]? = some b)
    (hlen : b.length.isFinite = true) (hbal : b.amountOwed.isFinite = true) (v : ℚ)
    (z : CFloat) (hz : z.isFloat = true ∧ z.isFinite = true ∧ z.toRat = v)
    (hv : b.length.toRat * rateOf b.type = v) (hs : IsFloatValue (b.amountOwed.toRat + v)) :
    GainsExactly boats i b v := by
  subst hv
  exact gains_of_exact boats i b hb hlen hbal ⟨z, hz⟩ hs

/-- C6, as stated, fails: the line `Ark,30,slip,1,16777216` gives a slip boat
of length 30 that owes 16777216; its charge is 375.00, and after
`updateMonthlyCharges` it owes 16777592, which is 376 more, not 375. The boat
of the line `Ark,30,slip,1,10000000000` owes the same after
`updateMonthlyCharges` as before, it gains nothing. The boat of the line
`Dinghy,1,storage,1,0.00`, of length 1 in storage, owes the `float` nearest to
11.20 afterwards, which is not 11.20. -/
theorem charges_counterexample :
    parseCSV "Ark,30,slip,1,16777216".toList = some arkRich ∧
    arkRich.type = BoatType.SLIP ∧ arkRich.length = floatLit "30" ∧
    monthlyCharge arkRich = floatLit "375.00" ∧
    (updateMonthlyCharges [arkRich]).map (fun b => b.amountOwed) = [floatLit "16777592"] ∧
    CFloat.sub binary32 (floatLit "16777592") arkRich.amountOwed = floatLit "376.00" ∧
    (floatLit "16777592").toRat = arkRich.amountOwed.toRat + 376 ∧
    parseCSV "Ark,30,slip,1,10000000000".toList = some arkHuge ∧
    updateMonthlyCharges [arkHuge] = [arkHuge] ∧
    parseCSV "Dinghy,1,storage,1,0.00".toList = some dinghy ∧
    (updateMonthlyCharges [dinghy]).map (fun b => b.amountOwed) = [floatLit "11.20"] ∧
    (floatLit "11.20").toRat ≠ dinghy.amountOwed.toRat + dinghy.length.toRat * rateOf dinghy.type := by
  refine ⟨by decide, by decide, by decide, by decide, by decide, by decide, ?_, by decide,
    by decide, by decide, by decide, ?_⟩
  · have h1 : floatLit "16777592" = CFloat.fin false 8388796 1 := by decide
    have h2 : arkRich.amountOwed = CFloat.fin false 8388608 1 := by decide
    rw [h1, h2]
    simp only [CFloat.toRat, finValue_false]
    norm_num
  · have h1 : floatLit "11.20" = CFloat.fin false 11744051 (-20) := by decide
    have h2 : dinghy.amountOwed = CFloat.fin false 0 (-149) := by decide
    have h3 : dinghy.length = CFloat.fin false 8388608 (-23) := by decide
    have h4 : dinghy.type = BoatType.STORAGE := by decide
    rw [h1, h2, h3, h4]
    simp only [CFloat.toRat, finValue_false, rateOf]
    norm_num [zpow_neg]

/-- C6, amended: for every registry and every boat in it whose length and
balance are finite, if `length * rate[kind]` and `amountOwed + length *
rate[kind]`, with rates Slip = 12.50, Land = 14.00, Trailer = 25.00, Storage =
11.20 per foot, are both numbers of the type `float`, `updateMonthlyCharges`
adds to the boat's `amountOwed` exactly `length * rate[kind]`; in particular a
Slip boat of length 30 gains exactly 375.00 if its balance plus 375.00 is a
number of the type `float`, and so do a Land boat of length 20 with 280.00, a
Trailer boat of length 16 with 400.00 and a Storage boat of length 10 with
112.00. -/
theorem charges_exact (boats : List Boat) (i : Nat) (b : Boat) (hb : boats[i]? = some b)
    (hlen : b.length.isFinite = true) (hbal : b.amountOwed.isFinite = true) :
    (IsFloatValue (b.length.toRat * rateOf b.type) →
      IsFloatValue (b.amountOwed.toRat + b.length.toRat * rateOf b.type) →
      GainsExactly boats i b (b.length.toRat * rateOf b.type)) ∧
    (b.type = BoatType.SLIP → b.length.toRat = 30 →
      IsFloatValue (b.amountOwed.toRat + 375) → GainsExactly boats i b 375) ∧
    (b.type = BoatType.LAND → b.length.toRat = 20 →
      IsFloatValue (b.amountOwed.toRat + 280) → GainsExactly boats i b 280) ∧
    (b.type = BoatType.TRAILOR → b.length.toRat = 16 →
      IsFloatValue (b.amountOwed.toRat + 400) → GainsExactly boats i b 400) ∧
    (b.type = BoatType.STORAGE → b.length.toRat = 10 →
      IsFloatValue (b.amountOwed.toRat + 112) → GainsExactly boats i b 112) := by
  obtain ⟨v1, v2, v3, v4⟩ := literal_values
  refine ⟨gains_of_exact boats i b hb hlen hbal, ?_, ?_, ?_, ?_⟩
  · intro ht hl hs
    exact gains_sample boats i b hb hlen hbal 375 (floatLit "375") ⟨by decide, by decide, v1⟩
      (by rw [ht, hl]; norm_num [rateOf]) hs
  · intro ht hl hs
    exact gains_sample boats i b hb hlen hbal 280 (floatLit "280") ⟨by decide, by decide, v2⟩
      (by rw [ht, hl]; norm_num [rateOf]) hs
  · intro ht hl hs
    exact gains_sample boats i b hb hlen hbal 400 (floatLit "400") ⟨by decide, by decide, v3⟩
      (by rw [ht, hl]; norm_num [rateOf]) hs
  · intro ht hl hs
    exact gains_sample boats i b hb hlen hbal 112 (floatLit "112") ⟨by decide, by decide, v4⟩
      (by rw [ht, hl]; norm_num [rateOf]) hs

theorem sample_values :
    bigBrother.length.toRat = 20 ∧ bigBrother.amountOwed.toRat = 1200 ∧
    (floatLit "1480").toRat = 1480 ∧
    seaLion.length.toRat = 21 ∧ seaLion.amountOwed.toRat = 201 / 2 ∧
    (floatLit "262.5").toRat = 525 / 2 ∧ (floatLit "363").toRat = 363 := by
  have h1 : bigBrother.length = CFloat.fin false 10485760 (-19) := by decide
  have h2 : bigBrother.amountOwed = CFloat.fin false 9830400 (-13) := by decide
  have h3 : floatLit "1480" = CFloat.fin false 12124160 (-13) := by decide
  have h4 : seaLion.length = CFloat.fin false 11010048 (-19) := by decide
  have h5 : seaLion.amountOwed = CFloat.fin false 13172736 (-17) := by decide
  have h6 : floatLit "262.5" = CFloat.fin false 8601600 (-15) := by decide
  have h7 : floatLit "363" = CFloat.fin false 11894784 (-15) := by decide
  rw [h1, h2, h3, h4, h5, h6, h7]
  simp only [CFloat.toRat, finValue_false]
  norm_num [zpow_neg]

/-- C6, amended, at the registry of `Sea Lion`, a slip boat of 21 feet that owes
100.50, and `Big Brother`, a boat on land of 20 feet that owes 1200.00: the
first gains exactly 262.50, the second exactly 280.00. -/
theorem charges_exact_witness :
    [seaLion, bigBrother][0]? = some seaLion ∧ [seaLion, bigBrother][1]? = some bigBrother ∧
    GainsExactly [seaLion, bigBrother] 0 seaLion (seaLion.length.toRat * rateOf seaLion.type) ∧
    seaLion.length.toRat * rateOf seaLion.type = 525 / 2 ∧
    GainsExactly [seaLion, bigBrother] 1 bigBrother 280 :=
  ⟨rfl, rfl,
    (charges_exact [seaLion, bigBrother] 0 seaLion rfl (by decide) (by decide)).1
      ⟨floatLit "262.5", by decide, by decide, by
        rw [sample_values.2.2.2.2.2.1, sample_values.2.2.2.1]
        norm_num [Boat.type, seaLion, rateOf]⟩
      ⟨floatLit "363", by decide, by decide, by
        rw [sample_values.2.2.2.2.2.2, sample_values.2.2.2.1, sample_values.2.2.2.2.1]
        norm_num [Boat.type, seaLion, rateOf]⟩,
    by
      rw [sample_values.2.2.2.1]
      norm_num [Boat.type, seaLion, rateOf],
    (charges_exact [seaLion, bigBrother] 1 bigBrother rfl (by decide) (by decide)).2.2.1
      (by decide) sample_values.1
      ⟨floatLit "1480", by decide, by decide, by
        rw [sample_values.2.2.1, sample_values.2.1]
        norm_num⟩⟩

end BoatManagement
